import Mathlib

/-!
# Route-comparison engine (Dijkstra versus A*) of `src/main.cpp`

A shallow embedding of the graph model, the two shortest-path loops of
`runExperiment`, the graph builder `LucknowHandler::way` and the acceptance test
of the trial harness, followed by the properties established about them.

Modelling conventions.

* `double` values are elements of a linearly ordered commutative ring `α` (the integers for
  evaluation, the reals for the statements about `haversine`); rounding, NaN and
  infinities are outside the model.
* `long long` node identifiers are integers; no arithmetic is performed on them.
* `std::unordered_map<long long, V>` is an association list `UMap V` with unique
  live bindings: `find` is `unordered_map::find`, `index` is `operator[]` used as
  an rvalue (it inserts a value-initialised entry when the key is absent) and
  `assign` is `m[k] = v`.
* `std::priority_queue<pair<double, long long>, ..., greater<>>` is a list of
  pairs, `top` being the least pair for the lexicographic `operator<` of
  `std::pair`. Equal pairs are indistinguishable, so this determines the
  behaviour of the queue.
* The `int` counters `visited_d` and `visited_a` are natural numbers (signed
  overflow past `2^31 - 1` is undefined behaviour in the source and is not
  modelled).
* `while` loops take a fuel argument and return `none` when it runs out.
* `time_ms` of `TrialResult` is wall-clock time and is not modelled.
-/

namespace Lucknow

/-! ## Data model -/

/-- The source's `struct Point { double lat, lon; }`. -/
structure Point (α : Type) where
  lat : α
  lon : α
deriving DecidableEq, Repr

/-- The source's `struct Edge { long long to; double weight; }`; the field `to` is spelled `to_`
because `to` is a reserved word. -/
structure Edge (α : Type) where
  to_ : Int
  weight : α
deriving DecidableEq, Repr

/-- The source's `struct TrialResult` without the wall-clock field `time_ms`. -/
structure TrialResult (α : Type) where
  distance : α
  dijkstra_visited : Nat
  astar_visited : Nat
deriving DecidableEq, Repr

/-- An `unordered_map<long long, V>`: association list, the first binding of a key is live. -/
abbrev UMap (V : Type) := List (Int × V)

/-- The `unordered_map::find` lookup: `none` stands for `end()`. -/
def UMap.find {V : Type} (m : UMap V) (k : Int) : Option V :=
  match m with
  | [] => none
  | (k', v) :: rest => if k' = k then some v else UMap.find rest k

/-- The `operator[]` read: the value bound to `k`, inserting the value-initialised `d` when absent. -/
def UMap.index {V : Type} (d : V) (m : UMap V) (k : Int) : V × UMap V :=
  match UMap.find m k with
  | some v => (v, m)
  | none => (d, (k, d) :: m)

/-- The assignment `m[k] = v`. -/
def UMap.assign {V : Type} (m : UMap V) (k : Int) (v : V) : UMap V :=
  match m with
  | [] => [(k, v)]
  | (k', v') :: rest => if k' = k then (k, v) :: rest else (k', v') :: UMap.assign rest k v

/-- The two global maps `adj` and `node_coords`. -/
structure Graph (α : Type) where
  adj : UMap (List (Edge α))
  node_coords : UMap (Point α)

/-- The value-initialised `Point` that `node_coords[k]` inserts for an absent key. -/
def Point.zero {α : Type} [Zero α] : Point α := ⟨0, 0⟩

/-! ## Priority queue -/

/-- A `priority_queue<pair<double, long long>, vector<...>, greater<>>`. -/
abbrev PQ (α : Type) := List (α × Int)

/-- The `operator<` of `std::pair<double, long long>`. -/
def pairLt {α : Type} [LinearOrder α] (a b : α × Int) : Bool :=
  decide (a.1 < b.1) || (!decide (b.1 < a.1) && decide (a.2 < b.2))

/-- The `top()` of the min-queue: the least pair, `none` when `empty()`. -/
def pqTop {α : Type} [LinearOrder α] : PQ α → Option (α × Int)
  | [] => none
  | x :: xs =>
    match pqTop xs with
    | none => some x
    | some y => if pairLt y x then some y else some x

/-- The `pop()` of the min-queue: removes one copy of the least pair. -/
def pqPop {α : Type} [LinearOrder α] (q : PQ α) : PQ α :=
  match pqTop q with
  | none => q
  | some x => q.erase x

/-! ## Dijkstra's loop (source lines 66-81) -/

/-- The body of `for (auto& e : adj[u])` in Dijkstra's loop, over the remaining edges. -/
def relaxD {α : Type} [LinearOrderedCommRing α] (u : Int) :
    List (Edge α) → PQ α × UMap α → PQ α × UMap α
  | [], s => s
  | e :: es, (pq, dist) =>
    -- `dist_d.find(e.to) == dist_d.end() || dist_d[u] + e.weight < dist_d[e.to]`
    let c : Bool × UMap α :=
      match UMap.find dist e.to_ with
      | none => (true, dist)
      | some _ =>
        let r1 := UMap.index 0 dist u
        let r2 := UMap.index 0 r1.2 e.to_
        (decide (r1.1 + e.weight < r2.1), r2.2)
    if c.1 then
      -- `dist_d[e.to] = dist_d[u] + e.weight;`
      let r1 := UMap.index 0 c.2 u
      let d2 := UMap.assign r1.2 e.to_ (r1.1 + e.weight)
      -- `pq_d.push({dist_d[e.to], e.to});`
      let r3 := UMap.index 0 d2 e.to_
      relaxD u es ((r3.1, e.to_) :: pq, r3.2)
    else relaxD u es (pq, c.2)

/-- The state of Dijkstra's loop: the global `adj`, `pq_d`, `dist_d`, `visited_d`. -/
structure DState (α : Type) where
  adj : UMap (List (Edge α))
  pq : PQ α
  dist : UMap α
  visited : Nat

/-- The `while (!pq_d.empty())` loop; `none` when the fuel runs out. -/
def dijkstraLoop {α : Type} [LinearOrderedCommRing α] (goal : Int) : Nat → DState α → Option (DState α)
  | 0, _ => none
  | n + 1, s =>
    match pqTop s.pq with
    | none => some s
    | some t =>
      let u := t.2
      let pq1 := pqPop s.pq
      let visited1 := s.visited + 1
      if u = goal then some ⟨s.adj, pq1, s.dist, visited1⟩
      else
        let a := UMap.index [] s.adj u
        let r := relaxD u a.1 (pq1, s.dist)
        dijkstraLoop goal n ⟨a.2, r.1, r.2, visited1⟩

/-! ## The A* loop (source lines 85-102) -/

/-- The state threaded through the A* relaxation: `pq_a`, `dist_a`, `node_coords`. -/
structure AInner (α : Type) where
  pq : PQ α
  dist : UMap α
  node_coords : UMap (Point α)

/-- The body of `for (auto& e : adj[u])` in the A* loop, over the remaining edges.
The two arguments of `haversine` are evaluated left to right. -/
def relaxA {α : Type} [LinearOrderedCommRing α] (hav : Point α → Point α → α) (goal u : Int) :
    List (Edge α) → AInner α → AInner α
  | [], s => s
  | e :: es, s =>
    -- `double g = dist_a[u] + e.weight;`
    let r1 := UMap.index 0 s.dist u
    let g := r1.1 + e.weight
    -- `dist_a.find(e.to) == dist_a.end() || g < dist_a[e.to]`
    let c : Bool × UMap α :=
      match UMap.find r1.2 e.to_ with
      | none => (true, r1.2)
      | some _ =>
        let r2 := UMap.index 0 r1.2 e.to_
        (decide (g < r2.1), r2.2)
    if c.1 then
      -- `dist_a[e.to] = g;`
      let d2 := UMap.assign c.2 e.to_ g
      -- `double h = haversine(node_coords[e.to], node_coords[goal]);`
      let p1 := UMap.index Point.zero s.node_coords e.to_
      let p2 := UMap.index Point.zero p1.2 goal
      let h := hav p1.1 p2.1
      -- `pq_a.push({g + h, e.to});`
      relaxA hav goal u es ⟨(g + h, e.to_) :: s.pq, d2, p2.2⟩
    else relaxA hav goal u es ⟨s.pq, c.2, s.node_coords⟩

/-- The state of the A* loop: both global maps, `pq_a`, `dist_a`, `visited_a`. -/
structure AState (α : Type) where
  adj : UMap (List (Edge α))
  node_coords : UMap (Point α)
  pq : PQ α
  dist : UMap α
  visited : Nat

/-- The `while (!pq_a.empty())` loop; `none` when the fuel runs out. -/
def astarLoop {α : Type} [LinearOrderedCommRing α] (hav : Point α → Point α → α) (goal : Int) :
    Nat → AState α → Option (AState α)
  | 0, _ => none
  | n + 1, s =>
    match pqTop s.pq with
    | none => some s
    | some t =>
      let u := t.2
      let pq1 := pqPop s.pq
      let visited1 := s.visited + 1
      if u = goal then some ⟨s.adj, s.node_coords, pq1, s.dist, visited1⟩
      else
        let a := UMap.index [] s.adj u
        let r := relaxA hav goal u a.1 ⟨pq1, s.dist, s.node_coords⟩
        astarLoop hav goal n ⟨a.2, r.node_coords, r.pq, r.dist, visited1⟩

/-! ## `runExperiment` (source lines 64-107) -/

/-- The initial state of Dijkstra's loop: `pq_d.push({0.0, start}); dist_d[start] = 0.0;`. -/
def dijkstraInit {α : Type} [LinearOrderedCommRing α] (g : Graph α) (start : Int) : DState α :=
  ⟨g.adj, [(0, start)], UMap.assign [] start 0, 0⟩

/-- The initial state of the A* loop, on the adjacency map Dijkstra's loop left behind. -/
def astarInit {α : Type} [LinearOrderedCommRing α] (adj : UMap (List (Edge α)))
    (node_coords : UMap (Point α)) (start : Int) : AState α :=
  ⟨adj, node_coords, [(0, start)], UMap.assign [] start 0, 0⟩

/-- The function `runExperiment(start, goal)`: the returned record together with the global maps
as the call leaves them. Each of the two loops receives `fuel` iterations. -/
def runExperiment {α : Type} [LinearOrderedCommRing α] (hav : Point α → Point α → α)
    (g : Graph α) (start goal : Int) (fuel : Nat) : Option (TrialResult α × Graph α) :=
  match dijkstraLoop goal fuel (dijkstraInit g start) with
  | none => none
  | some d =>
    match astarLoop hav goal fuel (astarInit d.adj g.node_coords start) with
    | none => none
    | some a =>
      -- `return {dist_a[goal], visited_d, visited_a, time_ms};`
      some (⟨(UMap.index 0 a.dist goal).1, d.visited, a.visited⟩, ⟨a.adj, a.node_coords⟩)

/-! ## The distance function (source lines 38-44) -/

/-- The function `haversine(p1, p2)` over the real numbers, `M_PI` being `π`. -/
noncomputable def haversine (p1 p2 : Point ℝ) : ℝ :=
  let r : ℝ := 6371
  let dLat := (p2.lat - p1.lat) * Real.pi / 180
  let dLon := (p2.lon - p1.lon) * Real.pi / 180
  let a := Real.sin (dLat / 2) * Real.sin (dLat / 2)
    + Real.cos (p1.lat * Real.pi / 180) * Real.cos (p2.lat * Real.pi / 180)
      * Real.sin (dLon / 2) * Real.sin (dLon / 2)
  2 * r * Real.arcsin (Real.sqrt a)

/-! ## The graph builder `LucknowHandler::way` (source lines 48-61) -/

/-- A node of a way as the handler reads it: `ref()`, `lat()`, `lon()`. -/
structure NodeRef (α : Type) where
  ref : Int
  lat : α
  lon : α
deriving DecidableEq, Repr

/-- The statement `adj[u].push_back(e)`. -/
def pushBack {α : Type} (adj : UMap (List (Edge α))) (u : Int) (e : Edge α) :
    UMap (List (Edge α)) :=
  let r := UMap.index [] adj u
  UMap.assign r.2 u (r.1 ++ [e])

/-- The body of the loop of `way` for the consecutive nodes `n1 = nodes[i]`, `n2 = nodes[i+1]`. -/
def wayStep {α : Type} [Zero α] (hav : Point α → Point α → α) (g : Graph α)
    (n1 n2 : NodeRef α) : Graph α :=
  let u := n1.ref
  let v := n2.ref
  let nc1 := UMap.assign g.node_coords u ⟨n1.lat, n1.lon⟩
  let nc2 := UMap.assign nc1 v ⟨n2.lat, n2.lon⟩
  let pu := UMap.index Point.zero nc2 u
  let pv := UMap.index Point.zero pu.2 v
  let d := hav pu.1 pv.1
  let adj1 := pushBack g.adj u ⟨v, d⟩
  let adj2 := pushBack adj1 v ⟨u, d⟩
  ⟨adj2, pv.2⟩

/-- The loop `for (size_t i = 0; i < bound; ++i)` of `way` with `remaining = bound - i` iterations
left. Reading `nodes[i]` or `nodes[i+1]` past the end of the node list is undefined behaviour in
the source and yields `none`. -/
def wayLoop {α : Type} [Zero α] (hav : Point α → Point α → α) (nodes : List (NodeRef α)) :
    Nat → Nat → Graph α → Option (Graph α)
  | 0, _, g => some g
  | remaining + 1, i, g =>
    match nodes[i]?, nodes[i + 1]? with
    | some n1, some n2 => wayLoop hav nodes remaining (i + 1) (wayStep hav g n1 n2)
    | _, _ => none

/-- The loop bound `nodes.size() - 1`, computed in `size_t` (64-bit unsigned) arithmetic. -/
def wayBound (size : Nat) : Nat := (size + (2 ^ 64 - 1)) % 2 ^ 64

/-- The handler `LucknowHandler::way`; `highway` tells whether `get_value_by_key("highway")` is
non-null and `nodes` is `way.nodes()`. -/
def way {α : Type} [Zero α] (hav : Point α → Point α → α) (highway : Bool)
    (nodes : List (NodeRef α)) (g : Graph α) : Option (Graph α) :=
  if highway then wayLoop hav nodes (wayBound nodes.length) 0 g else some g

/-! ## The trial harness (source lines 130-155) -/

/-- The acceptance test `res.distance > 0 && res.dijkstra_visited > 1` of the harness. -/
def accept {α : Type} [LinearOrderedCommRing α] (res : TrialResult α) : Bool :=
  decide (0 < res.distance) && decide (1 < res.dijkstra_visited)

/-- The vector `all_node_ids`: the keys of `adj` in iteration order. -/
def allNodeIds {α : Type} (g : Graph α) : List Int := g.adj.map Prod.fst

/-- How a run of the harness loop ends. -/
inductive Outcome (α : Type) where
  | finished (records : List (Nat × TrialResult α)) : Outcome α
  | undefinedBehaviour : Outcome α
  | outOfFuel : Outcome α
deriving DecidableEq, Repr

/-- The loop `for (int i = 0; i < 1000; ++i)` of `main`. The generator `rng` is the stream of
its outputs, `k` the number of outputs consumed so far, `records` the lines written to the CSV
file (trial index and result). A rejected trial performs `i--` before the `++i` of the loop, so
`i` keeps its value. The remainder `rng() % all_node_ids.size()` with a size of zero is undefined
behaviour. `fuelR` is the fuel handed to every `runExperiment`. -/
def harnessLoop {α : Type} [LinearOrderedCommRing α] (hav : Point α → Point α → α)
    (rng : Nat → Nat) (ids : List Int) (fuelR : Nat) :
    Nat → Nat → Nat → Graph α → List (Nat × TrialResult α) → Outcome α
  | 0, _, _, _, _ => Outcome.outOfFuel
  | n + 1, i, k, g, records =>
    if i < 1000 then
      if ids.length = 0 then Outcome.undefinedBehaviour
      else
        match ids[rng k % ids.length]?, ids[rng (k + 1) % ids.length]? with
        | some start, some goal =>
          match runExperiment hav g start goal fuelR with
          | none => Outcome.outOfFuel
          | some (res, g1) =>
            if accept res then harnessLoop hav rng ids fuelR n (i + 1) (k + 2) g1 (records ++ [(i, res)])
            else harnessLoop hav rng ids fuelR n i (k + 2) g1 records
        | _, _ => Outcome.undefinedBehaviour
    else Outcome.finished records

/-- The part of `main` after the graph is loaded: collect `all_node_ids`, then run the loop. -/
def harness {α : Type} [LinearOrderedCommRing α] (hav : Point α → Point α → α)
    (rng : Nat → Nat) (g : Graph α) (fuelR fuel : Nat) : Outcome α :=
  harnessLoop hav rng (allNodeIds g) fuelR fuel 0 0 g []

/-! ## Specification vocabulary -/

/-- The edge list `adj[u]` denotes: the stored list, or the empty list for an absent key. -/
def edgesOf {α : Type} (adj : UMap (List (Edge α))) (u : Int) : List (Edge α) :=
  (UMap.find adj u).getD []

/-- The coordinate `node_coords[v]` denotes: the stored point, or the value-initialised point. -/
def coordOf {α : Type} [Zero α] (nc : UMap (Point α)) (v : Int) : Point α :=
  (UMap.find nc v).getD Point.zero

/-- The heuristic value the A* loop adds for node `v`. -/
def heur {α : Type} [Zero α] (hav : Point α → Point α → α) (nc : UMap (Point α)) (goal v : Int) : α :=
  hav (coordOf nc v) (coordOf nc goal)

/-- A walk: `p` is a list of edges leading from `u` to `v` along the edge function `E`. -/
def IsWalk {α : Type} (E : Int → List (Edge α)) : Int → List (Edge α) → Int → Prop
  | u, [], v => u = v
  | u, e :: p, v => e ∈ E u ∧ IsWalk E e.to_ p v

/-- The total weight of a list of edges. -/
def weightOf {α : Type} [AddMonoid α] (p : List (Edge α)) : α := (p.map Edge.weight).sum

/-- The nodes a walk from `u` along `p` passes through, `u` included. -/
def nodesOf {α : Type} (u : Int) (p : List (Edge α)) : List Int := u :: p.map Edge.to_

/-- Reachability in the stored graph: some walk leads from `s` to `t`. -/
def Reachable {α : Type} (adj : UMap (List (Edge α))) (s t : Int) : Prop :=
  ∃ p, IsWalk (edgesOf adj) s p t

/-- All stored edge weights are non-negative. -/
def NonnegWeights {α : Type} [LinearOrderedCommRing α] (adj : UMap (List (Edge α))) : Prop :=
  ∀ u, ∀ e ∈ edgesOf adj u, 0 ≤ e.weight

/-- The value `d` is the minimum total weight over the paths from `s` to `t`: it is the weight of a
path without repeated nodes and no walk from `s` to `t` weighs less. -/
def IsShortestDist {α : Type} [LinearOrderedCommRing α] (adj : UMap (List (Edge α)))
    (s t : Int) (d : α) : Prop :=
  (∃ p, IsWalk (edgesOf adj) s p t ∧ (nodesOf s p).Nodup ∧ weightOf p = d) ∧
  ∀ p, IsWalk (edgesOf adj) s p t → d ≤ weightOf p

/-! ## A common form of the two loops

Both loops relax the edges of the popped node in the same way and differ in the priority they
push: the tentative distance for Dijkstra, the tentative distance plus the heuristic for A*.
`relaxC` and `coreLoop` state this common form over an edge function `E` and a heuristic `h`;
`dijkstraLoop_core` and `astarLoop_core` below show that the loops of the source compute it. -/

/-- The relaxation of the edges of `u` with priority `g + h e.to`. -/
def relaxC {α : Type} [LinearOrderedCommRing α] (h : Int → α) (u : Int) :
    List (Edge α) → PQ α × UMap α → PQ α × UMap α
  | [], s => s
  | e :: es, (pq, dist) =>
    let g := (UMap.find dist u).getD 0 + e.weight
    let c : Bool :=
      match UMap.find dist e.to_ with
      | none => true
      | some dv => decide (g < dv)
    if c then relaxC h u es ((g + h e.to_, e.to_) :: pq, UMap.assign dist e.to_ g)
    else relaxC h u es (pq, dist)

/-- The queue, the distance map and the pop counter of a search loop. -/
structure CState (α : Type) where
  pq : PQ α
  dist : UMap α
  visited : Nat

/-- The search loop over an edge function `E` and a heuristic `h`. -/
def coreLoop {α : Type} [LinearOrderedCommRing α] (E : Int → List (Edge α)) (h : Int → α)
    (goal : Int) : Nat → CState α → Option (CState α)
  | 0, _ => none
  | n + 1, s =>
    match pqTop s.pq with
    | none => some s
    | some t =>
      if t.2 = goal then some ⟨pqPop s.pq, s.dist, s.visited + 1⟩
      else
        let r := relaxC h t.2 (E t.2) (pqPop s.pq, s.dist)
        coreLoop E h goal n ⟨r.1, r.2, s.visited + 1⟩

/-- The part of Dijkstra's state the common form speaks about. -/
def DState.core {α : Type} (s : DState α) : CState α := ⟨s.pq, s.dist, s.visited⟩

/-- The part of the A* state the common form speaks about. -/
def AState.core {α : Type} (s : AState α) : CState α := ⟨s.pq, s.dist, s.visited⟩

/-- Every queued node has an entry in the distance map. -/
def PQDom {α : Type} (pq : PQ α) (dist : UMap α) : Prop :=
  ∀ x ∈ pq, (UMap.find dist x.2).isSome = true

/-- The pair order as a proposition: `a` does not come after `b`. -/
def PairLe {α : Type} [LinearOrder α] (a b : α × Int) : Prop :=
  a.1 < b.1 ∨ (a.1 = b.1 ∧ a.2 ≤ b.2)

/-! ## Invariants of the search loop -/

/-- The value `d` recorded for `v` is the weight of a path from `start` to `v` without repeated
nodes, all of whose nodes carry a recorded distance of at most `d`. -/
def Witness {α : Type} [LinearOrderedCommRing α] (E : Int → List (Edge α)) (start : Int)
    (dist : UMap α) (v : Int) (d : α) : Prop :=
  ∃ p, IsWalk E start p v ∧ (nodesOf start p).Nodup ∧ weightOf p = d ∧
    ∀ x ∈ nodesOf start p, ∃ d', UMap.find dist x = some d' ∧ d' ≤ d

/-- The node `v` with recorded distance `d` still has a queue entry of priority at most
`d + h v` (or the initial entry of priority zero). -/
def IsOpen {α : Type} [LinearOrderedCommRing α] (h : Int → α) (pq : PQ α) (v : Int) (d : α) : Prop :=
  ∃ f, (f, v) ∈ pq ∧ (f ≤ d + h v ∨ f = 0)

/-- Every edge in `es` leaving a node of recorded distance `d` is relaxed. -/
def EdgesDone {α : Type} [LinearOrderedCommRing α] (dist : UMap α) (d : α)
    (es : List (Edge α)) : Prop :=
  ∀ e ∈ es, ∃ d', UMap.find dist e.to_ = some d' ∧ d' ≤ d + e.weight

/-- The invariant of the search loop at the head of an iteration. -/
structure Inv {α : Type} [LinearOrderedCommRing α] (E : Int → List (Edge α)) (h : Int → α)
    (start : Int) (pq : PQ α) (dist : UMap α) : Prop where
  start_zero : UMap.find dist start = some 0
  wit : ∀ v d, UMap.find dist v = some d → Witness E start dist v d
  ent : ∀ x ∈ pq, ∃ d, UMap.find dist x.2 = some d ∧ (d + h x.2 ≤ x.1 ∨ (x.2 = start ∧ x.1 = 0))
  oc : ∀ v d, UMap.find dist v = some d → IsOpen h pq v d ∨ EdgesDone dist d (E v)

/-- The number of candidate values still below the recorded distance of `v`. -/
def slack {α : Type} [LinearOrderedCommRing α] (vals : List α) (dist : UMap α) (v : Int) : Nat :=
  match UMap.find dist v with
  | none => vals.length + 1
  | some d => vals.countP (fun x => decide (x < d))

/-- The termination measure of the distance map: the total slack over the nodes. -/
def totalSlack {α : Type} [LinearOrderedCommRing α] (nodes : List Int) (vals : List α)
    (dist : UMap α) : Nat :=
  (nodes.map (slack vals dist)).sum

/-- All sums of at most `k` elements of `ws`. -/
def sumsUpTo {α : Type} [LinearOrderedCommRing α] (ws : List α) : Nat → List α
  | 0 => [0]
  | k + 1 => 0 :: ws.flatMap (fun w => (sumsUpTo ws k).map (fun x => w + x))

/-- Every edge stored in the adjacency map. -/
def allEdges {α : Type} (adj : UMap (List (Edge α))) : List (Edge α) :=
  adj.flatMap Prod.snd

/-- The nodes of the search from `start`: `start` and every edge target. -/
def allNodes {α : Type} (adj : UMap (List (Edge α))) (start : Int) : List Int :=
  start :: (allEdges adj).map Edge.to_

/-- The candidate distances: the weights of the edge lists no longer than the node list. -/
def allVals {α : Type} [LinearOrderedCommRing α] (adj : UMap (List (Edge α))) (start : Int) :
    List α :=
  sumsUpTo ((allEdges adj).map Edge.weight) (allNodes adj start).length

/-- A number of iterations that suffices for either loop of `runExperiment`. -/
def fuelBound {α : Type} [LinearOrderedCommRing α] (adj : UMap (List (Edge α))) (start : Int) :
    Nat :=
  2 * totalSlack (allNodes adj start) (allVals adj start) (UMap.assign ([] : UMap α) start 0) + 2

/-- The invariant of the relaxation loop for the popped node `u` of recorded distance `du`, after
the edges in `done` have been processed; `bound` is the value of the termination measure before
the loop. -/
structure RInv {α : Type} [LinearOrderedCommRing α] (E : Int → List (Edge α)) (h : Int → α)
    (start u : Int) (du : α) (nodes : List Int) (vals : List α) (bound : Nat)
    (done : List (Edge α)) (pq : PQ α) (dist : UMap α) : Prop where
  start_zero : UMap.find dist start = some 0
  at_u : UMap.find dist u = some du
  wit : ∀ v d, UMap.find dist v = some d → Witness E start dist v d
  ent : ∀ x ∈ pq, ∃ d, UMap.find dist x.2 = some d ∧ (d + h x.2 ≤ x.1 ∨ (x.2 = start ∧ x.1 = 0))
  oc : ∀ v d, v ≠ u → UMap.find dist v = some d → IsOpen h pq v d ∨ EdgesDone dist d (E v)
  ocu : IsOpen h pq u du ∨ EdgesDone dist du done
  meas : pq.length + 2 * totalSlack nodes vals dist ≤ bound

/-- What holds of the distance map a search loop ends with: the start is at distance zero, every
recorded distance is the weight of a path without repeated nodes, and for a heuristic that never
overestimates the remaining weight and is non-negative at the goal, the recorded distance of the
goal is a lower bound of the weights of the walks to the goal. -/
def SearchPost {α : Type} [LinearOrderedCommRing α] (E : Int → List (Edge α)) (h : Int → α)
    (start goal : Int) (dist : UMap α) : Prop :=
  UMap.find dist start = some 0 ∧
  (∀ v d, UMap.find dist v = some d → Witness E start dist v d) ∧
  ((∀ v p, IsWalk E v p goal → h v ≤ weightOf p) → 0 ≤ h goal →
    ∀ p, IsWalk E start p goal → ∃ d, UMap.find dist goal = some d ∧ d ≤ weightOf p)

/-! ## Example graphs -/

/-- Two nodes `1` and `2` joined by an edge of weight 1, a third node `3` with a self-contained
neighbour `4`; every node sits at the coordinate `(0, 0)`. -/
def twoIslands (α : Type) [LinearOrderedCommRing α] : Graph α :=
  ⟨[(1, [⟨2, 1⟩]), (2, [⟨1, 1⟩]), (3, [⟨4, 1⟩]), (4, [⟨3, 1⟩])],
   [(1, ⟨0, 0⟩), (2, ⟨0, 0⟩), (3, ⟨0, 0⟩), (4, ⟨0, 0⟩)]⟩

/-- The adjacency map of the scenario with nodes `A = 1`, `B = 2`, `C = 3` and undirected edges
`A-B` of weight 5, `B-C` of weight 3, `A-C` of weight 10, inserted in this order. -/
def adj3 (α : Type) [LinearOrderedCommRing α] : UMap (List (Edge α)) :=
  [(1, [⟨2, 5⟩, ⟨3, 10⟩]), (2, [⟨1, 5⟩, ⟨3, 3⟩]), (3, [⟨2, 3⟩, ⟨1, 10⟩])]

/-- A direct edge `1-3` of weight 10 and a detour `1-2-3` of weight 2; node `2` lies on the
equator half-way around the globe from nodes `1` and `3`. -/
def detour (α : Type) [LinearOrderedCommRing α] : Graph α :=
  ⟨[(1, [⟨3, 10⟩, ⟨2, 1⟩]), (2, [⟨1, 1⟩, ⟨3, 1⟩]), (3, [⟨1, 10⟩, ⟨2, 1⟩])],
   [(1, ⟨0, 0⟩), (2, ⟨0, 180⟩), (3, ⟨0, 0⟩)]⟩

/-- Five nodes with undirected edges `1-2` (40000), `1-3` (30000), `2-4` (100000), `3-4` (30000)
and `4-5` (200000); node `3` lies on the equator half-way around the globe from the others. -/
def staleGraph (α : Type) [LinearOrderedCommRing α] : Graph α :=
  ⟨[(1, [⟨2, 40000⟩, ⟨3, 30000⟩]), (2, [⟨1, 40000⟩, ⟨4, 100000⟩]),
    (3, [⟨1, 30000⟩, ⟨4, 30000⟩]), (4, [⟨2, 100000⟩, ⟨3, 30000⟩, ⟨5, 200000⟩]),
    (5, [⟨4, 200000⟩])],
   [(1, ⟨0, 0⟩), (2, ⟨0, 0⟩), (3, ⟨0, 180⟩), (4, ⟨0, 0⟩), (5, ⟨0, 0⟩)]⟩

/-- A coordinate map that places the nodes `1`, `2`, `3` at one point near Lucknow. -/
noncomputable def lucknowCoords : UMap (Point ℝ) :=
  [(1, ⟨26, 80⟩), (2, ⟨26, 80⟩), (3, ⟨26, 80⟩)]

/-- The state in which either loop of `runExperiment(start, goal)` is entered. -/
def coreInit {α : Type} [LinearOrderedCommRing α] (start : Int) : CState α :=
  ⟨[(0, start)], UMap.assign [] start 0, 0⟩

/-- The heuristic is consistent for the goal: it does not drop by more than the weight along any
stored edge, and it is zero at the goal. -/
def Consistent {α : Type} [LinearOrderedCommRing α] (hav : Point α → Point α → α)
    (g : Graph α) (goal : Int) : Prop :=
  (∀ u, ∀ e ∈ edgesOf g.adj u,
    heur hav g.node_coords goal u ≤ e.weight + heur hav g.node_coords goal e.to_) ∧
  heur hav g.node_coords goal goal = 0

/-! ## The graph builder over a stream of ways -/

/-- The graph before ingestion: both global maps are empty. -/
def emptyGraph {α : Type} : Graph α := ⟨[], []⟩

/-- The handler applied to a sequence of way records (highway flag and node list), in order,
as `osmium::apply` does; `none` once a call has read past the end of a node list. -/
def buildFrom {α : Type} [Zero α] (hav : Point α → Point α → α) :
    List (Bool × List (NodeRef α)) → Graph α → Option (Graph α)
  | [], g => some g
  | w :: ws, g =>
    match way hav w.1 w.2 g with
    | none => none
    | some g1 => buildFrom hav ws g1

/-- The number of edges with target `v` and weight `w` in an edge list. -/
def countEdges {α : Type} [DecidableEq α] (es : List (Edge α)) (v : Int) (w : α) : Nat :=
  es.countP (fun e => decide (e.to_ = v ∧ e.weight = w))

/-- The adjacency map is symmetric with equal weights. -/
def SymmetricAdj {α : Type} [DecidableEq α] (adj : UMap (List (Edge α))) : Prop :=
  ∀ u v w, countEdges (edgesOf adj u) v w = countEdges (edgesOf adj v) u w

/-- Every key of the adjacency map has a non-empty edge list and a coordinate, and every edge
target is a key of the adjacency map. -/
def Covered {α : Type} (g : Graph α) : Prop :=
  (∀ k es, UMap.find g.adj k = some es →
    es ≠ [] ∧ (UMap.find g.node_coords k).isSome = true) ∧
  ∀ k, ∀ e ∈ edgesOf g.adj k, (UMap.find g.adj e.to_).isSome = true

/-! ## The geometry behind `haversine` -/

/-- The intermediate value `a` of `haversine`. -/
noncomputable def haversineA (p1 p2 : Point ℝ) : ℝ :=
  let dLat := (p2.lat - p1.lat) * Real.pi / 180
  let dLon := (p2.lon - p1.lon) * Real.pi / 180
  Real.sin (dLat / 2) * Real.sin (dLat / 2)
    + Real.cos (p1.lat * Real.pi / 180) * Real.cos (p2.lat * Real.pi / 180)
      * Real.sin (dLon / 2) * Real.sin (dLon / 2)

/-- The inner product of the unit vectors of two points on the sphere. -/
noncomputable def sphereDot (p q : Point ℝ) : ℝ :=
  Real.cos (p.lat * Real.pi / 180) * Real.cos (p.lon * Real.pi / 180)
      * (Real.cos (q.lat * Real.pi / 180) * Real.cos (q.lon * Real.pi / 180))
    + Real.cos (p.lat * Real.pi / 180) * Real.sin (p.lon * Real.pi / 180)
      * (Real.cos (q.lat * Real.pi / 180) * Real.sin (q.lon * Real.pi / 180))
    + Real.sin (p.lat * Real.pi / 180) * Real.sin (q.lat * Real.pi / 180)

/-- The central angle between two points: `haversine` without the factor `r`. -/
noncomputable def centralAngle (p q : Point ℝ) : ℝ :=
  2 * Real.arcsin (Real.sqrt (haversineA p q))

/-- The graph agrees with the coordinate assignment `c`: every recorded coordinate is the one
`c` gives, and every stored edge weighs the distance between the coordinates of its two ends,
both of which are recorded. -/
def Coherent {α : Type} (hav : Point α → Point α → α) (c : Int → Point α) (g : Graph α) : Prop :=
  (∀ k p, UMap.find g.node_coords k = some p → p = c k) ∧
  ∀ u, ∀ e ∈ edgesOf g.adj u,
    e.weight = hav (c u) (c e.to_) ∧ (UMap.find g.node_coords u).isSome = true ∧
      (UMap.find g.node_coords e.to_).isSome = true

/-- Two tagged ways in which node `2` is observed twice with different coordinates: first at
`(0, 0)` next to node `1`, then at `(0, 180)` next to node `3`. -/
def movedNodeWays (α : Type) [LinearOrderedCommRing α] : List (Bool × List (NodeRef α)) :=
  [(true, [⟨1, 0, 0⟩, ⟨2, 0, 0⟩]), (true, [⟨2, 0, 180⟩, ⟨3, 0, 180⟩])]

/-- Three ways around Lucknow: a tagged way through the nodes `1`, `2`, `3`, an untagged way, and
a tagged way from node `3` back to node `1`; every node keeps its coordinate. -/
def sampleWays (α : Type) [LinearOrderedCommRing α] : List (Bool × List (NodeRef α)) :=
  [(true, [⟨1, 26, 80⟩, ⟨2, 26, 81⟩, ⟨3, 27, 81⟩]), (false, [⟨7, 0, 0⟩]),
   (true, [⟨3, 27, 81⟩, ⟨1, 26, 80⟩])]

/-- The coordinate of each node of `sampleWays`. -/
def sampleCoord (α : Type) [LinearOrderedCommRing α] (k : Int) : Point α :=
  if k = 1 then ⟨26, 80⟩ else if k = 2 then ⟨26, 81⟩ else if k = 3 then ⟨27, 81⟩ else ⟨0, 0⟩

/-- The graph the builder produces from `sampleWays` with the distance function `hav`. -/
def sampleGraph {α : Type} [LinearOrderedCommRing α] (hav : Point α → Point α → α) : Graph α :=
  ⟨[(3, [⟨2, hav ⟨26, 81⟩ ⟨27, 81⟩⟩, ⟨1, hav ⟨27, 81⟩ ⟨26, 80⟩⟩]),
    (2, [⟨1, hav ⟨26, 80⟩ ⟨26, 81⟩⟩, ⟨3, hav ⟨26, 81⟩ ⟨27, 81⟩⟩]),
    (1, [⟨2, hav ⟨26, 80⟩ ⟨26, 81⟩⟩, ⟨3, hav ⟨27, 81⟩ ⟨26, 80⟩⟩])],
   [(1, ⟨26, 80⟩), (2, ⟨26, 81⟩), (3, ⟨27, 81⟩)]⟩

/-- The nodes Dijkstra's loop dequeues, in order: one entry for every `pq_d.pop()` the loop
`dijkstraLoop` performs from the state `s`. -/
def dijkstraPops {α : Type} [LinearOrderedCommRing α] (goal : Int) : Nat → DState α → List Int
  | 0, _ => []
  | n + 1, s =>
    match pqTop s.pq with
    | none => []
    | some t =>
      let u := t.2
      let pq1 := pqPop s.pq
      let visited1 := s.visited + 1
      if u = goal then [u]
      else
        let a := UMap.index [] s.adj u
        let r := relaxD u a.1 (pq1, s.dist)
        u :: dijkstraPops goal n ⟨a.2, r.1, r.2, visited1⟩

/-- Four nodes `A = 1`, `B = 2`, `C = 3`, `G = 4` with undirected edges `A-B` of weight 5, `A-C` of
weight 1, `C-B` of weight 1 and `B-G` of weight 10, inserted in this order; every node sits at the
coordinate `(0, 0)`. -/
def shortcutGraph (α : Type) [LinearOrderedCommRing α] : Graph α :=
  ⟨[(1, [⟨2, 5⟩, ⟨3, 1⟩]), (2, [⟨1, 5⟩, ⟨3, 1⟩, ⟨4, 10⟩]), (3, [⟨1, 1⟩, ⟨2, 1⟩]),
    (4, [⟨2, 10⟩])],
   [(1, ⟨0, 0⟩), (2, ⟨0, 0⟩), (3, ⟨0, 0⟩), (4, ⟨0, 0⟩)]⟩

/-- The nodes the A* loop dequeues, in order: one entry for every `pq_a.pop()` the loop
`astarLoop` performs from the state `s`. -/
def astarPops {α : Type} [LinearOrderedCommRing α] (hav : Point α → Point α → α) (goal : Int) :
    Nat → AState α → List Int
  | 0, _ => []
  | n + 1, s =>
    match pqTop s.pq with
    | none => []
    | some t =>
      let u := t.2
      let pq1 := pqPop s.pq
      let visited1 := s.visited + 1
      if u = goal then [u]
      else
        let a := UMap.index [] s.adj u
        let r := relaxA hav goal u a.1 ⟨pq1, s.dist, s.node_coords⟩
        u :: astarPops hav goal n ⟨a.2, r.node_coords, r.pq, r.dist, visited1⟩

/-- The nodes the search loop in its common form dequeues, in order. -/
def corePops {α : Type} [LinearOrderedCommRing α] (E : Int → List (Edge α)) (h : Int → α)
    (goal : Int) : Nat → CState α → List Int
  | 0, _ => []
  | n + 1, s =>
    match pqTop s.pq with
    | none => []
    | some t =>
      if t.2 = goal then [t.2]
      else
        let r := relaxC h t.2 (E t.2) (pqPop s.pq, s.dist)
        t.2 :: corePops E h goal n ⟨r.1, r.2, s.visited + 1⟩

/-- The goal, once it has a recorded distance, keeps a queue entry until it is dequeued. -/
def GoalOpen {α : Type} [LinearOrderedCommRing α] (h : Int → α) (goal : Int) (pq : PQ α)
    (dist : UMap α) : Prop :=
  ∀ d, UMap.find dist goal = some d → IsOpen h pq goal d

/-- Every node with a recorded distance `d` is queued with the priority `d` or has been
dequeued before. -/
def Queued {α : Type} (pq : PQ α) (dist : UMap α) (popped : List Int) : Prop :=
  ∀ v d, UMap.find dist v = some d → (d, v) ∈ pq ∨ v ∈ popped

/-- Five nodes with undirected edges `5-4` (1), `4-1` (`6371 * π`), `5-2` and `5-3`
(`1 + 6371 * π` each); nodes `4` and `5` lie on the equator half-way around the globe from the
nodes `1`, `2` and `3`, which share one coordinate. -/
noncomputable def tieGraph : Graph ℝ :=
  ⟨[(5, [⟨4, 1⟩, ⟨2, 1 + 6371 * Real.pi⟩, ⟨3, 1 + 6371 * Real.pi⟩]),
    (4, [⟨5, 1⟩, ⟨1, 6371 * Real.pi⟩]), (1, [⟨4, 6371 * Real.pi⟩]),
    (2, [⟨5, 1 + 6371 * Real.pi⟩]), (3, [⟨5, 1 + 6371 * Real.pi⟩])],
   [(1, ⟨0, 0⟩), (2, ⟨0, 0⟩), (3, ⟨0, 0⟩), (4, ⟨0, 180⟩), (5, ⟨0, 180⟩)]⟩

/-! # Properties -/

/-! ## Maps -/

theorem UMap.find_assign {V : Type} (m : UMap V) (k k' : Int) (v : V) :
    UMap.find (UMap.assign m k v) k' = if k = k' then some v else UMap.find m k' := by
  induction m with
  | nil =>
    by_cases hk : k = k' <;> simp [UMap.assign, UMap.find, hk]
  | cons x rest ih =>
    obtain ⟨k0, v0⟩ := x
    by_cases h0 : k0 = k
    · subst h0
      by_cases hk : k0 = k' <;> simp [UMap.assign, UMap.find, hk]
    · by_cases hk : k = k'
      · subst hk
        simp [UMap.assign, UMap.find, h0, ih]
      · by_cases h1 : k0 = k'
        · subst h1
          simp [UMap.assign, UMap.find, h0, hk]
        · simp [UMap.assign, UMap.find, h0, h1, ih, hk]

theorem UMap.find_assign_self {V : Type} (m : UMap V) (k : Int) (v : V) :
    UMap.find (UMap.assign m k v) k = some v := by
  simp [UMap.find_assign]

theorem UMap.find_assign_ne {V : Type} (m : UMap V) {k k' : Int} (v : V) (hne : k ≠ k') :
    UMap.find (UMap.assign m k v) k' = UMap.find m k' := by
  simp [UMap.find_assign, hne]

theorem UMap.index_of_find {V : Type} (d : V) (m : UMap V) (k : Int) {v : V}
    (hf : UMap.find m k = some v) : UMap.index d m k = (v, m) := by
  simp [UMap.index, hf]

theorem UMap.index_fst {V : Type} (d : V) (m : UMap V) (k : Int) :
    (UMap.index d m k).1 = (UMap.find m k).getD d := by
  unfold UMap.index
  cases UMap.find m k <;> rfl

theorem UMap.getD_find_index {V : Type} (d : V) (m : UMap V) (k k' : Int) :
    (UMap.find (UMap.index d m k).2 k').getD d = (UMap.find m k').getD d := by
  unfold UMap.index
  cases hf : UMap.find m k with
  | some v => rfl
  | none =>
    by_cases hk : k = k'
    · subst hk
      simp [UMap.find, hf]
    · simp [UMap.find, hk]

theorem edgesOf_index {α : Type} (adj : UMap (List (Edge α))) (u v : Int) :
    edgesOf (UMap.index [] adj u).2 v = edgesOf adj v :=
  UMap.getD_find_index [] adj u v

theorem index_adj_fst {α : Type} (adj : UMap (List (Edge α))) (u : Int) :
    (UMap.index [] adj u).1 = edgesOf adj u :=
  UMap.index_fst [] adj u

theorem coordOf_index {α : Type} [Zero α] (nc : UMap (Point α)) (u v : Int) :
    coordOf (UMap.index Point.zero nc u).2 v = coordOf nc v :=
  UMap.getD_find_index Point.zero nc u v

theorem index_coord_fst {α : Type} [Zero α] (nc : UMap (Point α)) (u : Int) :
    (UMap.index Point.zero nc u).1 = coordOf nc u :=
  UMap.index_fst Point.zero nc u

/-! ## The priority queue -/

theorem pairLt_iff {α : Type} [LinearOrder α] (a b : α × Int) :
    pairLt a b = true ↔ a.1 < b.1 ∨ (a.1 = b.1 ∧ a.2 < b.2) := by
  unfold pairLt
  simp only [Bool.or_eq_true, Bool.and_eq_true, Bool.not_eq_true', decide_eq_true_eq,
    decide_eq_false_iff_not, not_lt]
  constructor
  · rintro (h | ⟨h1, h2⟩)
    · exact Or.inl h
    · rcases lt_or_eq_of_le h1 with h3 | h3
      · exact Or.inl h3
      · exact Or.inr ⟨h3, h2⟩
  · rintro (h | ⟨h1, h2⟩)
    · exact Or.inl h
    · exact Or.inr ⟨le_of_eq h1, h2⟩

theorem PairLe.refl {α : Type} [LinearOrder α] (a : α × Int) : PairLe a a :=
  Or.inr ⟨rfl, le_refl _⟩

theorem PairLe.trans {α : Type} [LinearOrder α] {a b c : α × Int}
    (hab : PairLe a b) (hbc : PairLe b c) : PairLe a c := by
  rcases hab with h1 | ⟨h1, h2⟩ <;> rcases hbc with h3 | ⟨h3, h4⟩
  · exact Or.inl (lt_trans h1 h3)
  · exact Or.inl (h3 ▸ h1)
  · exact Or.inl (h1 ▸ h3)
  · exact Or.inr ⟨h1.trans h3, le_trans h2 h4⟩

theorem PairLe.fst_le {α : Type} [LinearOrder α] {a b : α × Int} (hab : PairLe a b) :
    a.1 ≤ b.1 := by
  rcases hab with h1 | ⟨h1, _⟩
  · exact le_of_lt h1
  · exact le_of_eq h1

theorem pairLe_of_pairLt {α : Type} [LinearOrder α] {a b : α × Int} (hab : pairLt a b = true) :
    PairLe a b := by
  rcases (pairLt_iff a b).1 hab with h | ⟨h1, h2⟩
  · exact Or.inl h
  · exact Or.inr ⟨h1, le_of_lt h2⟩

theorem pairLe_of_not_pairLt {α : Type} [LinearOrder α] {a b : α × Int}
    (hab : ¬ pairLt a b = true) : PairLe b a := by
  rw [pairLt_iff] at hab
  push_neg at hab
  obtain ⟨h1, h2⟩ := hab
  rcases lt_or_eq_of_le h1 with h3 | h3
  · exact Or.inl h3
  · exact Or.inr ⟨h3, h2 h3.symm⟩

theorem pqTop_eq_none {α : Type} [LinearOrder α] (q : PQ α) : pqTop q = none ↔ q = [] := by
  cases q with
  | nil => simp [pqTop]
  | cons x xs =>
    simp only [pqTop]
    cases pqTop xs with
    | none => simp
    | some y => by_cases hlt : pairLt y x = true <;> simp [hlt]

theorem pqTop_cons_none {α : Type} [LinearOrder α] (x : α × Int) {xs : PQ α}
    (hxs : pqTop xs = none) : pqTop (x :: xs) = some x := by
  simp [pqTop, hxs]

theorem pqTop_cons_some {α : Type} [LinearOrder α] (x : α × Int) {xs : PQ α} {y : α × Int}
    (hxs : pqTop xs = some y) :
    pqTop (x :: xs) = if pairLt y x = true then some y else some x := by
  simp [pqTop, hxs]

theorem pqTop_mem {α : Type} [LinearOrder α] (q : PQ α) {t : α × Int}
    (ht : pqTop q = some t) : t ∈ q := by
  induction q generalizing t with
  | nil => simp [pqTop] at ht
  | cons x xs ih =>
    cases hxs : pqTop xs with
    | none =>
      rw [pqTop_cons_none x hxs] at ht
      simp only [Option.some.injEq] at ht
      simp [← ht]
    | some y =>
      rw [pqTop_cons_some x hxs] at ht
      by_cases hlt : pairLt y x = true
      · rw [if_pos hlt] at ht
        simp only [Option.some.injEq] at ht
        exact List.mem_cons_of_mem _ (ih (ht ▸ hxs))
      · rw [if_neg hlt] at ht
        simp only [Option.some.injEq] at ht
        simp [← ht]

theorem pqTop_le {α : Type} [LinearOrder α] (q : PQ α) {t : α × Int}
    (ht : pqTop q = some t) : ∀ y ∈ q, PairLe t y := by
  induction q generalizing t with
  | nil => simp [pqTop] at ht
  | cons x xs ih =>
    cases hxs : pqTop xs with
    | none =>
      rw [pqTop_cons_none x hxs] at ht
      simp only [Option.some.injEq] at ht
      have hnil : xs = [] := (pqTop_eq_none xs).1 hxs
      subst hnil
      intro y hy
      simp only [List.mem_singleton] at hy
      rw [hy, ht]
      exact PairLe.refl _
    | some z =>
      rw [pqTop_cons_some x hxs] at ht
      intro y hy
      by_cases hlt : pairLt z x = true
      · rw [if_pos hlt] at ht
        simp only [Option.some.injEq] at ht
        subst ht
        rcases List.mem_cons.1 hy with hy1 | hy1
        · rw [hy1]
          exact pairLe_of_pairLt hlt
        · exact ih hxs y hy1
      · rw [if_neg hlt] at ht
        simp only [Option.some.injEq] at ht
        subst ht
        rcases List.mem_cons.1 hy with hy1 | hy1
        · rw [hy1]
          exact PairLe.refl _
        · exact PairLe.trans (pairLe_of_not_pairLt hlt) (ih hxs y hy1)

theorem pqPop_of_top {α : Type} [LinearOrder α] (q : PQ α) {t : α × Int}
    (ht : pqTop q = some t) : pqPop q = q.erase t := by
  simp [pqPop, ht]

theorem mem_of_mem_pqPop {α : Type} [LinearOrder α] (q : PQ α) {y : α × Int}
    (hy : y ∈ pqPop q) : y ∈ q := by
  unfold pqPop at hy
  cases ht : pqTop q with
  | none =>
    rw [ht] at hy
    exact hy
  | some t =>
    rw [ht] at hy
    exact List.mem_of_mem_erase hy

theorem length_pqPop {α : Type} [LinearOrder α] (q : PQ α) {t : α × Int}
    (ht : pqTop q = some t) : (pqPop q).length + 1 = q.length := by
  rw [pqPop_of_top q ht, List.length_erase_of_mem (pqTop_mem q ht)]
  have hpos : 0 < q.length := List.length_pos_of_mem (pqTop_mem q ht)
  omega

/-! ## The loops of the source compute the common form -/

theorem relaxC_nil {α : Type} [LinearOrderedCommRing α] (h : Int → α) (u : Int)
    (s : PQ α × UMap α) : relaxC h u [] s = s := by
  simp [relaxC]

theorem relaxC_cons_new {α : Type} [LinearOrderedCommRing α] (h : Int → α) (u : Int)
    (e : Edge α) (es : List (Edge α)) (pq : PQ α) (dist : UMap α)
    (hf : UMap.find dist e.to_ = none) :
    relaxC h u (e :: es) (pq, dist) =
      relaxC h u es ((((UMap.find dist u).getD 0 + e.weight) + h e.to_, e.to_) :: pq,
        UMap.assign dist e.to_ ((UMap.find dist u).getD 0 + e.weight)) := by
  simp [relaxC, hf]

theorem relaxC_cons_lt {α : Type} [LinearOrderedCommRing α] (h : Int → α) (u : Int)
    (e : Edge α) (es : List (Edge α)) (pq : PQ α) (dist : UMap α) {dv : α}
    (hf : UMap.find dist e.to_ = some dv) (hlt : (UMap.find dist u).getD 0 + e.weight < dv) :
    relaxC h u (e :: es) (pq, dist) =
      relaxC h u es ((((UMap.find dist u).getD 0 + e.weight) + h e.to_, e.to_) :: pq,
        UMap.assign dist e.to_ ((UMap.find dist u).getD 0 + e.weight)) := by
  simp [relaxC, hf, hlt]

theorem relaxC_cons_ge {α : Type} [LinearOrderedCommRing α] (h : Int → α) (u : Int)
    (e : Edge α) (es : List (Edge α)) (pq : PQ α) (dist : UMap α) {dv : α}
    (hf : UMap.find dist e.to_ = some dv) (hge : ¬ (UMap.find dist u).getD 0 + e.weight < dv) :
    relaxC h u (e :: es) (pq, dist) = relaxC h u es (pq, dist) := by
  simp [relaxC, hf, hge]

/-- The three ways one edge can be relaxed, as an induction principle for `relaxC`. -/
theorem relaxC_induct {α : Type} [LinearOrderedCommRing α] (h : Int → α) (u : Int)
    (P : PQ α → UMap α → Prop) (Q : PQ α × UMap α → Prop)
    (hbase : ∀ pq dist, P pq dist → Q (pq, dist))
    (hpush : ∀ (e : Edge α) pq dist, P pq dist →
      (UMap.find dist e.to_ = none ∨
        ∃ dv, UMap.find dist e.to_ = some dv ∧ (UMap.find dist u).getD 0 + e.weight < dv) →
      P ((((UMap.find dist u).getD 0 + e.weight) + h e.to_, e.to_) :: pq)
        (UMap.assign dist e.to_ ((UMap.find dist u).getD 0 + e.weight)))
    (es : List (Edge α)) (pq : PQ α) (dist : UMap α) (h0 : P pq dist) :
    Q (relaxC h u es (pq, dist)) := by
  induction es generalizing pq dist with
  | nil =>
    rw [relaxC_nil]
    exact hbase pq dist h0
  | cons e es ih =>
    cases hf : UMap.find dist e.to_ with
    | none =>
      rw [relaxC_cons_new h u e es pq dist hf]
      exact ih _ _ (hpush e pq dist h0 (Or.inl hf))
    | some dv =>
      by_cases hlt : (UMap.find dist u).getD 0 + e.weight < dv
      · rw [relaxC_cons_lt h u e es pq dist hf hlt]
        exact ih _ _ (hpush e pq dist h0 (Or.inr ⟨dv, hf, hlt⟩))
      · rw [relaxC_cons_ge h u e es pq dist hf hlt]
        exact ih _ _ h0

theorem find_assign_isSome {α : Type} (dist : UMap α) (k v : Int) (g : α)
    (hk : (UMap.find dist k).isSome = true) :
    (UMap.find (UMap.assign dist v g) k).isSome = true := by
  rw [UMap.find_assign]
  by_cases hv : v = k
  · simp [hv]
  · simpa [hv] using hk

theorem relaxC_pqDom {α : Type} [LinearOrderedCommRing α] (h : Int → α) (u : Int)
    (es : List (Edge α)) (pq : PQ α) (dist : UMap α) (hd : PQDom pq dist) :
    PQDom (relaxC h u es (pq, dist)).1 (relaxC h u es (pq, dist)).2 := by
  refine relaxC_induct h u (fun q d => PQDom q d) (fun r => PQDom r.1 r.2) ?_ ?_ es pq dist hd
  · intro pq dist hP
    exact hP
  · intro e pq dist hP _ x hx
    rcases List.mem_cons.1 hx with hx1 | hx1
    · rw [hx1]
      simp [UMap.find_assign]
    · exact find_assign_isSome dist x.2 e.to_ _ (hP x hx1)

theorem pqDom_pop {α : Type} [LinearOrder α] (pq : PQ α) (dist : UMap α) (hd : PQDom pq dist) :
    PQDom (pqPop pq) dist :=
  fun x hx => hd x (mem_of_mem_pqPop pq hx)

theorem relaxD_core {α : Type} [LinearOrderedCommRing α] (u : Int) (es : List (Edge α))
    (pq : PQ α) (dist : UMap α) (hu : (UMap.find dist u).isSome = true) :
    relaxD u es (pq, dist) = relaxC (fun _ => 0) u es (pq, dist) := by
  induction es generalizing pq dist with
  | nil => simp [relaxD, relaxC]
  | cons e es ih =>
    obtain ⟨du, hdu⟩ := Option.isSome_iff_exists.1 hu
    have hidx : ∀ d : α, UMap.index d dist u = (du, dist) := fun d => UMap.index_of_find d dist u hdu
    cases hf : UMap.find dist e.to_ with
    | none =>
      rw [relaxC_cons_new _ u e es pq dist hf]
      have hnew : (UMap.find (UMap.assign dist e.to_ (du + e.weight)) u).isSome = true :=
        find_assign_isSome dist u e.to_ _ hu
      rw [← ih _ _ (by simpa [hdu] using hnew)]
      simp [relaxD, hf, hidx, hdu,
        UMap.index_of_find 0 _ e.to_ (UMap.find_assign_self dist e.to_ (du + e.weight))]
    | some dv =>
      have hidv : ∀ d : α, UMap.index d dist e.to_ = (dv, dist) :=
        fun d => UMap.index_of_find d dist e.to_ hf
      by_cases hlt : (UMap.find dist u).getD 0 + e.weight < dv
      · rw [relaxC_cons_lt _ u e es pq dist hf hlt]
        have hnew : (UMap.find (UMap.assign dist e.to_ (du + e.weight)) u).isSome = true :=
          find_assign_isSome dist u e.to_ _ hu
        rw [← ih _ _ (by simpa [hdu] using hnew)]
        have hlt1 : du + e.weight < dv := by simpa [hdu] using hlt
        simp [relaxD, hf, hidx, hidv, hdu, hlt1,
          UMap.index_of_find 0 _ e.to_ (UMap.find_assign_self dist e.to_ (du + e.weight))]
      · rw [relaxC_cons_ge _ u e es pq dist hf hlt]
        rw [← ih _ _ hu]
        have hlt1 : ¬ du + e.weight < dv := by simpa [hdu] using hlt
        simp [relaxD, hf, hidx, hidv, hlt1]

theorem heur_congr {α : Type} [Zero α] (hav : Point α → Point α → α) (nc nc' : UMap (Point α))
    (goal : Int) (hc : ∀ v, coordOf nc' v = coordOf nc v) :
    heur hav nc' goal = heur hav nc goal := by
  funext v
  simp [heur, hc]

theorem relaxA_core {α : Type} [LinearOrderedCommRing α] (hav : Point α → Point α → α)
    (goal u : Int) (es : List (Edge α)) (pq : PQ α) (dist : UMap α) (nc : UMap (Point α))
    (hu : (UMap.find dist u).isSome = true) :
    ((relaxA hav goal u es ⟨pq, dist, nc⟩).pq, (relaxA hav goal u es ⟨pq, dist, nc⟩).dist)
        = relaxC (heur hav nc goal) u es (pq, dist) ∧
      ∀ v, coordOf (relaxA hav goal u es ⟨pq, dist, nc⟩).node_coords v = coordOf nc v := by
  induction es generalizing pq dist nc with
  | nil => simp [relaxA, relaxC]
  | cons e es ih =>
    obtain ⟨du, hdu⟩ := Option.isSome_iff_exists.1 hu
    have hidx : ∀ d : α, UMap.index d dist u = (du, dist) := fun d => UMap.index_of_find d dist u hdu
    have hnew : (UMap.find (UMap.assign dist e.to_ (du + e.weight)) u).isSome = true :=
      find_assign_isSome dist u e.to_ _ hu
    have hnc : ∀ v, coordOf (UMap.index Point.zero (UMap.index Point.zero nc e.to_).2 goal).2 v
        = coordOf nc v := by
      intro v
      rw [coordOf_index, coordOf_index]
    have hh : hav (UMap.index Point.zero nc e.to_).1
        (UMap.index Point.zero (UMap.index Point.zero nc e.to_).2 goal).1
        = heur hav nc goal e.to_ := by
      rw [index_coord_fst, index_coord_fst, coordOf_index]
      rfl
    cases hf : UMap.find dist e.to_ with
    | none =>
      rw [relaxC_cons_new _ u e es pq dist hf]
      have hstep : relaxA hav goal u (e :: es) ⟨pq, dist, nc⟩ =
          relaxA hav goal u es ⟨((du + e.weight) + heur hav nc goal e.to_, e.to_) :: pq,
            UMap.assign dist e.to_ (du + e.weight),
            (UMap.index Point.zero (UMap.index Point.zero nc e.to_).2 goal).2⟩ := by
        simp [relaxA, hf, hidx, hh]
      rw [hstep]
      obtain ⟨h1, h2⟩ := ih _ _ (UMap.index Point.zero (UMap.index Point.zero nc e.to_).2 goal).2 hnew
      rw [heur_congr hav nc _ goal hnc] at h1
      refine ⟨?_, fun v => (h2 v).trans (hnc v)⟩
      rw [h1]
      simp [hdu]
    | some dv =>
      have hidv : ∀ d : α, UMap.index d dist e.to_ = (dv, dist) :=
        fun d => UMap.index_of_find d dist e.to_ hf
      by_cases hlt : (UMap.find dist u).getD 0 + e.weight < dv
      · rw [relaxC_cons_lt _ u e es pq dist hf hlt]
        have hlt1 : du + e.weight < dv := by simpa [hdu] using hlt
        have hstep : relaxA hav goal u (e :: es) ⟨pq, dist, nc⟩ =
            relaxA hav goal u es ⟨((du + e.weight) + heur hav nc goal e.to_, e.to_) :: pq,
              UMap.assign dist e.to_ (du + e.weight),
              (UMap.index Point.zero (UMap.index Point.zero nc e.to_).2 goal).2⟩ := by
          simp [relaxA, hf, hidx, hidv, hlt1, hh]
        rw [hstep]
        obtain ⟨h1, h2⟩ :=
          ih _ _ (UMap.index Point.zero (UMap.index Point.zero nc e.to_).2 goal).2 hnew
        rw [heur_congr hav nc _ goal hnc] at h1
        refine ⟨?_, fun v => (h2 v).trans (hnc v)⟩
        rw [h1]
        simp [hdu]
      · rw [relaxC_cons_ge _ u e es pq dist hf hlt]
        have hlt1 : ¬ du + e.weight < dv := by simpa [hdu] using hlt
        have hstep : relaxA hav goal u (e :: es) ⟨pq, dist, nc⟩ =
            relaxA hav goal u es ⟨pq, dist, nc⟩ := by
          simp [relaxA, hf, hidx, hidv, hlt1]
        rw [hstep]
        exact ih _ _ nc hu

/-- Dijkstra's loop computes the common form with the zero heuristic and keeps the edge lists. -/
theorem dijkstraLoop_core {α : Type} [LinearOrderedCommRing α] (goal : Int) (n : Nat)
    (s : DState α) (hd : PQDom s.pq s.dist) :
    (dijkstraLoop goal n s).map DState.core
        = coreLoop (edgesOf s.adj) (fun _ => 0) goal n s.core ∧
      ∀ s', dijkstraLoop goal n s = some s' → ∀ v, edgesOf s'.adj v = edgesOf s.adj v := by
  induction n generalizing s with
  | zero => simp [dijkstraLoop, coreLoop]
  | succ n ih =>
    cases ht : pqTop s.pq with
    | none =>
      have h1 : dijkstraLoop goal (n + 1) s = some s := by simp [dijkstraLoop, ht]
      have h2 : coreLoop (edgesOf s.adj) (fun _ => (0 : α)) goal (n + 1) s.core = some s.core := by
        simp [coreLoop, DState.core, ht]
      rw [h1, h2]
      refine ⟨rfl, ?_⟩
      intro s' hs' v
      simp only [Option.some.injEq] at hs'
      rw [← hs']
    | some t =>
      by_cases hg : t.2 = goal
      · have h1 : dijkstraLoop goal (n + 1) s
            = some ⟨s.adj, pqPop s.pq, s.dist, s.visited + 1⟩ := by
          simp [dijkstraLoop, ht, hg]
        have h2 : coreLoop (edgesOf s.adj) (fun _ => (0 : α)) goal (n + 1) s.core
            = some ⟨pqPop s.pq, s.dist, s.visited + 1⟩ := by
          simp [coreLoop, DState.core, ht, hg]
        rw [h1, h2]
        refine ⟨rfl, ?_⟩
        intro s' hs' v
        simp only [Option.some.injEq] at hs'
        rw [← hs']
      · have htd : (UMap.find s.dist t.2).isSome = true := hd t (pqTop_mem s.pq ht)
        have h1 : dijkstraLoop goal (n + 1) s
            = dijkstraLoop goal n ⟨(UMap.index [] s.adj t.2).2,
                (relaxC (fun _ => 0) t.2 (edgesOf s.adj t.2) (pqPop s.pq, s.dist)).1,
                (relaxC (fun _ => 0) t.2 (edgesOf s.adj t.2) (pqPop s.pq, s.dist)).2,
                s.visited + 1⟩ := by
          simp [dijkstraLoop, ht, hg, relaxD_core _ _ _ _ htd, index_adj_fst]
        have h2 : coreLoop (edgesOf s.adj) (fun _ => (0 : α)) goal (n + 1) s.core
            = coreLoop (edgesOf s.adj) (fun _ => 0) goal n
                ⟨(relaxC (fun _ => 0) t.2 (edgesOf s.adj t.2) (pqPop s.pq, s.dist)).1,
                 (relaxC (fun _ => 0) t.2 (edgesOf s.adj t.2) (pqPop s.pq, s.dist)).2,
                 s.visited + 1⟩ := by
          simp [coreLoop, DState.core, ht, hg]
        rw [h1, h2]
        have hd' := relaxC_pqDom (fun _ => (0 : α)) t.2 (edgesOf s.adj t.2) (pqPop s.pq) s.dist
          (pqDom_pop s.pq s.dist hd)
        obtain ⟨i1, i2⟩ := ih ⟨(UMap.index [] s.adj t.2).2,
                (relaxC (fun _ => 0) t.2 (edgesOf s.adj t.2) (pqPop s.pq, s.dist)).1,
                (relaxC (fun _ => 0) t.2 (edgesOf s.adj t.2) (pqPop s.pq, s.dist)).2,
                s.visited + 1⟩ hd'
        have hE : edgesOf (UMap.index [] s.adj t.2).2 = edgesOf s.adj := by
          funext v
          exact edgesOf_index s.adj t.2 v
        simp only [hE] at i1 i2
        refine ⟨by rw [i1]; rfl, ?_⟩
        intro s' hs' v
        exact i2 s' hs' v

/-- The A* loop computes the common form with the heuristic `heur` and keeps what the two
global maps denote. -/
theorem astarLoop_core {α : Type} [LinearOrderedCommRing α] (hav : Point α → Point α → α)
    (goal : Int) (n : Nat) (s : AState α) (hd : PQDom s.pq s.dist) :
    (astarLoop hav goal n s).map AState.core
        = coreLoop (edgesOf s.adj) (heur hav s.node_coords goal) goal n s.core ∧
      ∀ s', astarLoop hav goal n s = some s' →
        (∀ v, edgesOf s'.adj v = edgesOf s.adj v) ∧
        (∀ v, coordOf s'.node_coords v = coordOf s.node_coords v) := by
  induction n generalizing s with
  | zero => simp [astarLoop, coreLoop]
  | succ n ih =>
    cases ht : pqTop s.pq with
    | none =>
      have h1 : astarLoop hav goal (n + 1) s = some s := by simp [astarLoop, ht]
      have h2 : coreLoop (edgesOf s.adj) (heur hav s.node_coords goal) goal (n + 1) s.core
          = some s.core := by
        simp [coreLoop, AState.core, ht]
      rw [h1, h2]
      refine ⟨rfl, ?_⟩
      intro s' hs'
      simp only [Option.some.injEq] at hs'
      rw [← hs']
      exact ⟨fun _ => rfl, fun _ => rfl⟩
    | some t =>
      by_cases hg : t.2 = goal
      · have h1 : astarLoop hav goal (n + 1) s
            = some ⟨s.adj, s.node_coords, pqPop s.pq, s.dist, s.visited + 1⟩ := by
          simp [astarLoop, ht, hg]
        have h2 : coreLoop (edgesOf s.adj) (heur hav s.node_coords goal) goal (n + 1) s.core
            = some ⟨pqPop s.pq, s.dist, s.visited + 1⟩ := by
          simp [coreLoop, AState.core, ht, hg]
        rw [h1, h2]
        refine ⟨rfl, ?_⟩
        intro s' hs'
        simp only [Option.some.injEq] at hs'
        rw [← hs']
        exact ⟨fun _ => rfl, fun _ => rfl⟩
      · have htd : (UMap.find s.dist t.2).isSome = true := hd t (pqTop_mem s.pq ht)
        obtain ⟨r1, r2⟩ := relaxA_core hav goal t.2 (edgesOf s.adj t.2) (pqPop s.pq) s.dist
          s.node_coords htd
        have h1 : astarLoop hav goal (n + 1) s
            = astarLoop hav goal n ⟨(UMap.index [] s.adj t.2).2,
                (relaxA hav goal t.2 (edgesOf s.adj t.2) ⟨pqPop s.pq, s.dist, s.node_coords⟩).node_coords,
                (relaxA hav goal t.2 (edgesOf s.adj t.2) ⟨pqPop s.pq, s.dist, s.node_coords⟩).pq,
                (relaxA hav goal t.2 (edgesOf s.adj t.2) ⟨pqPop s.pq, s.dist, s.node_coords⟩).dist,
                s.visited + 1⟩ := by
          simp [astarLoop, ht, hg, index_adj_fst]
        have h2 : coreLoop (edgesOf s.adj) (heur hav s.node_coords goal) goal (n + 1) s.core
            = coreLoop (edgesOf s.adj) (heur hav s.node_coords goal) goal n
                ⟨(relaxC (heur hav s.node_coords goal) t.2 (edgesOf s.adj t.2)
                    (pqPop s.pq, s.dist)).1,
                 (relaxC (heur hav s.node_coords goal) t.2 (edgesOf s.adj t.2)
                    (pqPop s.pq, s.dist)).2,
                 s.visited + 1⟩ := by
          simp [coreLoop, AState.core, ht, hg]
        rw [h1, h2]
        have hd' := relaxC_pqDom (heur hav s.node_coords goal) t.2 (edgesOf s.adj t.2)
          (pqPop s.pq) s.dist (pqDom_pop s.pq s.dist hd)
        rw [← r1] at hd'
        obtain ⟨i1, i2⟩ := ih ⟨(UMap.index [] s.adj t.2).2,
                (relaxA hav goal t.2 (edgesOf s.adj t.2) ⟨pqPop s.pq, s.dist, s.node_coords⟩).node_coords,
                (relaxA hav goal t.2 (edgesOf s.adj t.2) ⟨pqPop s.pq, s.dist, s.node_coords⟩).pq,
                (relaxA hav goal t.2 (edgesOf s.adj t.2) ⟨pqPop s.pq, s.dist, s.node_coords⟩).dist,
                s.visited + 1⟩ hd'
        have hE : edgesOf (UMap.index [] s.adj t.2).2 = edgesOf s.adj := by
          funext v
          exact edgesOf_index s.adj t.2 v
        simp only [hE, heur_congr hav s.node_coords _ goal r2] at i1 i2
        refine ⟨?_, ?_⟩
        · rw [i1, ← r1]
          rfl
        · intro s' hs'
          obtain ⟨j1, j2⟩ := i2 s' hs'
          exact ⟨j1, fun v => (j2 v).trans (r2 v)⟩

/-! ## Walks -/

theorem isWalk_append {α : Type} (E : Int → List (Edge α)) (s t : Int)
    (p q : List (Edge α)) :
    IsWalk E s (p ++ q) t ↔ ∃ x, IsWalk E s p x ∧ IsWalk E x q t := by
  induction p generalizing s with
  | nil => simp [IsWalk]
  | cons e p ih =>
    rw [List.cons_append]
    show (e ∈ E s ∧ IsWalk E e.to_ (p ++ q) t) ↔ ∃ x, (e ∈ E s ∧ IsWalk E e.to_ p x) ∧ IsWalk E x q t
    rw [ih]
    constructor
    · rintro ⟨he, x, h1, h2⟩
      exact ⟨x, ⟨he, h1⟩, h2⟩
    · rintro ⟨x, ⟨he, h1⟩, h2⟩
      exact ⟨he, x, h1, h2⟩

theorem isWalk_snoc {α : Type} (E : Int → List (Edge α)) {s u : Int} {p : List (Edge α)}
    {e : Edge α} (hp : IsWalk E s p u) (he : e ∈ E u) : IsWalk E s (p ++ [e]) e.to_ :=
  (isWalk_append E s e.to_ p [e]).2 ⟨u, hp, he, rfl⟩

theorem weightOf_cons {α : Type} [AddMonoid α] (e : Edge α) (p : List (Edge α)) :
    weightOf (e :: p) = e.weight + weightOf p := by
  simp [weightOf]

theorem weightOf_snoc {α : Type} [AddMonoid α] (p : List (Edge α)) (e : Edge α) :
    weightOf (p ++ [e]) = weightOf p + e.weight := by
  simp [weightOf]

theorem nodesOf_snoc {α : Type} (s : Int) (p : List (Edge α)) (e : Edge α) :
    nodesOf s (p ++ [e]) = nodesOf s p ++ [e.to_] := by
  simp [nodesOf]

theorem weightOf_nonneg {α : Type} [LinearOrderedCommRing α] {E : Int → List (Edge α)}
    (hnn : ∀ u, ∀ e ∈ E u, 0 ≤ e.weight) {s t : Int} {p : List (Edge α)}
    (hp : IsWalk E s p t) : 0 ≤ weightOf p := by
  induction p generalizing s with
  | nil => simp [weightOf]
  | cons e p ih =>
    obtain ⟨he, hp'⟩ := hp
    rw [weightOf_cons]
    exact add_nonneg (hnn s e he) (ih hp')

/-! ## The termination measure -/

theorem countP_lt_countP {α : Type} (l : List α) (p q : α → Bool)
    (hpq : ∀ x, p x = true → q x = true) {a : α} (ha : a ∈ l) (hqa : q a = true)
    (hpa : p a = false) : l.countP p < l.countP q := by
  induction l with
  | nil => simp at ha
  | cons x xs ih =>
    have hmono : xs.countP p ≤ xs.countP q := List.countP_mono_left (fun x _ => hpq x)
    rw [List.countP_cons, List.countP_cons]
    rcases List.mem_cons.1 ha with hx | hx
    · subst hx
      rw [if_pos hqa, if_neg (by simp [hpa])]
      omega
    · have hlt := ih hx
      by_cases hpx : p x = true
      · rw [if_pos hpx, if_pos (hpq x hpx)]
        omega
      · by_cases hqx : q x = true
        · rw [if_neg hpx, if_pos hqx]
          omega
        · rw [if_neg hpx, if_neg hqx]
          omega

theorem sum_map_lt {l : List Int} (c c' : Int → Nat) (hle : ∀ x, c' x ≤ c x) {v : Int}
    (hv : v ∈ l) (hlt : c' v < c v) : (l.map c').sum + 1 ≤ (l.map c).sum := by
  induction l with
  | nil => simp at hv
  | cons x xs ih =>
    have hmono : (xs.map c').sum ≤ (xs.map c).sum :=
      List.sum_le_sum (fun y _ => hle y)
    simp only [List.map_cons, List.sum_cons]
    rcases List.mem_cons.1 hv with hx | hx
    · subst hx
      omega
    · have := ih hx
      have := hle x
      omega

theorem slack_assign_ne {α : Type} [LinearOrderedCommRing α] (vals : List α) (dist : UMap α)
    {v x : Int} (g : α) (hne : v ≠ x) :
    slack vals (UMap.assign dist v g) x = slack vals dist x := by
  simp [slack, UMap.find_assign_ne dist g hne]

theorem slack_assign_lt {α : Type} [LinearOrderedCommRing α] (vals : List α) (dist : UMap α)
    (v : Int) (g : α) (hg : g ∈ vals)
    (hc : UMap.find dist v = none ∨ ∃ dv, UMap.find dist v = some dv ∧ g < dv) :
    slack vals (UMap.assign dist v g) v < slack vals dist v := by
  simp only [slack, UMap.find_assign_self]
  rcases hc with hc | ⟨dv, hc, hlt⟩
  · rw [hc]
    have : List.countP (fun x => decide (x < g)) vals ≤ vals.length := List.countP_le_length _
    simp only
    omega
  · rw [hc]
    simp only
    refine countP_lt_countP vals _ _ ?_ hg ?_ ?_
    · intro x hx
      simp only [decide_eq_true_eq] at hx ⊢
      exact lt_trans hx hlt
    · simpa using hlt
    · simp

theorem totalSlack_assign {α : Type} [LinearOrderedCommRing α] (nodes : List Int)
    (vals : List α) (dist : UMap α) (v : Int) (g : α) (hv : v ∈ nodes) (hg : g ∈ vals)
    (hc : UMap.find dist v = none ∨ ∃ dv, UMap.find dist v = some dv ∧ g < dv) :
    totalSlack nodes vals (UMap.assign dist v g) + 1 ≤ totalSlack nodes vals dist := by
  refine sum_map_lt (slack vals dist) (slack vals (UMap.assign dist v g)) ?_ hv
    (slack_assign_lt vals dist v g hg hc)
  intro x
  by_cases hx : v = x
  · subst hx
    exact le_of_lt (slack_assign_lt vals dist v g hg hc)
  · rw [slack_assign_ne vals dist g hx]

/-! ## The relaxation loop keeps the invariant -/

/-- An induction principle for `relaxC` that records the processed edges. -/
theorem relaxC_induct2 {α : Type} [LinearOrderedCommRing α] (h : Int → α) (u : Int)
    (P : List (Edge α) → PQ α → UMap α → Prop) (all : List (Edge α))
    (hpush : ∀ done (e : Edge α) pq dist, e ∈ all → P done pq dist →
      (UMap.find dist e.to_ = none ∨
        ∃ dv, UMap.find dist e.to_ = some dv ∧ (UMap.find dist u).getD 0 + e.weight < dv) →
      P (e :: done) ((((UMap.find dist u).getD 0 + e.weight) + h e.to_, e.to_) :: pq)
        (UMap.assign dist e.to_ ((UMap.find dist u).getD 0 + e.weight)))
    (hskip : ∀ done (e : Edge α) pq dist dv, e ∈ all → P done pq dist →
      UMap.find dist e.to_ = some dv → ¬ (UMap.find dist u).getD 0 + e.weight < dv →
      P (e :: done) pq dist)
    (es : List (Edge α)) (hsub : ∀ e ∈ es, e ∈ all)
    (done : List (Edge α)) (pq : PQ α) (dist : UMap α) (h0 : P done pq dist) :
    ∃ done', (∀ e, e ∈ es ∨ e ∈ done → e ∈ done') ∧
      P done' (relaxC h u es (pq, dist)).1 (relaxC h u es (pq, dist)).2 := by
  induction es generalizing done pq dist with
  | nil =>
    rw [relaxC_nil]
    exact ⟨done, fun e he => he.elim (fun hn => absurd hn (List.not_mem_nil e)) id, h0⟩
  | cons e es ih =>
    have he : e ∈ all := hsub e (List.mem_cons_self e es)
    have hsub' : ∀ e' ∈ es, e' ∈ all := fun e' he' => hsub e' (List.mem_cons_of_mem e he')
    have key : ∀ pq' dist', P (e :: done) pq' dist' →
        ∃ done', (∀ e', e' ∈ e :: es ∨ e' ∈ done → e' ∈ done') ∧
          P done' (relaxC h u es (pq', dist')).1 (relaxC h u es (pq', dist')).2 := by
      intro pq' dist' hP
      obtain ⟨done', hd1, hd2⟩ := ih hsub' (e :: done) pq' dist' hP
      refine ⟨done', ?_, hd2⟩
      intro e' he'
      rcases he' with he' | he'
      · rcases List.mem_cons.1 he' with h1 | h1
        · exact hd1 e' (Or.inr (h1 ▸ List.mem_cons_self e done))
        · exact hd1 e' (Or.inl h1)
      · exact hd1 e' (Or.inr (List.mem_cons_of_mem e he'))
    cases hf : UMap.find dist e.to_ with
    | none =>
      rw [relaxC_cons_new h u e es pq dist hf]
      exact key _ _ (hpush done e pq dist he h0 (Or.inl hf))
    | some dv =>
      by_cases hlt : (UMap.find dist u).getD 0 + e.weight < dv
      · rw [relaxC_cons_lt h u e es pq dist hf hlt]
        exact key _ _ (hpush done e pq dist he h0 (Or.inr ⟨dv, hf, hlt⟩))
      · rw [relaxC_cons_ge h u e es pq dist hf hlt]
        exact key _ _ (hskip done e pq dist dv he h0 hf hlt)

theorem find_assign_le {α : Type} [LinearOrderedCommRing α] (dist : UMap α) (v : Int) (g : α)
    (hc : UMap.find dist v = none ∨ ∃ dv, UMap.find dist v = some dv ∧ g < dv) :
    ∀ y d', UMap.find dist y = some d' →
      ∃ d'', UMap.find (UMap.assign dist v g) y = some d'' ∧ d'' ≤ d' := by
  intro y d' hy
  by_cases hvy : v = y
  · subst hvy
    rcases hc with hc | ⟨dv, hc, hlt⟩
    · rw [hc] at hy
      exact absurd hy (by simp)
    · rw [hc] at hy
      simp only [Option.some.injEq] at hy
      exact ⟨g, UMap.find_assign_self dist v g, hy ▸ le_of_lt hlt⟩
  · exact ⟨d', by rw [UMap.find_assign_ne dist g hvy]; exact hy, le_refl _⟩

theorem witness_mono {α : Type} [LinearOrderedCommRing α] {E : Int → List (Edge α)}
    {start : Int} {dist dist' : UMap α}
    (hle : ∀ y d', UMap.find dist y = some d' → ∃ d'', UMap.find dist' y = some d'' ∧ d'' ≤ d')
    {x : Int} {d : α} (hw : Witness E start dist x d) : Witness E start dist' x d := by
  obtain ⟨p, hp, hnd, hwt, hno⟩ := hw
  refine ⟨p, hp, hnd, hwt, ?_⟩
  intro y hy
  obtain ⟨d', h1, h2⟩ := hno y hy
  obtain ⟨d'', h3, h4⟩ := hle y d' h1
  exact ⟨d'', h3, le_trans h4 h2⟩

theorem edgesDone_mono {α : Type} [LinearOrderedCommRing α] {dist dist' : UMap α}
    (hle : ∀ y d', UMap.find dist y = some d' → ∃ d'', UMap.find dist' y = some d'' ∧ d'' ≤ d')
    {d : α} {es : List (Edge α)} (hd : EdgesDone dist d es) : EdgesDone dist' d es := by
  intro e he
  obtain ⟨d', h1, h2⟩ := hd e he
  obtain ⟨d'', h3, h4⟩ := hle _ d' h1
  exact ⟨d'', h3, le_trans h4 h2⟩

theorem isOpen_cons {α : Type} [LinearOrderedCommRing α] {h : Int → α} {pq : PQ α} {v : Int}
    {d : α} (x : α × Int) (ho : IsOpen h pq v d) : IsOpen h (x :: pq) v d := by
  obtain ⟨f, hf, hb⟩ := ho
  exact ⟨f, List.mem_cons_of_mem x hf, hb⟩

/-- The witness of a strictly improved node: the witness of `u` extended by the relaxed edge. -/
theorem witness_extend {α : Type} [LinearOrderedCommRing α] {E : Int → List (Edge α)}
    (hnn : ∀ u, ∀ e ∈ E u, 0 ≤ e.weight) {start u : Int} {du : α} {dist : UMap α}
    (hw : Witness E start dist u du) {e : Edge α} (he : e ∈ E u)
    (hc : UMap.find dist e.to_ = none ∨ ∃ dv, UMap.find dist e.to_ = some dv ∧ du + e.weight < dv) :
    ∃ p, IsWalk E start p e.to_ ∧ (nodesOf start p).Nodup ∧ weightOf p = du + e.weight ∧
      ∀ x ∈ nodesOf start p,
        ∃ d', UMap.find (UMap.assign dist e.to_ (du + e.weight)) x = some d' ∧
          d' ≤ du + e.weight := by
  obtain ⟨p, hp, hnd, hwt, hno⟩ := hw
  have hw0 : 0 ≤ e.weight := hnn u e he
  have hnot : e.to_ ∉ nodesOf start p := by
    intro hmem
    obtain ⟨d', h1, h2⟩ := hno _ hmem
    rcases hc with hc | ⟨dv, hc, hlt⟩
    · rw [hc] at h1
      exact absurd h1 (by simp)
    · rw [hc] at h1
      simp only [Option.some.injEq] at h1
      subst h1
      have : du + e.weight < du := lt_of_lt_of_le hlt h2
      linarith
  refine ⟨p ++ [e], isWalk_snoc E hp he, ?_, ?_, ?_⟩
  · rw [nodesOf_snoc]
    refine List.Nodup.append hnd (List.nodup_singleton _) ?_
    intro x hx1 hx2
    simp only [List.mem_singleton] at hx2
    exact hnot (hx2 ▸ hx1)
  · rw [weightOf_snoc, hwt]
  · intro x hx
    rw [nodesOf_snoc] at hx
    rcases List.mem_append.1 hx with hx1 | hx1
    · obtain ⟨d', h1, h2⟩ := hno x hx1
      have hne : e.to_ ≠ x := fun hh => hnot (hh ▸ hx1)
      refine ⟨d', ?_, by linarith⟩
      rw [UMap.find_assign_ne dist _ hne]
      exact h1
    · simp only [List.mem_singleton] at hx1
      subst hx1
      exact ⟨_, UMap.find_assign_self dist _ _, le_refl _⟩

theorem rinv_push {α : Type} [LinearOrderedCommRing α] {E : Int → List (Edge α)} {h : Int → α}
    {start : Int} {nodes : List Int} {vals : List α}
    (hnn : ∀ u, ∀ e ∈ E u, 0 ≤ e.weight) (hnodes : ∀ u, ∀ e ∈ E u, e.to_ ∈ nodes)
    (hvals : ∀ p v, IsWalk E start p v → (nodesOf start p).Nodup → weightOf p ∈ vals)
    {u : Int} {du : α} {bound : Nat} {done : List (Edge α)} {pq : PQ α} {dist : UMap α}
    (hJ : RInv E h start u du nodes vals bound done pq dist) {e : Edge α} (he : e ∈ E u)
    (hc : UMap.find dist e.to_ = none ∨ ∃ dv, UMap.find dist e.to_ = some dv ∧ du + e.weight < dv) :
    RInv E h start u du nodes vals bound (e :: done)
      ((du + e.weight + h e.to_, e.to_) :: pq) (UMap.assign dist e.to_ (du + e.weight)) := by
  have hle := find_assign_le dist e.to_ (du + e.weight) hc
  have hw0 : 0 ≤ e.weight := hnn u e he
  have hdu0 : 0 ≤ du := by
    obtain ⟨p, hp, _, hwt, _⟩ := hJ.wit u du hJ.at_u
    rw [← hwt]
    exact weightOf_nonneg hnn hp
  have hvu : e.to_ ≠ u := by
    intro heq
    rcases hc with hc | ⟨dv, hc, hlt⟩
    · rw [heq, hJ.at_u] at hc
      exact absurd hc (by simp)
    · rw [heq, hJ.at_u] at hc
      simp only [Option.some.injEq] at hc
      subst hc
      linarith
  have hvs : e.to_ ≠ start := by
    intro heq
    rcases hc with hc | ⟨dv, hc, hlt⟩
    · rw [heq, hJ.start_zero] at hc
      exact absurd hc (by simp)
    · rw [heq, hJ.start_zero] at hc
      simp only [Option.some.injEq] at hc
      subst hc
      linarith
  obtain ⟨pw, hpw1, hpw2, hpw3, hpw4⟩ := witness_extend hnn (hJ.wit u du hJ.at_u) he hc
  refine ⟨?_, ?_, ?_, ?_, ?_, ?_, ?_⟩
  · rw [UMap.find_assign_ne dist _ hvs]
    exact hJ.start_zero
  · rw [UMap.find_assign_ne dist _ hvu]
    exact hJ.at_u
  · intro x d hx
    by_cases hvx : e.to_ = x
    · subst hvx
      rw [UMap.find_assign_self] at hx
      simp only [Option.some.injEq] at hx
      subst hx
      exact ⟨pw, hpw1, hpw2, hpw3, hpw4⟩
    · rw [UMap.find_assign_ne dist _ hvx] at hx
      exact witness_mono hle (hJ.wit x d hx)
  · intro x hx
    rcases List.mem_cons.1 hx with hx1 | hx1
    · subst hx1
      exact ⟨_, UMap.find_assign_self dist _ _, Or.inl (le_refl _)⟩
    · obtain ⟨d, h1, h2⟩ := hJ.ent x hx1
      obtain ⟨d'', h3, h4⟩ := hle x.2 d h1
      refine ⟨d'', h3, ?_⟩
      rcases h2 with h2 | h2
      · exact Or.inl (by linarith)
      · exact Or.inr h2
  · intro x d hxu hx
    by_cases hvx : e.to_ = x
    · subst hvx
      rw [UMap.find_assign_self] at hx
      simp only [Option.some.injEq] at hx
      subst hx
      exact Or.inl ⟨_, List.mem_cons_self _ _, Or.inl (le_refl _)⟩
    · rw [UMap.find_assign_ne dist _ hvx] at hx
      exact (hJ.oc x d hxu hx).imp (isOpen_cons _) (edgesDone_mono hle)
  · refine hJ.ocu.imp (isOpen_cons _) ?_
    intro hd e' he'
    rcases List.mem_cons.1 he' with h1 | h1
    · subst h1
      exact ⟨_, UMap.find_assign_self dist _ _, le_refl _⟩
    · exact edgesDone_mono hle hd e' h1
  · have hg : du + e.weight ∈ vals := hpw3 ▸ hvals pw e.to_ hpw1 hpw2
    have hm := totalSlack_assign nodes vals dist e.to_ (du + e.weight) (hnodes u e he) hg hc
    have hb := hJ.meas
    simp only [List.length_cons]
    omega

theorem rinv_skip {α : Type} [LinearOrderedCommRing α] {E : Int → List (Edge α)} {h : Int → α}
    {start : Int} {nodes : List Int} {vals : List α}
    {u : Int} {du : α} {bound : Nat} {done : List (Edge α)} {pq : PQ α} {dist : UMap α}
    (hJ : RInv E h start u du nodes vals bound done pq dist) {e : Edge α} {dv : α}
    (hf : UMap.find dist e.to_ = some dv) (hge : ¬ du + e.weight < dv) :
    RInv E h start u du nodes vals bound (e :: done) pq dist := by
  refine ⟨hJ.start_zero, hJ.at_u, hJ.wit, hJ.ent, hJ.oc, ?_, hJ.meas⟩
  refine hJ.ocu.imp id ?_
  intro hd e' he'
  rcases List.mem_cons.1 he' with h1 | h1
  · subst h1
    exact ⟨dv, hf, not_lt.1 hge⟩
  · exact hd e' h1

/-- Relaxing all edges of the popped node re-establishes the loop invariant and does not
increase the termination measure. -/
theorem relaxC_inv {α : Type} [LinearOrderedCommRing α] {E : Int → List (Edge α)} {h : Int → α}
    {start : Int} {nodes : List Int} {vals : List α}
    (hnn : ∀ u, ∀ e ∈ E u, 0 ≤ e.weight) (hnodes : ∀ u, ∀ e ∈ E u, e.to_ ∈ nodes)
    (hvals : ∀ p v, IsWalk E start p v → (nodesOf start p).Nodup → weightOf p ∈ vals)
    {u : Int} {du : α} {bound : Nat} {pq : PQ α} {dist : UMap α}
    (hJ : RInv E h start u du nodes vals bound [] pq dist) :
    Inv E h start (relaxC h u (E u) (pq, dist)).1 (relaxC h u (E u) (pq, dist)).2 ∧
      (relaxC h u (E u) (pq, dist)).1.length
        + 2 * totalSlack nodes vals (relaxC h u (E u) (pq, dist)).2 ≤ bound := by
  obtain ⟨done', hd1, hd2⟩ := relaxC_induct2 h u
    (fun done q d => RInv E h start u du nodes vals bound done q d) (E u)
    (by
      intro done e q d he hP hc
      have hu : (UMap.find d u).getD 0 = du := by simp [hP.at_u]
      rw [hu] at hc ⊢
      exact rinv_push hnn hnodes hvals hP he hc)
    (by
      intro done e q d dv _ hP hf hge
      have hu : (UMap.find d u).getD 0 = du := by simp [hP.at_u]
      rw [hu] at hge
      exact rinv_skip hP hf hge)
    (E u) (fun _ he => he) [] pq dist hJ
  refine ⟨⟨hd2.start_zero, hd2.wit, hd2.ent, ?_⟩, hd2.meas⟩
  intro v d hv
  by_cases hvu : v = u
  · subst hvu
    rw [hd2.at_u] at hv
    simp only [Option.some.injEq] at hv
    subst hv
    refine hd2.ocu.imp id ?_
    intro hd e he
    exact hd e (hd1 e (Or.inl he))
  · exact hd2.oc v d hvu hv

/-! ## The distance of the goal at the exit of the loop -/

/-- Following a walk from a node with a recorded distance either reaches its end with a recorded
distance bounded by the walk, or meets a node that is still open. -/
theorem chase {α : Type} [LinearOrderedCommRing α] {E : Int → List (Edge α)} {h : Int → α}
    {pq : PQ α} {dist : UMap α}
    (hoc : ∀ v d, UMap.find dist v = some d → IsOpen h pq v d ∨ EdgesDone dist d (E v))
    (p : List (Edge α)) (u : Int) (d : α) (t : Int) (hu : UMap.find dist u = some d)
    (hp : IsWalk E u p t) :
    (∃ d', UMap.find dist t = some d' ∧ d' ≤ d + weightOf p) ∨
      ∃ x dx wq r, UMap.find dist x = some dx ∧ dx ≤ d + wq ∧ IsWalk E x r t ∧
        wq + weightOf r = weightOf p ∧ IsOpen h pq x dx := by
  induction p generalizing u d with
  | nil =>
    have hut : u = t := hp
    subst hut
    exact Or.inl ⟨d, hu, by simp [weightOf]⟩
  | cons e p ih =>
    obtain ⟨he, hp'⟩ := hp
    rcases hoc u d hu with ho | hdone
    · exact Or.inr ⟨u, d, 0, e :: p, hu, by simp, ⟨he, hp'⟩, by simp, ho⟩
    · obtain ⟨d1, h1, h2⟩ := hdone e he
      rcases ih e.to_ d1 h1 hp' with ⟨d', h3, h4⟩ | ⟨x, dx, wq, r, h3, h4, h5, h6, h7⟩
      · refine Or.inl ⟨d', h3, ?_⟩
        rw [weightOf_cons]
        linarith
      · refine Or.inr ⟨x, dx, e.weight + wq, r, h3, by linarith, h5, ?_, h7⟩
        rw [weightOf_cons, ← h6]
        ring

/-- At either exit of the loop, the recorded distance of the goal is at most the weight of every
walk from the start to the goal, for an admissible heuristic that is non-negative at the goal. -/
theorem goal_bound {α : Type} [LinearOrderedCommRing α] {E : Int → List (Edge α)} {h : Int → α}
    {start goal : Int} {pq : PQ α} {dist : UMap α}
    (hnn : ∀ u, ∀ e ∈ E u, 0 ≤ e.weight)
    (hadm : ∀ v p, IsWalk E v p goal → h v ≤ weightOf p) (hg0 : 0 ≤ h goal)
    (hI : Inv E h start pq dist)
    (hexit : pq = [] ∨ ∃ t, pqTop pq = some t ∧ t.2 = goal)
    (p : List (Edge α)) (hp : IsWalk E start p goal) :
    ∃ d, UMap.find dist goal = some d ∧ d ≤ weightOf p := by
  rcases chase hI.oc p start 0 goal hI.start_zero hp with
    ⟨d', h1, h2⟩ | ⟨x, dx, wq, r, h3, h4, h5, h6, f, hf, hb⟩
  · exact ⟨d', h1, by linarith⟩
  · rcases hexit with hnil | ⟨t, ht, htg⟩
    · rw [hnil] at hf
      exact absurd hf (List.not_mem_nil _)
    · have hW : 0 ≤ weightOf p := weightOf_nonneg hnn hp
      have hfW : f ≤ weightOf p := by
        rcases hb with hb | hb
        · have := hadm x r h5
          linarith
        · rw [hb]
          exact hW
      have htf : t.1 ≤ f := (pqTop_le pq ht (f, x) hf).fst_le
      obtain ⟨d, hd1, hd2⟩ := hI.ent t (pqTop_mem pq ht)
      rw [htg] at hd1 hd2
      refine ⟨d, hd1, ?_⟩
      rcases hd2 with hd2 | ⟨hd2, _⟩
      · linarith
      · rw [hd2, hI.start_zero] at hd1
        simp only [Option.some.injEq] at hd1
        rw [← hd1]
        exact hW

/-- The state after the pop satisfies the invariant of the relaxation loop. -/
theorem rinv_of_inv {α : Type} [LinearOrderedCommRing α] {E : Int → List (Edge α)}
    {h : Int → α} {start : Int} (nodes : List Int) (vals : List α) {pq : PQ α} {dist : UMap α}
    (hI : Inv E h start pq dist) {t : α × Int} (ht : pqTop pq = some t) :
    ∃ du, RInv E h start t.2 du nodes vals
      ((pqPop pq).length + 2 * totalSlack nodes vals dist) [] (pqPop pq) dist := by
  obtain ⟨du, hdu, _⟩ := hI.ent t (pqTop_mem pq ht)
  refine ⟨du, hI.start_zero, hdu, hI.wit, ?_, ?_, ?_, le_refl _⟩
  · intro x hx
    exact hI.ent x (mem_of_mem_pqPop pq hx)
  · intro v d hvu hv
    refine (hI.oc v d hv).imp ?_ id
    rintro ⟨f, hf, hb⟩
    refine ⟨f, ?_, hb⟩
    rw [pqPop_of_top pq ht]
    refine (List.mem_erase_of_ne ?_).2 hf
    intro heq
    exact hvu (by rw [← heq])
  · exact Or.inr (fun e he => absurd he (List.not_mem_nil e))

/-- The search loop terminates within the termination measure, every recorded distance is then
the weight of a path without repeated nodes, and for an admissible heuristic the recorded
distance of the goal is a lower bound of the walks to the goal. -/
theorem coreLoop_terminates {α : Type} [LinearOrderedCommRing α] {E : Int → List (Edge α)}
    {h : Int → α} {start : Int} (nodes : List Int) (vals : List α) (goal : Int)
    (hnn : ∀ u, ∀ e ∈ E u, 0 ≤ e.weight) (hnodes : ∀ u, ∀ e ∈ E u, e.to_ ∈ nodes)
    (hvals : ∀ p v, IsWalk E start p v → (nodesOf start p).Nodup → weightOf p ∈ vals)
    (n : Nat) (s : CState α) (hI : Inv E h start s.pq s.dist)
    (hn : s.pq.length + 2 * totalSlack nodes vals s.dist < n) :
    ∃ r, coreLoop E h goal n s = some r ∧
      (UMap.find r.dist start = some 0) ∧
      (∀ v d, UMap.find r.dist v = some d → Witness E start r.dist v d) ∧
      ((∀ v p, IsWalk E v p goal → h v ≤ weightOf p) → 0 ≤ h goal →
        ∀ p, IsWalk E start p goal → ∃ d, UMap.find r.dist goal = some d ∧ d ≤ weightOf p) := by
  induction n generalizing s with
  | zero => exact absurd hn (Nat.not_lt_zero _)
  | succ n ih =>
    cases ht : pqTop s.pq with
    | none =>
      refine ⟨s, by simp [coreLoop, ht], hI.start_zero, hI.wit, ?_⟩
      intro hadm hg0 p hp
      exact goal_bound hnn hadm hg0 hI (Or.inl ((pqTop_eq_none s.pq).1 ht)) p hp
    | some t =>
      by_cases hg : t.2 = goal
      · refine ⟨⟨pqPop s.pq, s.dist, s.visited + 1⟩, by simp [coreLoop, ht, hg],
          hI.start_zero, hI.wit, ?_⟩
        intro hadm hg0 p hp
        exact goal_bound hnn hadm hg0 hI (Or.inr ⟨t, ht, hg⟩) p hp
      · obtain ⟨du, hJ⟩ := rinv_of_inv nodes vals hI ht
        obtain ⟨hI', hm⟩ := relaxC_inv hnn hnodes hvals hJ
        have hlen := length_pqPop s.pq ht
        have hstep : coreLoop E h goal (n + 1) s = coreLoop E h goal n
            ⟨(relaxC h t.2 (E t.2) (pqPop s.pq, s.dist)).1,
             (relaxC h t.2 (E t.2) (pqPop s.pq, s.dist)).2, s.visited + 1⟩ := by
          simp [coreLoop, ht, hg]
        rw [hstep]
        exact ih _ hI' (by simp only; omega)

/-- The invariant holds when the loop is entered. -/
theorem inv_init {α : Type} [LinearOrderedCommRing α] (E : Int → List (Edge α)) (h : Int → α)
    (start : Int) : Inv E h start [((0 : α), start)] (UMap.assign [] start 0) := by
  have hfind : ∀ v d, UMap.find (UMap.assign ([] : UMap α) start 0) v = some d →
      v = start ∧ d = 0 := by
    intro v d hv
    rw [UMap.find_assign] at hv
    by_cases hsv : start = v
    · simp only [hsv, if_true, Option.some.injEq] at hv
      exact ⟨hsv.symm, hv.symm⟩
    · simp [hsv, UMap.find] at hv
  refine ⟨UMap.find_assign_self _ _ _, ?_, ?_, ?_⟩
  · intro v d hv
    obtain ⟨h1, h2⟩ := hfind v d hv
    subst h1 h2
    refine ⟨[], rfl, by simp [nodesOf], rfl, ?_⟩
    intro x hx
    simp only [nodesOf, List.map_nil, List.mem_singleton] at hx
    subst hx
    exact ⟨0, UMap.find_assign_self _ _ _, le_refl _⟩
  · intro x hx
    simp only [List.mem_singleton] at hx
    subst hx
    exact ⟨0, UMap.find_assign_self _ _ _, Or.inr ⟨rfl, rfl⟩⟩
  · intro v d hv
    obtain ⟨h1, h2⟩ := hfind v d hv
    subst h1 h2
    exact Or.inl ⟨0, List.mem_singleton_self _, Or.inr rfl⟩

/-! ## The stored graph is finite -/

theorem UMap.mem_of_find {V : Type} (m : UMap V) (k : Int) (v : V)
    (hf : UMap.find m k = some v) : (k, v) ∈ m := by
  induction m with
  | nil => simp [UMap.find] at hf
  | cons x rest ih =>
    obtain ⟨k0, v0⟩ := x
    by_cases h0 : k0 = k
    · subst h0
      simp only [UMap.find, if_true, Option.some.injEq] at hf
      subst hf
      exact List.mem_cons_self _ _
    · simp only [UMap.find, h0, if_false] at hf
      exact List.mem_cons_of_mem _ (ih hf)

theorem mem_allEdges_of_edgesOf {α : Type} (adj : UMap (List (Edge α))) (u : Int) (e : Edge α)
    (he : e ∈ edgesOf adj u) : e ∈ allEdges adj := by
  unfold edgesOf at he
  cases hf : UMap.find adj u with
  | none =>
    rw [hf] at he
    exact absurd he (List.not_mem_nil e)
  | some es =>
    rw [hf] at he
    exact List.mem_flatMap.2 ⟨(u, es), UMap.mem_of_find adj u es hf, he⟩

theorem mem_allNodes_of_edgesOf {α : Type} (adj : UMap (List (Edge α))) (start : Int) :
    ∀ u, ∀ e ∈ edgesOf adj u, e.to_ ∈ allNodes adj start := by
  intro u e he
  exact List.mem_cons_of_mem _ (List.mem_map.2 ⟨e, mem_allEdges_of_edgesOf adj u e he, rfl⟩)

theorem walk_edges_mem {α : Type} (adj : UMap (List (Edge α))) {s t : Int}
    {p : List (Edge α)} (hp : IsWalk (edgesOf adj) s p t) : ∀ e ∈ p, e ∈ allEdges adj := by
  induction p generalizing s with
  | nil => intro e he; exact absurd he (List.not_mem_nil e)
  | cons e0 p ih =>
    obtain ⟨he0, hp'⟩ := hp
    intro e he
    rcases List.mem_cons.1 he with h1 | h1
    · rw [h1]
      exact mem_allEdges_of_edgesOf adj s e0 he0
    · exact ih hp' e h1

theorem zero_mem_sumsUpTo {α : Type} [LinearOrderedCommRing α] (ws : List α) (k : Nat) :
    (0 : α) ∈ sumsUpTo ws k := by
  cases k <;> simp [sumsUpTo]

theorem mem_sumsUpTo {α : Type} [LinearOrderedCommRing α] (ws : List α) (p : List (Edge α))
    (k : Nat) (hws : ∀ e ∈ p, e.weight ∈ ws) (hk : p.length ≤ k) :
    weightOf p ∈ sumsUpTo ws k := by
  induction p generalizing k with
  | nil => exact zero_mem_sumsUpTo ws k
  | cons e p ih =>
    cases k with
    | zero => simp at hk
    | succ k =>
      have hp : weightOf p ∈ sumsUpTo ws k :=
        ih k (fun e' he' => hws e' (List.mem_cons_of_mem e he'))
          (by simpa using hk)
      rw [weightOf_cons]
      refine List.mem_cons_of_mem _ (List.mem_flatMap.2 ⟨e.weight, hws e (List.mem_cons_self e p), ?_⟩)
      exact List.mem_map.2 ⟨weightOf p, hp, rfl⟩

theorem weightOf_mem_allVals {α : Type} [LinearOrderedCommRing α] (adj : UMap (List (Edge α)))
    (start : Int) :
    ∀ p v, IsWalk (edgesOf adj) start p v → (nodesOf start p).Nodup →
      weightOf p ∈ allVals adj start := by
  intro p v hp hnd
  have hmem := walk_edges_mem adj hp
  have hsub : nodesOf start p ⊆ allNodes adj start := by
    intro x hx
    rcases List.mem_cons.1 hx with h1 | h1
    · rw [h1]
      exact List.mem_cons_self _ _
    · obtain ⟨e, he, hex⟩ := List.mem_map.1 h1
      exact List.mem_cons_of_mem _ (List.mem_map.2 ⟨e, hmem e he, hex⟩)
  have hlen : (nodesOf start p).length ≤ (allNodes adj start).length :=
    (List.Nodup.subperm hnd hsub).length_le
  refine mem_sumsUpTo _ p _ ?_ ?_
  · intro e he
    exact List.mem_map.2 ⟨e, hmem e he, rfl⟩
  · simp only [nodesOf, List.length_cons, List.length_map] at hlen
    omega

/-! ## Both loops of `runExperiment` terminate with a distance map of path weights -/

/-- The search loop entered at `start` terminates within `fuelBound` iterations. -/
theorem search_terminates {α : Type} [LinearOrderedCommRing α] (adj : UMap (List (Edge α)))
    (h : Int → α) (start goal : Int) (hnn : NonnegWeights adj) (n : Nat)
    (hn : fuelBound adj start ≤ n) :
    ∃ r, coreLoop (edgesOf adj) h goal n (coreInit start) = some r ∧
      SearchPost (edgesOf adj) h start goal r.dist := by
  refine coreLoop_terminates (allNodes adj start) (allVals adj start) goal hnn
    (mem_allNodes_of_edgesOf adj start) (weightOf_mem_allVals adj start) n _
    (inv_init (edgesOf adj) h start) ?_
  unfold fuelBound at hn
  simp only [coreInit, List.length_singleton]
  omega

theorem pqDom_init {α : Type} [LinearOrderedCommRing α] (start : Int) :
    PQDom [((0 : α), start)] (UMap.assign [] start 0) := by
  intro x hx
  simp only [List.mem_singleton] at hx
  subst hx
  simp [UMap.find_assign_self]

/-- The relaxation uses the heuristic only at the targets of the relaxed edges. -/
theorem relaxC_congr {α : Type} [LinearOrderedCommRing α] (h h' : Int → α) (u : Int)
    (es : List (Edge α)) (hh : ∀ e ∈ es, h e.to_ = h' e.to_) (s : PQ α × UMap α) :
    relaxC h u es s = relaxC h' u es s := by
  induction es generalizing s with
  | nil => simp [relaxC]
  | cons e es ih =>
    obtain ⟨pq, dist⟩ := s
    have he : h e.to_ = h' e.to_ := hh e (List.mem_cons_self e es)
    have ih' := ih (fun e' he' => hh e' (List.mem_cons_of_mem e he'))
    simp only [relaxC, he, ih']

/-- The search loop uses the heuristic only at edge targets. -/
theorem coreLoop_congr {α : Type} [LinearOrderedCommRing α] (E : Int → List (Edge α))
    (h h' : Int → α) (goal : Int) (hh : ∀ u, ∀ e ∈ E u, h e.to_ = h' e.to_) (n : Nat)
    (s : CState α) : coreLoop E h goal n s = coreLoop E h' goal n s := by
  induction n generalizing s with
  | zero => simp [coreLoop]
  | succ n ih =>
    simp only [coreLoop, relaxC_congr h h' _ _ (hh _), ih]

/-- More fuel does not change the result of the search loop. -/
theorem coreLoop_mono {α : Type} [LinearOrderedCommRing α] (E : Int → List (Edge α))
    (h : Int → α) (goal : Int) (n : Nat) (s r : CState α)
    (hr : coreLoop E h goal n s = some r) : coreLoop E h goal (n + 1) s = some r := by
  induction n generalizing s with
  | zero => simp [coreLoop] at hr
  | succ n ih =>
    cases ht : pqTop s.pq with
    | none =>
      have h1 : coreLoop E h goal (n + 1) s = some s := by simp [coreLoop, ht]
      have h2 : coreLoop E h goal (n + 1 + 1) s = some s := by simp [coreLoop, ht]
      rw [h2, ← h1, hr]
    | some t =>
      by_cases hg : t.2 = goal
      · have h1 : coreLoop E h goal (n + 1) s = some ⟨pqPop s.pq, s.dist, s.visited + 1⟩ := by
          simp [coreLoop, ht, hg]
        have h2 : coreLoop E h goal (n + 1 + 1) s
            = some ⟨pqPop s.pq, s.dist, s.visited + 1⟩ := by
          simp [coreLoop, ht, hg]
        rw [h2, ← h1, hr]
      · have h1 : coreLoop E h goal (n + 1) s = coreLoop E h goal n
            ⟨(relaxC h t.2 (E t.2) (pqPop s.pq, s.dist)).1,
             (relaxC h t.2 (E t.2) (pqPop s.pq, s.dist)).2, s.visited + 1⟩ := by
          simp [coreLoop, ht, hg]
        have h2 : coreLoop E h goal (n + 1 + 1) s = coreLoop E h goal (n + 1)
            ⟨(relaxC h t.2 (E t.2) (pqPop s.pq, s.dist)).1,
             (relaxC h t.2 (E t.2) (pqPop s.pq, s.dist)).2, s.visited + 1⟩ := by
          simp [coreLoop, ht, hg]
        rw [h2]
        rw [h1] at hr
        exact ih _ hr

theorem coreLoop_mono_le {α : Type} [LinearOrderedCommRing α] (E : Int → List (Edge α))
    (h : Int → α) (goal : Int) (n m : Nat) (hnm : n ≤ m) (s r : CState α)
    (hr : coreLoop E h goal n s = some r) : coreLoop E h goal m s = some r := by
  induction m with
  | zero =>
    have : n = 0 := Nat.le_zero.1 hnm
    subst this
    exact hr
  | succ m ih =>
    rcases Nat.lt_or_ge m n with hlt | hge
    · have : n = m + 1 := by omega
      subst this
      exact hr
    · exact coreLoop_mono E h goal m s r (ih hge)

/-- The record `runExperiment` returns, read off from the two runs of the common form. -/
theorem runExperiment_of_core {α : Type} [LinearOrderedCommRing α]
    (hav : Point α → Point α → α) (g : Graph α) (start goal : Int) (n : Nat)
    (rd ra : CState α)
    (hrd : coreLoop (edgesOf g.adj) (fun _ => 0) goal n (coreInit start) = some rd)
    (hra : coreLoop (edgesOf g.adj) (heur hav g.node_coords goal) goal n (coreInit start)
      = some ra) :
    ∃ d a, dijkstraLoop goal n (dijkstraInit g start) = some d ∧
      astarLoop hav goal n (astarInit d.adj g.node_coords start) = some a ∧
      d.core = rd ∧ a.core = ra ∧
      (∀ v, edgesOf a.adj v = edgesOf g.adj v) ∧
      (∀ v, coordOf a.node_coords v = coordOf g.node_coords v) ∧
      runExperiment hav g start goal n
        = some (⟨(UMap.find ra.dist goal).getD 0, rd.visited, ra.visited⟩,
            ⟨a.adj, a.node_coords⟩) := by
  obtain ⟨cd1, cd2⟩ := dijkstraLoop_core goal n (dijkstraInit g start) (pqDom_init start)
  have hcd : (dijkstraLoop goal n (dijkstraInit g start)).map DState.core = some rd := by
    rw [cd1]
    exact hrd
  obtain ⟨d, hd, hdr⟩ := Option.map_eq_some'.1 hcd
  have hEd : edgesOf d.adj = edgesOf g.adj := by
    funext v
    exact cd2 d hd v
  obtain ⟨ca1, ca2⟩ := astarLoop_core hav goal n (astarInit d.adj g.node_coords start)
    (pqDom_init start)
  have hca : (astarLoop hav goal n (astarInit d.adj g.node_coords start)).map AState.core
      = some ra := by
    rw [ca1]
    simp only [astarInit, hEd]
    exact hra
  obtain ⟨a, ha, har⟩ := Option.map_eq_some'.1 hca
  obtain ⟨ha1, ha2⟩ := ca2 a ha
  refine ⟨d, a, hd, ha, hdr, har, ?_, ha2, ?_⟩
  · intro v
    rw [ha1 v]
    exact cd2 d hd v
  · have e1 : d.visited = rd.visited := by rw [← hdr]; rfl
    have e2 : a.visited = ra.visited := by rw [← har]; rfl
    have e3 : a.dist = ra.dist := by rw [← har]; rfl
    simp [runExperiment, hd, ha, UMap.index_fst, e1, e2, e3]

/-- With non-negative weights both loops of `runExperiment` terminate within `fuelBound`
iterations; the record returned and the distance maps the loops end with are as described by
`SearchPost`, and the two global maps denote what they denoted before the call. -/
theorem runExperiment_terminates {α : Type} [LinearOrderedCommRing α]
    (hav : Point α → Point α → α) (g : Graph α) (start goal : Int)
    (hnn : NonnegWeights g.adj) (n : Nat) (hn : fuelBound g.adj start ≤ n) :
    ∃ d a, dijkstraLoop goal n (dijkstraInit g start) = some d ∧
      astarLoop hav goal n (astarInit d.adj g.node_coords start) = some a ∧
      runExperiment hav g start goal n
        = some (⟨(UMap.find a.dist goal).getD 0, d.visited, a.visited⟩,
            ⟨a.adj, a.node_coords⟩) ∧
      (∀ v, edgesOf a.adj v = edgesOf g.adj v) ∧
      (∀ v, coordOf a.node_coords v = coordOf g.node_coords v) ∧
      SearchPost (edgesOf g.adj) (fun _ => 0) start goal d.dist ∧
      SearchPost (edgesOf g.adj) (heur hav g.node_coords goal) start goal a.dist := by
  obtain ⟨rd, hrd, hpd⟩ := search_terminates g.adj (fun _ => (0 : α)) start goal hnn n hn
  obtain ⟨ra, hra, hpa⟩ :=
    search_terminates g.adj (heur hav g.node_coords goal) start goal hnn n hn
  obtain ⟨d, a, hd, ha, hdr, har, h1, h2, hrun⟩ :=
    runExperiment_of_core hav g start goal n rd ra hrd hra
  have e1 : d.visited = rd.visited := by rw [← hdr]; rfl
  have e2 : a.visited = ra.visited := by rw [← har]; rfl
  have e3 : a.dist = ra.dist := by rw [← har]; rfl
  have e4 : d.dist = rd.dist := by rw [← hdr]; rfl
  refine ⟨d, a, hd, ha, ?_, h1, h2, ?_, ?_⟩
  · rw [hrun, e1, e2, e3]
  · rw [e4]
    exact hpd
  · rw [e3]
    exact hpa

/-- A distance map described by `SearchPost` holds the minimum path weight at a reachable goal
when the heuristic is admissible and non-negative at the goal. -/
theorem searchPost_shortest {α : Type} [LinearOrderedCommRing α] (adj : UMap (List (Edge α)))
    (h : Int → α) (start goal : Int) (dist : UMap α)
    (hpost : SearchPost (edgesOf adj) h start goal dist)
    (hadm : ∀ v p, IsWalk (edgesOf adj) v p goal → h v ≤ weightOf p) (hg0 : 0 ≤ h goal)
    (hreach : Reachable adj start goal) :
    ∃ d, UMap.find dist goal = some d ∧ IsShortestDist adj start goal d := by
  obtain ⟨_, hwit, hlow⟩ := hpost
  obtain ⟨p0, hp0⟩ := hreach
  obtain ⟨d, hd, _⟩ := hlow hadm hg0 p0 hp0
  refine ⟨d, hd, ?_, ?_⟩
  · obtain ⟨p, hp, hnd, hw, _⟩ := hwit goal d hd
    exact ⟨p, hp, hnd, hw⟩
  · intro p hp
    obtain ⟨d', hd', hle⟩ := hlow hadm hg0 p hp
    rw [hd] at hd'
    simp only [Option.some.injEq] at hd'
    rw [hd']
    exact hle

/-- A distance map described by `SearchPost` has no entry for an unreachable node. -/
theorem searchPost_unreachable {α : Type} [LinearOrderedCommRing α] (adj : UMap (List (Edge α)))
    (h : Int → α) (start goal : Int) (dist : UMap α)
    (hpost : SearchPost (edgesOf adj) h start goal dist)
    (hunreach : ¬ Reachable adj start goal) : UMap.find dist goal = none := by
  cases hf : UMap.find dist goal with
  | none => rfl
  | some d =>
    obtain ⟨p, hp, _⟩ := hpost.2.1 goal d hf
    exact absurd ⟨p, hp⟩ hunreach

theorem haversine_self (p : Point ℝ) : haversine p p = 0 := by
  simp [haversine]

/-- A rejected trial leaves the trial index and the records as they are; only the generator
advances and the global maps are those `runExperiment` left. -/
theorem harnessLoop_reject {α : Type} [LinearOrderedCommRing α] (hav : Point α → Point α → α)
    (rng : Nat → Nat) (ids : List Int) (fuelR m i k : Nat) (g g1 : Graph α)
    (records : List (Nat × TrialResult α)) (start goal : Int) (res : TrialResult α)
    (hi : i < 1000) (hs : ids[rng k % ids.length]? = some start)
    (hg : ids[rng (k + 1) % ids.length]? = some goal)
    (hrun : runExperiment hav g start goal fuelR = some (res, g1)) (hrej : accept res = false) :
    harnessLoop hav rng ids fuelR (m + 1) i k g records
      = harnessLoop hav rng ids fuelR m i (k + 2) g1 records := by
  have hne : ids.length ≠ 0 := by
    intro h0
    have : ids = [] := List.length_eq_zero.1 h0
    rw [this] at hs
    simp at hs
  simp [harnessLoop, hi, hne, hs, hg, hrun, hrej]

/-! ## The example graphs -/

theorem twoIslands_nonneg (α : Type) [LinearOrderedCommRing α] :
    NonnegWeights (twoIslands α).adj := by
  intro u e he
  have hmem := mem_allEdges_of_edgesOf _ u e he
  simp only [twoIslands, allEdges, List.flatMap_cons, List.flatMap_nil, List.append_nil,
    List.singleton_append, List.mem_cons, List.mem_singleton, List.not_mem_nil, or_false] at hmem
  rcases hmem with h | h | h | h <;> rw [h] <;> exact zero_le_one

theorem twoIslands_coord (α : Type) [LinearOrderedCommRing α] (v : Int) :
    coordOf (twoIslands α).node_coords v = ⟨0, 0⟩ := by
  simp only [coordOf, twoIslands, UMap.find]
  split_ifs <;> rfl

theorem twoIslands_reach (α : Type) [LinearOrderedCommRing α] :
    Reachable (twoIslands α).adj 1 2 :=
  ⟨[⟨2, 1⟩], by simp [IsWalk, edgesOf, twoIslands, UMap.find]⟩

theorem twoIslands_walk_from_one (α : Type) [LinearOrderedCommRing α] (p : List (Edge α))
    (s t : Int) (hs : s = 1 ∨ s = 2) (hp : IsWalk (edgesOf (twoIslands α).adj) s p t) :
    t = 1 ∨ t = 2 := by
  induction p generalizing s with
  | nil =>
    have : s = t := hp
    rw [← this]
    exact hs
  | cons e p ih =>
    obtain ⟨he, hp'⟩ := hp
    refine ih e.to_ ?_ hp'
    rcases hs with hs | hs
    · subst hs
      simp [edgesOf, twoIslands, UMap.find] at he
      right
      rw [he]
    · subst hs
      simp [edgesOf, twoIslands, UMap.find] at he
      left
      rw [he]

theorem twoIslands_unreach (α : Type) [LinearOrderedCommRing α] :
    ¬ Reachable (twoIslands α).adj 1 3 := by
  rintro ⟨p, hp⟩
  rcases twoIslands_walk_from_one α p 1 3 (Or.inl rfl) hp with h | h <;> omega

/-- For an unreachable goal and non-negative weights both loops run until their queues are
empty, the distance map of A* has no entry for the goal, and `dist_a[goal]` reads the
value-initialised zero, which the acceptance test rejects. -/
theorem runExperiment_unreachable {α : Type} [LinearOrderedCommRing α]
    (hav : Point α → Point α → α) (g : Graph α) (start goal : Int)
    (hnn : NonnegWeights g.adj) (hun : ¬ Reachable g.adj start goal)
    (n : Nat) (hn : fuelBound g.adj start ≤ n) :
    ∃ d a, dijkstraLoop goal n (dijkstraInit g start) = some d ∧
      astarLoop hav goal n (astarInit d.adj g.node_coords start) = some a ∧
      UMap.find a.dist goal = none ∧
      runExperiment hav g start goal n
        = some (⟨0, d.visited, a.visited⟩, ⟨a.adj, a.node_coords⟩) ∧
      accept (⟨0, d.visited, a.visited⟩ : TrialResult α) = false := by
  obtain ⟨d, a, hd, ha, hrun, _, _, _, hpa⟩ :=
    runExperiment_terminates hav g start goal hnn n hn
  have hnone := searchPost_unreachable g.adj _ start goal a.dist hpa hun
  refine ⟨d, a, hd, ha, hnone, ?_, by simp [accept]⟩
  rw [hrun, hnone]
  rfl

theorem nonneg_of_allEdges {α : Type} [LinearOrderedCommRing α] (adj : UMap (List (Edge α)))
    (hall : ∀ e ∈ allEdges adj, 0 ≤ e.weight) : NonnegWeights adj :=
  fun u e he => hall e (mem_allEdges_of_edgesOf adj u e he)

theorem mem_edgesOf {α : Type} (adj : UMap (List (Edge α))) (u : Int) (e : Edge α)
    (he : e ∈ edgesOf adj u) : ∃ es, (u, es) ∈ adj ∧ e ∈ es := by
  unfold edgesOf at he
  cases hf : UMap.find adj u with
  | none =>
    rw [hf] at he
    exact absurd he (List.not_mem_nil e)
  | some es =>
    rw [hf] at he
    exact ⟨es, UMap.mem_of_find adj u es hf, he⟩

theorem adj3_nonneg : NonnegWeights (adj3 ℝ) := by
  apply nonneg_of_allEdges
  simp [allEdges, adj3]

theorem lucknowCoords_one : coordOf lucknowCoords 1 = ⟨26, 80⟩ := by
  simp [coordOf, lucknowCoords, UMap.find]

theorem lucknowCoords_two : coordOf lucknowCoords 2 = ⟨26, 80⟩ := by
  simp [coordOf, lucknowCoords, UMap.find]

theorem lucknowCoords_three : coordOf lucknowCoords 3 = ⟨26, 80⟩ := by
  simp [coordOf, lucknowCoords, UMap.find]

theorem adj3_target (u : Int) (e : Edge ℝ) (he : e ∈ edgesOf (adj3 ℝ) u) :
    e.to_ = 1 ∨ e.to_ = 2 ∨ e.to_ = 3 := by
  have hmem := mem_allEdges_of_edgesOf _ u e he
  simp only [adj3, allEdges, List.flatMap_cons, List.flatMap_nil, List.append_nil,
    List.cons_append, List.nil_append, List.mem_cons, List.mem_singleton, List.not_mem_nil,
    or_false] at hmem
  rcases hmem with h | h | h | h | h | h <;> rw [h] <;> simp

theorem adj3_source (u : Int) (e : Edge ℝ) (he : e ∈ edgesOf (adj3 ℝ) u) :
    u = 1 ∨ u = 2 ∨ u = 3 := by
  obtain ⟨es, h1, _⟩ := mem_edgesOf _ u e he
  simp only [adj3, List.mem_cons, Prod.mk.injEq, List.mem_singleton, List.not_mem_nil,
    or_false] at h1
  rcases h1 with ⟨h, _⟩ | ⟨h, _⟩ | ⟨h, _⟩
  · exact Or.inl h
  · exact Or.inr (Or.inl h)
  · exact Or.inr (Or.inr h)

theorem adj3_walk_source (v : Int) (p : List (Edge ℝ))
    (hp : IsWalk (edgesOf (adj3 ℝ)) v p 3) : v = 1 ∨ v = 2 ∨ v = 3 := by
  cases p with
  | nil => exact Or.inr (Or.inr hp)
  | cons e p => exact adj3_source v e hp.1

theorem detour_nonneg : NonnegWeights (detour ℝ).adj := by
  apply nonneg_of_allEdges
  simp [allEdges, detour]

theorem staleGraph_nonneg : NonnegWeights (staleGraph ℝ).adj := by
  apply nonneg_of_allEdges
  simp [allEdges, staleGraph]

theorem haversine_antipode : haversine ⟨0, 180⟩ ⟨0, 0⟩ = 6371 * Real.pi := by
  have h1 : ((0:ℝ) - 180) * Real.pi / 180 / 2 = -(Real.pi / 2) := by ring
  simp only [haversine, h1]
  simp
  ring

theorem staleGraph_heur :
    heur haversine (staleGraph ℝ).node_coords 5 = fun v => if v = 3 then 6371 * Real.pi else 0 := by
  funext v
  have hg : coordOf (staleGraph ℝ).node_coords 5 = ⟨0, 0⟩ := by
    simp [coordOf, staleGraph, UMap.find]
  simp only [heur, hg]
  by_cases h3 : v = 3
  · subst h3
    simp [coordOf, staleGraph, UMap.find, haversine_antipode]
  · have h3' : ¬ (3 : Int) = v := fun h => h3 h.symm
    have hv : coordOf (staleGraph ℝ).node_coords v = ⟨0, 0⟩ := by
      simp only [coordOf, staleGraph, UMap.find, h3', if_false]
      split_ifs <;> rfl
    simp [hv, h3, haversine_self]

theorem staleGraph_consistent : Consistent haversine (staleGraph ℝ) 5 := by
  have hK : (0:ℝ) ≤ 6371 * Real.pi := by positivity
  have hK2 : (6371:ℝ) * Real.pi ≤ 30000 := by
    have := Real.pi_le_four
    linarith
  constructor
  · intro u e he
    rw [staleGraph_heur]
    obtain ⟨es, h1, h2⟩ := mem_edgesOf _ u e he
    simp [staleGraph] at h1
    rcases h1 with ⟨rfl, rfl⟩ | ⟨rfl, rfl⟩ | ⟨rfl, rfl⟩ | ⟨rfl, rfl⟩ | ⟨rfl, rfl⟩ <;>
      simp at h2 <;> rcases h2 with rfl | rfl | rfl <;> norm_num <;> linarith
  · rw [staleGraph_heur]
    simp


theorem detour_heur :
    heur haversine (detour ℝ).node_coords 3 = fun v => if v = 2 then 6371 * Real.pi else 0 := by
  funext v
  have hg : coordOf (detour ℝ).node_coords 3 = ⟨0, 0⟩ := by
    simp [coordOf, detour, UMap.find]
  simp only [heur, hg]
  by_cases h2 : v = 2
  · subst h2
    simp [coordOf, detour, UMap.find, haversine_antipode]
  · have h2' : ¬ (2 : Int) = v := fun h => h2 h.symm
    have hv : coordOf (detour ℝ).node_coords v = ⟨0, 0⟩ := by
      simp only [coordOf, detour, UMap.find, h2', if_false]
      split_ifs <;> rfl
    simp [hv, h2, haversine_self]

theorem detour_dijkstra_core :
    ∃ r, coreLoop (edgesOf (detour ℝ).adj) (fun _ => 0) 3 3 (coreInit 1) = some r ∧
      UMap.find r.dist 3 = some 2 := by
  norm_num [coreLoop, coreInit, relaxC, pqTop, pqPop, pairLt, edgesOf, detour, UMap.find,
    UMap.assign]

theorem detour_astar_core :
    ∃ r, coreLoop (edgesOf (detour ℝ).adj) (heur haversine (detour ℝ).node_coords 3) 3 3
        (coreInit 1) = some r ∧
      UMap.find r.dist 3 = some 10 := by
  rw [detour_heur]
  have hpi := Real.pi_gt_three
  have e1 : (10 : ℝ) < 1 + 6371 * Real.pi := by linarith
  norm_num [coreLoop, coreInit, relaxC, pqTop, pqPop, pairLt, edgesOf, detour, UMap.find,
    UMap.assign, e1]

theorem staleGraph_dijkstra_core :
    ∃ r, coreLoop (edgesOf (staleGraph ℝ).adj) (fun _ => 0) 5 6 (coreInit 1) = some r ∧
      r.visited = 5 := by
  norm_num [coreLoop, coreInit, relaxC, pqTop, pqPop, pairLt, edgesOf, staleGraph, UMap.find,
    UMap.assign]

set_option maxHeartbeats 4000000 in
theorem staleGraph_astar_core :
    ∃ r, coreLoop (edgesOf (staleGraph ℝ).adj) (heur haversine (staleGraph ℝ).node_coords 5) 5 6
        (coreInit 1) = some r ∧
      r.visited = 6 := by
  rw [staleGraph_heur]
  have hpi := Real.pi_gt_three
  have hpi4 := Real.pi_le_four
  have e1 : (40000 : ℝ) < 30000 + 6371 * Real.pi := by linarith
  have e2 : (30000 : ℝ) + 6371 * Real.pi < 140000 := by linarith
  have e3 : ¬ ((140000 : ℝ) < 30000 + 6371 * Real.pi) := by linarith
  norm_num [coreLoop, coreInit, relaxC, pqTop, pqPop, pairLt, edgesOf, staleGraph, UMap.find,
    UMap.assign, e1, e2, e3]

theorem adj3_dijkstra_core :
    ∃ r, coreLoop (edgesOf (adj3 ℝ)) (fun _ => 0) 3 3 (coreInit 1) = some r ∧
      r.visited = 3 ∧ UMap.find r.dist 3 = some 8 := by
  norm_num [coreLoop, coreInit, relaxC, pqTop, pqPop, pairLt, edgesOf, adj3, UMap.find,
    UMap.assign]

theorem adj3_astar_core (h : Int → ℝ) (h3 : h 3 = 0) (h2 : h 2 ≤ 3) :
    ∃ r, coreLoop (edgesOf (adj3 ℝ)) h 3 3 (coreInit 1) = some r ∧
      r.visited = 3 ∧ UMap.find r.dist 3 = some 8 := by
  have e1 : (5 : ℝ) + h 2 < 10 := by linarith
  norm_num [coreLoop, coreInit, relaxC, pqTop, pqPop, pairLt, edgesOf, adj3, UMap.find,
    UMap.assign, h3, e1]

theorem isShortestDist_unique {α : Type} [LinearOrderedCommRing α] (adj : UMap (List (Edge α)))
    (s t : Int) (x y : α) (hx : IsShortestDist adj s t x) (hy : IsShortestDist adj s t y) :
    x = y := by
  obtain ⟨⟨p, hp, _, hpw⟩, hxl⟩ := hx
  obtain ⟨⟨q, hq, _, hqw⟩, hyl⟩ := hy
  have h1 : x ≤ y := hqw ▸ hxl q hq
  have h2 : y ≤ x := hpw ▸ hyl p hp
  exact le_antisymm h1 h2

theorem wayLoop_succ {α : Type} [Zero α] (hav : Point α → Point α → α)
    (nodes : List (NodeRef α)) (k i : Nat) (g : Graph α) :
    wayLoop hav nodes (k + 1) i g =
      match nodes[i]?, nodes[i + 1]? with
      | some n1, some n2 => wayLoop hav nodes k (i + 1) (wayStep hav g n1 n2)
      | _, _ => none := by
  rw [wayLoop]

/-! ## Claims -/

/-- C1. For a graph with non-negative edge weights whose haversine heuristic never exceeds the
weight of any walk to the goal, and a goal reachable from the start, `runExperiment` returns
(for every fuel of at least `fuelBound`) a record whose `distance` is the minimum total weight
over the paths from the start to the goal. Weights and distances are real numbers. -/
theorem astar_distance_is_shortest (g : Graph ℝ) (start goal : Int)
    (hnn : NonnegWeights g.adj)
    (hadm : ∀ v p, IsWalk (edgesOf g.adj) v p goal →
      haversine (coordOf g.node_coords v) (coordOf g.node_coords goal) ≤ weightOf p)
    (hreach : Reachable g.adj start goal) (n : Nat) (hn : fuelBound g.adj start ≤ n) :
    ∃ r g', runExperiment haversine g start goal n = some (r, g') ∧
      IsShortestDist g.adj start goal r.distance := by
  obtain ⟨d, a, _, _, hrun, _, _, _, hpa⟩ :=
    runExperiment_terminates haversine g start goal hnn n hn
  obtain ⟨dd, hdd, hsh⟩ := searchPost_shortest g.adj _ start goal a.dist hpa hadm
    (by simp [heur, haversine_self]) hreach
  refine ⟨_, _, hrun, ?_⟩
  simpa [hdd] using hsh

/-- C1 at a concrete input: nodes `1` and `2` of `twoIslands` over the reals. -/
theorem astar_distance_is_shortest_witness :
    NonnegWeights (twoIslands ℝ).adj ∧ Reachable (twoIslands ℝ).adj 1 2 ∧
      ∃ r g', runExperiment haversine (twoIslands ℝ) 1 2 (fuelBound (twoIslands ℝ).adj 1)
          = some (r, g') ∧
        IsShortestDist (twoIslands ℝ).adj 1 2 r.distance :=
  ⟨twoIslands_nonneg ℝ, twoIslands_reach ℝ,
    astar_distance_is_shortest (twoIslands ℝ) 1 2 (twoIslands_nonneg ℝ)
      (by
        intro v p hp
        rw [twoIslands_coord, twoIslands_coord, haversine_self]
        exact weightOf_nonneg (twoIslands_nonneg ℝ) hp)
      (twoIslands_reach ℝ) _ (le_refl _)⟩

/-- C2 (as amended). For a graph with non-negative edge weights whose haversine heuristic never
exceeds the weight of any walk to the goal, and a goal reachable from the start, the distance
Dijkstra's loop ends with (`dist_d[goal]`) and the distance the A* loop ends with (`dist_a[goal]`,
the value `runExperiment` returns) are equal. Weights and distances are real numbers. -/
theorem dijkstra_astar_agree (g : Graph ℝ) (start goal : Int)
    (hnn : NonnegWeights g.adj)
    (hadm : ∀ v p, IsWalk (edgesOf g.adj) v p goal →
      haversine (coordOf g.node_coords v) (coordOf g.node_coords goal) ≤ weightOf p)
    (hreach : Reachable g.adj start goal) (n : Nat) (hn : fuelBound g.adj start ≤ n) :
    ∃ d a r g', dijkstraLoop goal n (dijkstraInit g start) = some d ∧
      astarLoop haversine goal n (astarInit d.adj g.node_coords start) = some a ∧
      runExperiment haversine g start goal n = some (r, g') ∧
      ∃ x, UMap.find d.dist goal = some x ∧ UMap.find a.dist goal = some x ∧
        r.distance = x := by
  obtain ⟨d, a, hd, ha, hrun, _, _, hpd, hpa⟩ :=
    runExperiment_terminates haversine g start goal hnn n hn
  obtain ⟨x, hx, hxs⟩ := searchPost_shortest g.adj _ start goal d.dist hpd
    (fun v p hp => weightOf_nonneg hnn hp) (le_refl _) hreach
  obtain ⟨y, hy, hys⟩ := searchPost_shortest g.adj _ start goal a.dist hpa hadm
    (by simp [heur, haversine_self]) hreach
  have hxy : x = y := isShortestDist_unique g.adj start goal x y hxs hys
  refine ⟨d, a, _, _, hd, ha, hrun, x, hx, hxy ▸ hy, ?_⟩
  simp [hy, hxy]

/-- C2 (as amended) at a concrete input: nodes `1` and `2` of `twoIslands` over the reals. -/
theorem dijkstra_astar_agree_witness :
    NonnegWeights (twoIslands ℝ).adj ∧ Reachable (twoIslands ℝ).adj 1 2 ∧
      ∃ d a r g', dijkstraLoop 2 (fuelBound (twoIslands ℝ).adj 1) (dijkstraInit (twoIslands ℝ) 1)
          = some d ∧
        astarLoop haversine 2 (fuelBound (twoIslands ℝ).adj 1)
          (astarInit d.adj (twoIslands ℝ).node_coords 1) = some a ∧
        runExperiment haversine (twoIslands ℝ) 1 2 (fuelBound (twoIslands ℝ).adj 1)
          = some (r, g') ∧
        ∃ x, UMap.find d.dist 2 = some x ∧ UMap.find a.dist 2 = some x ∧ r.distance = x :=
  ⟨twoIslands_nonneg ℝ, twoIslands_reach ℝ,
    dijkstra_astar_agree (twoIslands ℝ) 1 2 (twoIslands_nonneg ℝ)
      (by
        intro v p hp
        rw [twoIslands_coord, twoIslands_coord, haversine_self]
        exact weightOf_nonneg (twoIslands_nonneg ℝ) hp)
      (twoIslands_reach ℝ) _ (le_refl _)⟩

/-- C2, counterexample to the claim as stated: the graph `detour` has non-negative weights, a
coordinate for each of its nodes and node `3` reachable from node `1`, yet Dijkstra's loop ends
with `dist_d[3] = 2` while the A* loop ends with `dist_a[3] = 10`, the distance returned. -/
theorem dijkstra_astar_disagree :
    NonnegWeights (detour ℝ).adj ∧ Reachable (detour ℝ).adj 1 3 ∧
      (∀ v ∈ allNodes (detour ℝ).adj 1, (UMap.find (detour ℝ).node_coords v).isSome = true) ∧
      ∃ d a r g', dijkstraLoop 3 3 (dijkstraInit (detour ℝ) 1) = some d ∧
        astarLoop haversine 3 3 (astarInit d.adj (detour ℝ).node_coords 1) = some a ∧
        runExperiment haversine (detour ℝ) 1 3 3 = some (r, g') ∧
        UMap.find d.dist 3 = some 2 ∧ UMap.find a.dist 3 = some 10 ∧ r.distance = 10 := by
  refine ⟨detour_nonneg, ⟨[⟨3, 10⟩], by simp [IsWalk, edgesOf, detour, UMap.find]⟩, ?_, ?_⟩
  · simp [allNodes, allEdges, detour, UMap.find]
  · obtain ⟨rd, hrd, hrd2⟩ := detour_dijkstra_core
    obtain ⟨ra, hra, hra2⟩ := detour_astar_core
    obtain ⟨d, a, hd, ha, hdr, har, _, _, hrun⟩ :=
      runExperiment_of_core haversine (detour ℝ) 1 3 3 rd ra hrd hra
    have e3 : a.dist = ra.dist := by rw [← har]; rfl
    have e4 : d.dist = rd.dist := by rw [← hdr]; rfl
    refine ⟨d, a, _, _, hd, ha, hrun, by rw [e4]; exact hrd2, by rw [e3]; exact hra2, ?_⟩
    simp [hra2]

/-- C3, counterexample to the claim as stated: on the graph `staleGraph` the edge weights are
non-negative and the haversine heuristic is consistent for the goal `5`, yet
`runExperiment(1, 5)` returns `astar_visited = 6` and `dijkstra_visited = 5`: the A* loop pops
node `4` twice, once through a stale queue entry. -/
theorem astar_pops_more_than_dijkstra :
    NonnegWeights (staleGraph ℝ).adj ∧ Consistent haversine (staleGraph ℝ) 5 ∧
      ∃ r g', runExperiment haversine (staleGraph ℝ) 1 5 6 = some (r, g') ∧
        r.dijkstra_visited = 5 ∧ r.astar_visited = 6 ∧ ¬ r.astar_visited ≤ r.dijkstra_visited := by
  refine ⟨staleGraph_nonneg, staleGraph_consistent, ?_⟩
  obtain ⟨rd, hrd, hrd2⟩ := staleGraph_dijkstra_core
  obtain ⟨ra, hra, hra2⟩ := staleGraph_astar_core
  obtain ⟨d, a, _, _, _, _, _, _, hrun⟩ :=
    runExperiment_of_core haversine (staleGraph ℝ) 1 5 6 rd ra hrd hra
  refine ⟨_, _, hrun, hrd2, hra2, ?_⟩
  simp [hrd2, hra2]

/-- C4. For a graph with non-negative edge weights and a goal reachable from the start,
Dijkstra's loop terminates (for every fuel of at least `fuelBound`) and `dist_d[goal]` is then
the minimum total weight over the paths from the start to the goal. -/
theorem dijkstra_distance_is_shortest {α : Type} [LinearOrderedCommRing α] (g : Graph α)
    (start goal : Int) (hnn : NonnegWeights g.adj) (hreach : Reachable g.adj start goal)
    (n : Nat) (hn : fuelBound g.adj start ≤ n) :
    ∃ d dd, dijkstraLoop goal n (dijkstraInit g start) = some d ∧
      UMap.find d.dist goal = some dd ∧ IsShortestDist g.adj start goal dd := by
  obtain ⟨d, a, hd, _, _, _, _, hpd, _⟩ :=
    runExperiment_terminates (fun _ _ => 0) g start goal hnn n hn
  obtain ⟨dd, hdd, hsh⟩ := searchPost_shortest g.adj _ start goal d.dist hpd
    (fun v p hp => weightOf_nonneg hnn hp) (le_refl _) hreach
  exact ⟨d, dd, hd, hdd, hsh⟩

/-- C4 at a concrete input: nodes `1` and `2` of `twoIslands` over the integers. -/
theorem dijkstra_distance_is_shortest_witness :
    NonnegWeights (twoIslands ℤ).adj ∧ Reachable (twoIslands ℤ).adj 1 2 ∧
      ∃ d dd, dijkstraLoop 2 (fuelBound (twoIslands ℤ).adj 1) (dijkstraInit (twoIslands ℤ) 1)
          = some d ∧
        UMap.find d.dist 2 = some dd ∧ IsShortestDist (twoIslands ℤ).adj 1 2 dd :=
  ⟨twoIslands_nonneg ℤ, twoIslands_reach ℤ,
    dijkstra_distance_is_shortest (twoIslands ℤ) 1 2 (twoIslands_nonneg ℤ) (twoIslands_reach ℤ)
      _ (le_refl _)⟩

/-- C5 (as amended). For a graph with non-negative edge weights and a goal that is not reachable
from the start, `runExperiment` terminates, the distance map of A* has no entry for the goal, and
the returned distance is the zero that `dist_a[goal]` inserts for the missing key; there is no
separate outcome for an unreachable goal. The acceptance test of the harness rejects the record. -/
theorem unreachable_goal_returns_zero {α : Type} [LinearOrderedCommRing α]
    (hav : Point α → Point α → α) (g : Graph α) (start goal : Int)
    (hnn : NonnegWeights g.adj) (hun : ¬ Reachable g.adj start goal)
    (n : Nat) (hn : fuelBound g.adj start ≤ n) :
    ∃ d a, dijkstraLoop goal n (dijkstraInit g start) = some d ∧
      astarLoop hav goal n (astarInit d.adj g.node_coords start) = some a ∧
      UMap.find a.dist goal = none ∧
      runExperiment hav g start goal n
        = some (⟨0, d.visited, a.visited⟩, ⟨a.adj, a.node_coords⟩) ∧
      accept (⟨0, d.visited, a.visited⟩ : TrialResult α) = false :=
  runExperiment_unreachable hav g start goal hnn hun n hn

/-- C5 (as amended) at a concrete input: nodes `1` and `3` of `twoIslands` lie in different
components. -/
theorem unreachable_goal_returns_zero_witness :
    NonnegWeights (twoIslands ℤ).adj ∧ ¬ Reachable (twoIslands ℤ).adj 1 3 ∧
      ∃ d a, dijkstraLoop 3 (fuelBound (twoIslands ℤ).adj 1) (dijkstraInit (twoIslands ℤ) 1)
          = some d ∧
        astarLoop (fun _ _ => 0) 3 (fuelBound (twoIslands ℤ).adj 1)
          (astarInit d.adj (twoIslands ℤ).node_coords 1) = some a ∧
        UMap.find a.dist 3 = none ∧
        runExperiment (fun _ _ => 0) (twoIslands ℤ) 1 3 (fuelBound (twoIslands ℤ).adj 1)
          = some (⟨0, d.visited, a.visited⟩, ⟨a.adj, a.node_coords⟩) ∧
        accept (⟨0, d.visited, a.visited⟩ : TrialResult ℤ) = false :=
  ⟨twoIslands_nonneg ℤ, twoIslands_unreach ℤ,
    unreachable_goal_returns_zero (fun _ _ => 0) (twoIslands ℤ) 1 3 (twoIslands_nonneg ℤ)
      (twoIslands_unreach ℤ) _ (le_refl _)⟩

/-- C5, counterexample to the claim as stated: on the graph `twoIslands` over the reals, node `3`
is not reachable from node `1`, and `runExperiment(1, 3)` returns the distance zero read from the
missing entry of `dist_a`. -/
theorem unreachable_goal_silent_zero :
    ¬ Reachable (twoIslands ℝ).adj 1 3 ∧
      ∃ d a r g', dijkstraLoop 3 (fuelBound (twoIslands ℝ).adj 1) (dijkstraInit (twoIslands ℝ) 1)
          = some d ∧
        astarLoop haversine 3 (fuelBound (twoIslands ℝ).adj 1)
          (astarInit d.adj (twoIslands ℝ).node_coords 1) = some a ∧
        runExperiment haversine (twoIslands ℝ) 1 3 (fuelBound (twoIslands ℝ).adj 1)
          = some (r, g') ∧
        UMap.find a.dist 3 = none ∧ r.distance = 0 := by
  refine ⟨twoIslands_unreach ℝ, ?_⟩
  obtain ⟨d, a, hd, ha, hnone, hrun, _⟩ :=
    runExperiment_unreachable haversine (twoIslands ℝ) 1 3 (twoIslands_nonneg ℝ)
      (twoIslands_unreach ℝ) _ (le_refl _)
  exact ⟨d, a, _, _, hd, ha, hrun, hnone, rfl⟩

/-- C6. For every graph and node `s`, `runExperiment(s, s)` returns distance 0 with one pop by
either loop (for every positive fuel), leaves the global maps as they are, and the record fails
the acceptance test `distance > 0 && dijkstra_visited > 1` of the harness. -/
theorem runExperiment_same_node {α : Type} [LinearOrderedCommRing α]
    (hav : Point α → Point α → α) (g : Graph α) (s : Int) (n : Nat) :
    runExperiment hav g s s (n + 1) = some (⟨0, 1, 1⟩, g) ∧
      accept (⟨0, 1, 1⟩ : TrialResult α) = false := by
  constructor
  · simp [runExperiment, dijkstraLoop, astarLoop, dijkstraInit, astarInit, pqTop,
      UMap.index, UMap.assign, UMap.find]
  · simp [accept]

/-- C7. On the graph with nodes `A = 1`, `B = 2`, `C = 3` and undirected edges `A-B` of weight 5,
`B-C` of weight 3, `A-C` of weight 10, for every coordinate map whose haversine heuristic never
exceeds the weight of any walk to `C`, `runExperiment(A, C)` returns (for every fuel of at least
3) distance 8, `dijkstra_visited = 3` and `astar_visited` at most 3. -/
theorem three_node_scenario (nc : UMap (Point ℝ))
    (hadm : ∀ v p, IsWalk (edgesOf (adj3 ℝ)) v p 3 →
      haversine (coordOf nc v) (coordOf nc 3) ≤ weightOf p)
    (n : Nat) (hn : 3 ≤ n) :
    ∃ r g', runExperiment haversine ⟨adj3 ℝ, nc⟩ 1 3 n = some (r, g') ∧
      r.distance = 8 ∧ r.dijkstra_visited = 3 ∧ r.astar_visited ≤ 3 := by
  have h3 : heur haversine nc 3 3 = 0 := by simp [heur, haversine_self]
  have h2 : heur haversine nc 3 2 ≤ 3 := by
    have := hadm 2 [⟨3, 3⟩] (by simp [IsWalk, edgesOf, adj3, UMap.find])
    simpa [heur, weightOf] using this
  obtain ⟨rd, hrd, hrd1, _⟩ := adj3_dijkstra_core
  obtain ⟨ra, hra, hra1, hra2⟩ := adj3_astar_core (heur haversine nc 3) h3 h2
  obtain ⟨d, a, _, _, _, _, _, _, hrun⟩ :=
    runExperiment_of_core haversine ⟨adj3 ℝ, nc⟩ 1 3 n rd ra
      (coreLoop_mono_le _ _ 3 3 n hn _ _ hrd) (coreLoop_mono_le _ _ 3 3 n hn _ _ hra)
  refine ⟨_, _, hrun, ?_, hrd1, le_of_eq hra1⟩
  simp [hra2]

/-- C7 at a concrete input: all three nodes at the point `(26, 80)`, fuel 3. -/
theorem three_node_scenario_witness :
    ∃ r g', runExperiment haversine ⟨adj3 ℝ, lucknowCoords⟩ 1 3 3 = some (r, g') ∧
      r.distance = 8 ∧ r.dijkstra_visited = 3 ∧ r.astar_visited ≤ 3 :=
  three_node_scenario lucknowCoords
    (by
      intro v p hp
      have h3 : haversine (coordOf lucknowCoords v) (coordOf lucknowCoords 3) = 0 := by
        rcases adj3_walk_source v p hp with h | h | h <;>
          simp [h, lucknowCoords_one, lucknowCoords_two, lucknowCoords_three, haversine_self]
      rw [h3]
      exact weightOf_nonneg adj3_nonneg hp)
    3 (le_refl _)

/-- C8. For a graph with non-negative edge weights and a goal that is not reachable from the
start, the record `runExperiment` returns fails the acceptance test of the harness, and a harness
iteration that draws this pair appends no record and keeps the trial index. -/
theorem unreachable_pair_rejected {α : Type} [LinearOrderedCommRing α]
    (hav : Point α → Point α → α) (g : Graph α) (start goal : Int)
    (hnn : NonnegWeights g.adj) (hun : ¬ Reachable g.adj start goal)
    (n : Nat) (hn : fuelBound g.adj start ≤ n) :
    ∃ r g', runExperiment hav g start goal n = some (r, g') ∧ accept r = false ∧
      ∀ (rng : Nat → Nat) (ids : List Int) (m i k : Nat) (records : List (Nat × TrialResult α)),
        i < 1000 → ids[rng k % ids.length]? = some start →
        ids[rng (k + 1) % ids.length]? = some goal →
        harnessLoop hav rng ids n (m + 1) i k g records
          = harnessLoop hav rng ids n m i (k + 2) g' records := by
  obtain ⟨d, a, _, _, _, hrun, hrej⟩ := runExperiment_unreachable hav g start goal hnn hun n hn
  refine ⟨_, _, hrun, hrej, ?_⟩
  intro rng ids m i k records hi hs hg
  exact harnessLoop_reject hav rng ids n m i k g _ records start goal _ hi hs hg hrun hrej

/-- C8 at a concrete input: nodes `2` and `4` of `twoIslands` lie in different components. -/
theorem unreachable_pair_rejected_witness :
    NonnegWeights (twoIslands ℤ).adj ∧ ¬ Reachable (twoIslands ℤ).adj 2 4 ∧
      ∃ r g', runExperiment (fun _ _ => 0) (twoIslands ℤ) 2 4 (fuelBound (twoIslands ℤ).adj 2)
          = some (r, g') ∧ accept r = false ∧
        ∀ (rng : Nat → Nat) (ids : List Int) (m i k : Nat)
          (records : List (Nat × TrialResult ℤ)),
          i < 1000 → ids[rng k % ids.length]? = some 2 →
          ids[rng (k + 1) % ids.length]? = some 4 →
          harnessLoop (fun _ _ => 0) rng ids (fuelBound (twoIslands ℤ).adj 2) (m + 1) i k
              (twoIslands ℤ) records
            = harnessLoop (fun _ _ => 0) rng ids (fuelBound (twoIslands ℤ).adj 2) m i (k + 2)
              g' records :=
  have hun : ¬ Reachable (twoIslands ℤ).adj 2 4 := by
    rintro ⟨p, hp⟩
    rcases twoIslands_walk_from_one ℤ p 2 4 (Or.inr rfl) hp with h | h <;> omega
  ⟨twoIslands_nonneg ℤ, hun,
    unreachable_pair_rejected (fun _ _ => 0) (twoIslands ℤ) 2 4 (twoIslands_nonneg ℤ) hun
      _ (le_refl _)⟩

/-- C9, the code at the failing input: for a way with a highway tag and no node the loop bound
`nodes.size() - 1` wraps around to `2^64 - 1` and the first iteration reads `nodes[0]` past the
end of the node list; a way with exactly one node, and any way without the tag, leave both maps
as they are. -/
theorem way_fewer_than_two_nodes {α : Type} [Zero α] (hav : Point α → Point α → α)
    (g : Graph α) :
    wayBound 0 = 2 ^ 64 - 1 ∧
      way hav true ([] : List (NodeRef α)) g = none ∧
      (∀ x : NodeRef α, way hav true [x] g = some g) ∧
      (∀ nodes : List (NodeRef α), way hav false nodes g = some g) := by
  have hb : wayBound 0 = 18446744073709551614 + 1 := by norm_num [wayBound]
  have h1 : wayBound 1 = 0 := by norm_num [wayBound]
  refine ⟨by norm_num [wayBound], ?_, ?_, ?_⟩
  · show (if true = true then wayLoop hav [] (wayBound 0) 0 g else some g) = none
    rw [if_pos rfl, hb, wayLoop_succ]
    rfl
  · intro x
    show (if true = true then wayLoop hav [x] (wayBound 1) 0 g else some g) = some g
    rw [if_pos rfl, h1]
    rfl
  · intro nodes
    simp [way]

/-- C10, the code at the failing input: when the adjacency map is empty the harness performs no
check; its first iteration evaluates `rng() % all_node_ids.size()` with a size of zero, which is
undefined behaviour, for every generator and whatever the coordinate map holds. -/
theorem harness_empty_graph_divides_by_zero {α : Type} [LinearOrderedCommRing α]
    (hav : Point α → Point α → α) (rng : Nat → Nat) (nc : UMap (Point α)) (fuelR fuel : Nat) :
    allNodeIds (⟨[], nc⟩ : Graph α) = [] ∧
      harness hav rng ⟨[], nc⟩ fuelR (fuel + 1) = Outcome.undefinedBehaviour := by
  constructor
  · rfl
  · simp [harness, harnessLoop, allNodeIds]

/-! ## The graph builder -/

theorem UMap.find_index_ne {V : Type} (d : V) (m : UMap V) {k k' : Int} (hne : k ≠ k') :
    UMap.find (UMap.index d m k).2 k' = UMap.find m k' := by
  unfold UMap.index
  cases hf : UMap.find m k with
  | some v => rfl
  | none => simp [UMap.find, hne]

theorem find_pushBack {α : Type} (adj : UMap (List (Edge α))) (u k : Int) (e : Edge α) :
    UMap.find (pushBack adj u e) k
      = if u = k then some (edgesOf adj u ++ [e]) else UMap.find adj k := by
  unfold pushBack
  rw [UMap.find_assign, index_adj_fst]
  by_cases huk : u = k
  · simp [huk]
  · simp only [huk, if_false]
    exact UMap.find_index_ne [] adj huk

theorem edgesOf_pushBack {α : Type} (adj : UMap (List (Edge α))) (u k : Int) (e : Edge α) :
    edgesOf (pushBack adj u e) k = if u = k then edgesOf adj u ++ [e] else edgesOf adj k := by
  unfold edgesOf
  rw [find_pushBack]
  by_cases huk : u = k
  · simp [huk, edgesOf]
  · simp [huk]

/-- The coordinate map after one segment: both coordinates are assigned, nothing is inserted by
the two reads. -/
theorem wayStep_node_coords {α : Type} [Zero α] (hav : Point α → Point α → α) (g : Graph α)
    (n1 n2 : NodeRef α) :
    (wayStep hav g n1 n2).node_coords
      = UMap.assign (UMap.assign g.node_coords n1.ref ⟨n1.lat, n1.lon⟩) n2.ref
          ⟨n2.lat, n2.lon⟩ := by
  have h2 : UMap.find (UMap.assign (UMap.assign g.node_coords n1.ref ⟨n1.lat, n1.lon⟩) n2.ref
      (⟨n2.lat, n2.lon⟩ : Point α)) n2.ref = some ⟨n2.lat, n2.lon⟩ := UMap.find_assign_self _ _ _
  have h1 : ∃ p, UMap.find (UMap.assign (UMap.assign g.node_coords n1.ref ⟨n1.lat, n1.lon⟩)
      n2.ref (⟨n2.lat, n2.lon⟩ : Point α)) n1.ref = some p := by
    rw [UMap.find_assign]
    by_cases h : n2.ref = n1.ref
    · exact ⟨⟨n2.lat, n2.lon⟩, by simp [h]⟩
    · exact ⟨⟨n1.lat, n1.lon⟩, by simp only [h, if_false]; exact UMap.find_assign_self _ _ _⟩
  obtain ⟨p, hp⟩ := h1
  simp only [wayStep, UMap.index_of_find Point.zero _ _ hp, UMap.index_of_find Point.zero _ _ h2]

/-- The adjacency map after one segment: the two directed edges are appended, both carrying the
distance between the coordinates just recorded for the two ends. -/
theorem wayStep_adj {α : Type} [Zero α] (hav : Point α → Point α → α) (g : Graph α)
    (n1 n2 : NodeRef α) :
    (wayStep hav g n1 n2).adj
      = pushBack (pushBack g.adj n1.ref
          ⟨n2.ref, hav (coordOf (wayStep hav g n1 n2).node_coords n1.ref)
            (coordOf (wayStep hav g n1 n2).node_coords n2.ref)⟩) n2.ref
          ⟨n1.ref, hav (coordOf (wayStep hav g n1 n2).node_coords n1.ref)
            (coordOf (wayStep hav g n1 n2).node_coords n2.ref)⟩ := by
  rw [wayStep_node_coords]
  simp only [wayStep, index_coord_fst, coordOf_index]

theorem wayStep_coord_snd {α : Type} [Zero α] (hav : Point α → Point α → α) (g : Graph α)
    (n1 n2 : NodeRef α) :
    coordOf (wayStep hav g n1 n2).node_coords n2.ref = ⟨n2.lat, n2.lon⟩ := by
  rw [wayStep_node_coords]
  simp [coordOf, UMap.find_assign_self]

theorem wayStep_coord_fst {α : Type} [Zero α] (hav : Point α → Point α → α) (g : Graph α)
    (n1 n2 : NodeRef α) :
    coordOf (wayStep hav g n1 n2).node_coords n1.ref
      = if n2.ref = n1.ref then ⟨n2.lat, n2.lon⟩ else ⟨n1.lat, n1.lon⟩ := by
  rw [wayStep_node_coords]
  by_cases h : n2.ref = n1.ref
  · simp [coordOf, UMap.find_assign, h]
  · simp [coordOf, UMap.find_assign, h]

/-- A property kept by every segment is kept by the loop of `way`; `Q` is a property of the
nodes of the way. -/
theorem wayLoop_induct {α : Type} [Zero α] (hav : Point α → Point α → α)
    (P : Graph α → Prop) (Q : NodeRef α → Prop) (nodes : List (NodeRef α))
    (hQ : ∀ nd ∈ nodes, Q nd)
    (hstep : ∀ g n1 n2, Q n1 → Q n2 → P g → P (wayStep hav g n1 n2))
    (k i : Nat) (g g' : Graph α) (hg : P g) (hrun : wayLoop hav nodes k i g = some g') :
    P g' := by
  induction k generalizing i g with
  | zero =>
    simp only [wayLoop, Option.some.injEq] at hrun
    exact hrun ▸ hg
  | succ k ih =>
    rw [wayLoop] at hrun
    cases h1 : nodes[i]? with
    | none => simp [h1] at hrun
    | some n1 =>
      cases h2 : nodes[i + 1]? with
      | none => simp [h1, h2] at hrun
      | some n2 =>
        simp only [h1, h2] at hrun
        have hm1 : n1 ∈ nodes := List.getElem?_mem h1
        have hm2 : n2 ∈ nodes := List.getElem?_mem h2
        exact ih (i + 1) _ (hstep g n1 n2 (hQ n1 hm1) (hQ n2 hm2) hg) hrun

/-- A property kept by every segment is kept by every sequence of `way` calls. -/
theorem buildFrom_induct {α : Type} [Zero α] (hav : Point α → Point α → α)
    (P : Graph α → Prop) (Q : NodeRef α → Prop)
    (hstep : ∀ g n1 n2, Q n1 → Q n2 → P g → P (wayStep hav g n1 n2))
    (ws : List (Bool × List (NodeRef α))) (hQ : ∀ w ∈ ws, ∀ nd ∈ w.2, Q nd)
    (g g' : Graph α) (hg : P g) (hrun : buildFrom hav ws g = some g') : P g' := by
  induction ws generalizing g with
  | nil =>
    simp only [buildFrom, Option.some.injEq] at hrun
    exact hrun ▸ hg
  | cons w ws ih =>
    rw [buildFrom] at hrun
    cases hw : way hav w.1 w.2 g with
    | none => simp [hw] at hrun
    | some g1 =>
      simp only [hw] at hrun
      have hg1 : P g1 := by
        unfold way at hw
        by_cases hh : w.1 = true
        · rw [if_pos hh] at hw
          exact wayLoop_induct hav P Q w.2 (hQ w (List.mem_cons_self w ws)) hstep _ _ g g1 hg hw
        · rw [if_neg hh] at hw
          simp only [Option.some.injEq] at hw
          exact hw ▸ hg
      exact ih (fun w' hw' => hQ w' (List.mem_cons_of_mem w hw')) g1 hg1 hrun

/-! ## Symmetry of the adjacency map -/

theorem countEdges_append_singleton {α : Type} [DecidableEq α] (es : List (Edge α))
    (e : Edge α) (v : Int) (w : α) :
    countEdges (es ++ [e]) v w
      = countEdges es v w + (if e.to_ = v ∧ e.weight = w then 1 else 0) := by
  unfold countEdges
  rw [List.countP_append, List.countP_cons, List.countP_nil]
  by_cases h : e.to_ = v ∧ e.weight = w
  · simp [h]
  · simp [h]

/-- The edge counts after the two `push_back` calls of one segment. -/
theorem countEdges_two_pushes {α : Type} [DecidableEq α] (adj : UMap (List (Edge α)))
    (u v : Int) (d : α) (x y : Int) (w : α) :
    countEdges (edgesOf (pushBack (pushBack adj u ⟨v, d⟩) v ⟨u, d⟩) x) y w
      = countEdges (edgesOf adj x) y w
        + (if u = x ∧ v = y ∧ d = w then 1 else 0)
        + (if v = x ∧ u = y ∧ d = w then 1 else 0) := by
  rw [edgesOf_pushBack]
  by_cases hvx : v = x
  · subst hvx
    rw [if_pos rfl, countEdges_append_singleton, edgesOf_pushBack]
    by_cases huv : u = v
    · subst huv
      rw [if_pos rfl, countEdges_append_singleton]
      simp
    · rw [if_neg huv]
      simp [huv]
  · rw [if_neg hvx, edgesOf_pushBack]
    by_cases hux : u = x
    · subst hux
      rw [if_pos rfl, countEdges_append_singleton]
      simp [hvx]
    · rw [if_neg hux]
      simp [hux, hvx]

theorem symmetricAdj_two_pushes {α : Type} [DecidableEq α] (adj : UMap (List (Edge α)))
    (u v : Int) (d : α) (hs : SymmetricAdj adj) :
    SymmetricAdj (pushBack (pushBack adj u ⟨v, d⟩) v ⟨u, d⟩) := by
  intro x y w
  rw [countEdges_two_pushes, countEdges_two_pushes, hs x y w]
  have e1 : (if u = x ∧ v = y ∧ d = w then 1 else 0) = (if v = y ∧ u = x ∧ d = w then 1 else 0) := by
    by_cases h : u = x ∧ v = y ∧ d = w
    · rw [if_pos h, if_pos ⟨h.2.1, h.1, h.2.2⟩]
    · rw [if_neg h, if_neg (fun h' => h ⟨h'.2.1, h'.1, h'.2.2⟩)]
  have e2 : (if v = x ∧ u = y ∧ d = w then 1 else 0) = (if u = y ∧ v = x ∧ d = w then 1 else 0) := by
    by_cases h : v = x ∧ u = y ∧ d = w
    · rw [if_pos h, if_pos ⟨h.2.1, h.1, h.2.2⟩]
    · rw [if_neg h, if_neg (fun h' => h ⟨h'.2.1, h'.1, h'.2.2⟩)]
  rw [e1, e2]
  omega

theorem symmetricAdj_empty {α : Type} [DecidableEq α] :
    SymmetricAdj (emptyGraph : Graph α).adj := by
  intro u v w
  rfl

theorem symmetricAdj_wayStep {α : Type} [DecidableEq α] [Zero α]
    (hav : Point α → Point α → α) (g : Graph α) (n1 n2 : NodeRef α)
    (hs : SymmetricAdj g.adj) : SymmetricAdj (wayStep hav g n1 n2).adj := by
  rw [wayStep_adj]
  exact symmetricAdj_two_pushes g.adj n1.ref n2.ref _ hs

/-! ## Keys, edge targets and coordinates -/

theorem mem_edgesOf_pushBack {α : Type} (adj : UMap (List (Edge α))) (u k : Int)
    (e e' : Edge α) (hm : e' ∈ edgesOf (pushBack adj u e) k) :
    e' ∈ edgesOf adj k ∨ (u = k ∧ e' = e) := by
  rw [edgesOf_pushBack] at hm
  by_cases huk : u = k
  · rw [if_pos huk] at hm
    rcases List.mem_append.1 hm with h | h
    · exact Or.inl (huk ▸ h)
    · exact Or.inr ⟨huk, List.mem_singleton.1 h⟩
  · rw [if_neg huk] at hm
    exact Or.inl hm

theorem isSome_find_pushBack {α : Type} (adj : UMap (List (Edge α))) (u k : Int) (e : Edge α)
    (hk : (UMap.find adj k).isSome = true ∨ u = k) :
    (UMap.find (pushBack adj u e) k).isSome = true := by
  rw [find_pushBack]
  by_cases huk : u = k
  · simp [huk]
  · rw [if_neg huk]
    rcases hk with hk | hk
    · exact hk
    · exact absurd hk huk

theorem covered_empty {α : Type} : Covered (emptyGraph : Graph α) := by
  constructor
  · intro k es hk
    simp [emptyGraph, UMap.find] at hk
  · intro k e he
    simp [emptyGraph, edgesOf, UMap.find] at he

theorem covered_wayStep {α : Type} [Zero α] (hav : Point α → Point α → α) (g : Graph α)
    (n1 n2 : NodeRef α) (hc : Covered g) : Covered (wayStep hav g n1 n2) := by
  obtain ⟨hc1, hc2⟩ := hc
  have hnc : ∀ k, ((UMap.find g.node_coords k).isSome = true ∨ k = n1.ref ∨ k = n2.ref) →
      (UMap.find (wayStep hav g n1 n2).node_coords k).isSome = true := by
    intro k hk
    rw [wayStep_node_coords, UMap.find_assign, UMap.find_assign]
    by_cases h2 : n2.ref = k
    · simp [h2]
    · by_cases h1 : n1.ref = k
      · simp [h1, h2]
      · simp only [h1, h2, if_false]
        rcases hk with hk | hk | hk
        · exact hk
        · exact absurd hk.symm h1
        · exact absurd hk.symm h2
  have hkey : ∀ k, ((UMap.find g.adj k).isSome = true ∨ k = n1.ref ∨ k = n2.ref) →
      (UMap.find (wayStep hav g n1 n2).adj k).isSome = true := by
    intro k hk
    rw [wayStep_adj]
    refine isSome_find_pushBack _ _ _ _ ?_
    rcases hk with hk | hk | hk
    · exact Or.inl (isSome_find_pushBack _ _ _ _ (Or.inl hk))
    · exact Or.inl (isSome_find_pushBack _ _ _ _ (Or.inr hk.symm))
    · exact Or.inr hk.symm
  constructor
  · intro k es hk
    rw [wayStep_adj, find_pushBack] at hk
    by_cases h2 : n2.ref = k
    · rw [if_pos h2] at hk
      simp only [Option.some.injEq] at hk
      refine ⟨?_, hnc k (Or.inr (Or.inr h2.symm))⟩
      rw [← hk]
      simp
    · rw [if_neg h2, find_pushBack] at hk
      by_cases h1 : n1.ref = k
      · rw [if_pos h1] at hk
        simp only [Option.some.injEq] at hk
        refine ⟨?_, hnc k (Or.inr (Or.inl h1.symm))⟩
        rw [← hk]
        simp
      · rw [if_neg h1] at hk
        obtain ⟨h3, h4⟩ := hc1 k es hk
        exact ⟨h3, hnc k (Or.inl h4)⟩
  · intro k e he
    rw [wayStep_adj] at he
    rcases mem_edgesOf_pushBack _ _ _ _ _ he with he1 | ⟨_, he1⟩
    · rcases mem_edgesOf_pushBack _ _ _ _ _ he1 with he2 | ⟨_, he2⟩
      · exact hkey _ (Or.inl (hc2 k e he2))
      · rw [he2]
        exact hkey _ (Or.inr (Or.inr rfl))
    · rw [he1]
      exact hkey _ (Or.inr (Or.inl rfl))

/-- What `Covered` says about the nodes of the graph: keys and edge targets have coordinates, and
edge targets are keys with a non-empty edge list. -/
theorem covered_spec {α : Type} (g : Graph α) (hc : Covered g) :
    (∀ k, (UMap.find g.adj k).isSome = true → (UMap.find g.node_coords k).isSome = true) ∧
    (∀ k, ∀ e ∈ edgesOf g.adj k, (UMap.find g.node_coords e.to_).isSome = true) ∧
    (∀ k, ∀ e ∈ edgesOf g.adj k, ∃ es, UMap.find g.adj e.to_ = some es ∧ es ≠ []) := by
  obtain ⟨hc1, hc2⟩ := hc
  have hkey : ∀ k, (UMap.find g.adj k).isSome = true →
      ∃ es, UMap.find g.adj k = some es ∧ es ≠ [] ∧ (UMap.find g.node_coords k).isSome = true := by
    intro k hk
    obtain ⟨es, hes⟩ := Option.isSome_iff_exists.1 hk
    exact ⟨es, hes, hc1 k es hes⟩
  refine ⟨?_, ?_, ?_⟩
  · intro k hk
    obtain ⟨_, _, _, h⟩ := hkey k hk
    exact h
  · intro k e he
    obtain ⟨_, _, _, h⟩ := hkey _ (hc2 k e he)
    exact h
  · intro k e he
    obtain ⟨es, h1, h2, _⟩ := hkey _ (hc2 k e he)
    exact ⟨es, h1, h2⟩

/-! ## The distance function -/

theorem haversine_eq (p q : Point ℝ) :
    haversine p q = 2 * 6371 * Real.arcsin (Real.sqrt (haversineA p q)) := rfl

theorem haversine_eq_centralAngle (p q : Point ℝ) :
    haversine p q = 6371 * centralAngle p q := by
  rw [haversine_eq, centralAngle]
  ring

theorem sin_half_mul_self (x : ℝ) : Real.sin (x / 2) * Real.sin (x / 2) = (1 - Real.cos x) / 2 := by
  have h := Real.sin_sq_eq_half_sub (x / 2)
  have h2 : 2 * (x / 2) = x := by ring
  rw [h2] at h
  rw [← sq, h]
  ring

theorem haversineA_eq_dot (p q : Point ℝ) : haversineA p q = (1 - sphereDot p q) / 2 := by
  have e1 : (q.lat - p.lat) * Real.pi / 180 = q.lat * Real.pi / 180 - p.lat * Real.pi / 180 := by
    ring
  have e2 : (q.lon - p.lon) * Real.pi / 180 = q.lon * Real.pi / 180 - p.lon * Real.pi / 180 := by
    ring
  simp only [haversineA, sphereDot]
  rw [mul_assoc (Real.cos (p.lat * Real.pi / 180) * Real.cos (q.lat * Real.pi / 180)),
    sin_half_mul_self, sin_half_mul_self, e1, e2, Real.cos_sub, Real.cos_sub]
  ring

theorem unit_vector (φ l : ℝ) :
    (Real.cos φ * Real.cos l) ^ 2 + (Real.cos φ * Real.sin l) ^ 2 + Real.sin φ ^ 2 = 1 := by
  have h1 := Real.sin_sq_add_cos_sq φ
  have h2 := Real.sin_sq_add_cos_sq l
  nlinarith [h1, h2]

theorem dot_le_one (a1 a2 a3 b1 b2 b3 : ℝ) (ha : a1 ^ 2 + a2 ^ 2 + a3 ^ 2 = 1)
    (hb : b1 ^ 2 + b2 ^ 2 + b3 ^ 2 = 1) : a1 * b1 + a2 * b2 + a3 * b3 ≤ 1 := by
  nlinarith [sq_nonneg (a1 - b1), sq_nonneg (a2 - b2), sq_nonneg (a3 - b3)]

theorem neg_one_le_dot (a1 a2 a3 b1 b2 b3 : ℝ) (ha : a1 ^ 2 + a2 ^ 2 + a3 ^ 2 = 1)
    (hb : b1 ^ 2 + b2 ^ 2 + b3 ^ 2 = 1) : -1 ≤ a1 * b1 + a2 * b2 + a3 * b3 := by
  nlinarith [sq_nonneg (a1 + b1), sq_nonneg (a2 + b2), sq_nonneg (a3 + b3)]

theorem cauchy_schwarz3 (u1 u2 u3 v1 v2 v3 : ℝ) :
    (u1 * v1 + u2 * v2 + u3 * v3) ^ 2
      ≤ (u1 ^ 2 + u2 ^ 2 + u3 ^ 2) * (v1 ^ 2 + v2 ^ 2 + v3 ^ 2) := by
  nlinarith [sq_nonneg (u1 * v2 - u2 * v1), sq_nonneg (u1 * v3 - u3 * v1),
    sq_nonneg (u2 * v3 - u3 * v2)]

/-- For unit vectors `a`, `b`, `c` with inner products `x = a·b`, `y = b·c`, `z = a·c`: the
parts of `a` and `c` orthogonal to `b` satisfy the Cauchy-Schwarz inequality. -/
theorem gram_nonneg (a1 a2 a3 b1 b2 b3 c1 c2 c3 x y z : ℝ) (ha : a1 ^ 2 + a2 ^ 2 + a3 ^ 2 = 1)
    (hb : b1 ^ 2 + b2 ^ 2 + b3 ^ 2 = 1) (hc : c1 ^ 2 + c2 ^ 2 + c3 ^ 2 = 1)
    (hx : a1 * b1 + a2 * b2 + a3 * b3 = x) (hy : b1 * c1 + b2 * c2 + b3 * c3 = y)
    (hz : a1 * c1 + a2 * c2 + a3 * c3 = z) :
    (x * y - z) ^ 2 ≤ (1 - x ^ 2) * (1 - y ^ 2) := by
  have n1 : (a1 - x * b1) ^ 2 + (a2 - x * b2) ^ 2 + (a3 - x * b3) ^ 2 = 1 - x ^ 2 := by
    linear_combination ha + x ^ 2 * hb - 2 * x * hx
  have n2 : (c1 - y * b1) ^ 2 + (c2 - y * b2) ^ 2 + (c3 - y * b3) ^ 2 = 1 - y ^ 2 := by
    linear_combination hc + y ^ 2 * hb - 2 * y * hy
  have d : (a1 - x * b1) * (c1 - y * b1) + (a2 - x * b2) * (c2 - y * b2)
      + (a3 - x * b3) * (c3 - y * b3) = z - x * y := by
    linear_combination hz - y * hx - x * hy + x * y * hb
  have cs := cauchy_schwarz3 (a1 - x * b1) (a2 - x * b2) (a3 - x * b3)
    (c1 - y * b1) (c2 - y * b2) (c3 - y * b3)
  rw [n1, n2, d] at cs
  have e : (x * y - z) ^ 2 = (z - x * y) ^ 2 := by ring
  rw [e]
  exact cs

theorem sphereDot_le_one (p q : Point ℝ) : sphereDot p q ≤ 1 :=
  dot_le_one _ _ _ _ _ _ (unit_vector _ _) (unit_vector _ _)

theorem neg_one_le_sphereDot (p q : Point ℝ) : -1 ≤ sphereDot p q :=
  neg_one_le_dot _ _ _ _ _ _ (unit_vector _ _) (unit_vector _ _)

theorem haversineA_nonneg (p q : Point ℝ) : 0 ≤ haversineA p q := by
  rw [haversineA_eq_dot]
  linarith [sphereDot_le_one p q]

theorem haversineA_le_one (p q : Point ℝ) : haversineA p q ≤ 1 := by
  rw [haversineA_eq_dot]
  linarith [neg_one_le_sphereDot p q]

theorem centralAngle_nonneg (p q : Point ℝ) : 0 ≤ centralAngle p q := by
  unfold centralAngle
  have := Real.arcsin_nonneg.2 (Real.sqrt_nonneg (haversineA p q))
  linarith

theorem centralAngle_le_pi (p q : Point ℝ) : centralAngle p q ≤ Real.pi := by
  unfold centralAngle
  have := Real.arcsin_le_pi_div_two (Real.sqrt (haversineA p q))
  linarith

theorem cos_centralAngle (p q : Point ℝ) : Real.cos (centralAngle p q) = sphereDot p q := by
  unfold centralAngle
  have h0 : 0 ≤ Real.sqrt (haversineA p q) := Real.sqrt_nonneg _
  have h1 : Real.sqrt (haversineA p q) ≤ 1 := by
    rw [Real.sqrt_le_one]
    exact haversineA_le_one p q
  have hs : Real.sin (Real.arcsin (Real.sqrt (haversineA p q))) = Real.sqrt (haversineA p q) :=
    Real.sin_arcsin (by linarith) h1
  rw [Real.cos_two_mul, Real.cos_sq', hs, Real.sq_sqrt (haversineA_nonneg p q), haversineA_eq_dot]
  ring

theorem sin_centralAngle_nonneg (p q : Point ℝ) : 0 ≤ Real.sin (centralAngle p q) :=
  Real.sin_nonneg_of_nonneg_of_le_pi (centralAngle_nonneg p q) (centralAngle_le_pi p q)

theorem sin_centralAngle_sq (p q : Point ℝ) :
    Real.sin (centralAngle p q) ^ 2 = 1 - sphereDot p q ^ 2 := by
  rw [Real.sin_sq, cos_centralAngle]

/-- The central angle satisfies the triangle inequality. -/
theorem centralAngle_triangle (a b c : Point ℝ) :
    centralAngle a c ≤ centralAngle a b + centralAngle b c := by
  by_cases hbig : Real.pi ≤ centralAngle a b + centralAngle b c
  · exact (centralAngle_le_pi a c).trans hbig
  · push_neg at hbig
    by_contra hcon
    push_neg at hcon
    have h0 : 0 ≤ centralAngle a b + centralAngle b c :=
      add_nonneg (centralAngle_nonneg a b) (centralAngle_nonneg b c)
    have hlt : Real.cos (centralAngle a c) < Real.cos (centralAngle a b + centralAngle b c) :=
      Real.cos_lt_cos_of_nonneg_of_le_pi h0 (centralAngle_le_pi a c) hcon
    rw [Real.cos_add, cos_centralAngle, cos_centralAngle, cos_centralAngle] at hlt
    have hg := gram_nonneg _ _ _ _ _ _ _ _ _ (sphereDot a b) (sphereDot b c) (sphereDot a c)
      (unit_vector (a.lat * Real.pi / 180) (a.lon * Real.pi / 180))
      (unit_vector (b.lat * Real.pi / 180) (b.lon * Real.pi / 180))
      (unit_vector (c.lat * Real.pi / 180) (c.lon * Real.pi / 180)) rfl rfl rfl
    rw [← sin_centralAngle_sq, ← sin_centralAngle_sq] at hg
    have hs1 := sin_centralAngle_nonneg a b
    have hs2 := sin_centralAngle_nonneg b c
    have hp : 0 ≤ Real.sin (centralAngle a b) * Real.sin (centralAngle b c) := mul_nonneg hs1 hs2
    nlinarith [hg, hp, hlt]

theorem haversine_add_le (a b c : Point ℝ) :
    haversine a c ≤ haversine a b + haversine b c := by
  rw [haversine_eq_centralAngle, haversine_eq_centralAngle, haversine_eq_centralAngle]
  have := centralAngle_triangle a b c
  linarith

theorem haversine_swap (p q : Point ℝ) : haversine p q = haversine q p := by
  rw [haversine_eq, haversine_eq, haversineA_eq_dot, haversineA_eq_dot]
  have : sphereDot p q = sphereDot q p := by
    unfold sphereDot
    ring
  rw [this]

theorem haversine_nonneg (p q : Point ℝ) : 0 ≤ haversine p q := by
  rw [haversine_eq_centralAngle]
  have := centralAngle_nonneg p q
  linarith

theorem haversine_le_bound (p q : Point ℝ) : haversine p q ≤ Real.pi * 6371 := by
  rw [haversine_eq_centralAngle]
  have := centralAngle_le_pi p q
  linarith

/-! ## Weights and coordinates of built graphs -/

theorem nonnegWeights_wayStep {α : Type} [LinearOrderedCommRing α]
    (hav : Point α → Point α → α) (hnn : ∀ p q, 0 ≤ hav p q) (g : Graph α)
    (n1 n2 : NodeRef α) (hg : NonnegWeights g.adj) :
    NonnegWeights (wayStep hav g n1 n2).adj := by
  intro k e he
  rw [wayStep_adj] at he
  rcases mem_edgesOf_pushBack _ _ _ _ _ he with he1 | ⟨_, he1⟩
  · rcases mem_edgesOf_pushBack _ _ _ _ _ he1 with he2 | ⟨_, he2⟩
    · exact hg k e he2
    · rw [he2]
      exact hnn _ _
  · rw [he1]
    exact hnn _ _

/-- Every graph the builder produces with a non-negative distance function has non-negative
edge weights. -/
theorem nonnegWeights_built {α : Type} [LinearOrderedCommRing α]
    (hav : Point α → Point α → α) (hnn : ∀ p q, 0 ≤ hav p q)
    (ws : List (Bool × List (NodeRef α))) (g : Graph α)
    (hrun : buildFrom hav ws emptyGraph = some g) : NonnegWeights g.adj :=
  buildFrom_induct hav (fun g => NonnegWeights g.adj) (fun _ => True)
    (fun g n1 n2 _ _ hg => nonnegWeights_wayStep hav hnn g n1 n2 hg) ws
    (fun _ _ _ _ => trivial) emptyGraph g
    (by intro u e he; simp [emptyGraph, edgesOf, UMap.find] at he) hrun

theorem covered_built {α : Type} [Zero α] (hav : Point α → Point α → α)
    (ws : List (Bool × List (NodeRef α))) (g : Graph α)
    (hrun : buildFrom hav ws emptyGraph = some g) : Covered g :=
  buildFrom_induct hav Covered (fun _ => True)
    (fun g n1 n2 _ _ hg => covered_wayStep hav g n1 n2 hg) ws
    (fun _ _ _ _ => trivial) emptyGraph g covered_empty hrun

theorem coherent_wayStep {α : Type} [Zero α] (hav : Point α → Point α → α)
    (hsym : ∀ p q, hav p q = hav q p) (c : Int → Point α) (g : Graph α) (n1 n2 : NodeRef α)
    (h1 : (⟨n1.lat, n1.lon⟩ : Point α) = c n1.ref) (h2 : (⟨n2.lat, n2.lon⟩ : Point α) = c n2.ref)
    (hg : Coherent hav c g) : Coherent hav c (wayStep hav g n1 n2) := by
  obtain ⟨hg1, hg2⟩ := hg
  have hfind : ∀ k, UMap.find (wayStep hav g n1 n2).node_coords k
      = if n2.ref = k then some (c n2.ref)
        else if n1.ref = k then some (c n1.ref) else UMap.find g.node_coords k := by
    intro k
    rw [wayStep_node_coords, UMap.find_assign, UMap.find_assign, h1, h2]
  have hsome : ∀ k, ((UMap.find g.node_coords k).isSome = true ∨ k = n1.ref ∨ k = n2.ref) →
      (UMap.find (wayStep hav g n1 n2).node_coords k).isSome = true := by
    intro k hk
    rw [hfind]
    by_cases e2 : n2.ref = k
    · simp [e2]
    · by_cases e1 : n1.ref = k
      · simp [e1, e2]
      · simp only [e1, e2, if_false]
        rcases hk with hk | hk | hk
        · exact hk
        · exact absurd hk.symm e1
        · exact absurd hk.symm e2
  have hd : hav (coordOf (wayStep hav g n1 n2).node_coords n1.ref)
      (coordOf (wayStep hav g n1 n2).node_coords n2.ref) = hav (c n1.ref) (c n2.ref) := by
    rw [wayStep_coord_snd, wayStep_coord_fst, h2]
    by_cases e : n2.ref = n1.ref
    · rw [if_pos e, e]
    · rw [if_neg e, h1]
  constructor
  · intro k p hk
    rw [hfind] at hk
    by_cases e2 : n2.ref = k
    · simp only [e2, if_true, Option.some.injEq] at hk
      exact hk.symm
    · by_cases e1 : n1.ref = k
      · simp only [e2, e1, if_true, if_false, Option.some.injEq] at hk
        exact hk.symm
      · simp only [e2, e1, if_false] at hk
        exact hg1 k p hk
  · intro k e he
    rw [wayStep_adj, hd] at he
    rcases mem_edgesOf_pushBack _ _ _ _ _ he with he1 | ⟨hk, he1⟩
    · rcases mem_edgesOf_pushBack _ _ _ _ _ he1 with he2 | ⟨hk, he2⟩
      · obtain ⟨a1, a2, a3⟩ := hg2 k e he2
        exact ⟨a1, hsome k (Or.inl a2), hsome _ (Or.inl a3)⟩
      · rw [he2, ← hk]
        exact ⟨rfl, hsome _ (Or.inr (Or.inl rfl)), hsome _ (Or.inr (Or.inr rfl))⟩
    · rw [he1, ← hk]
      exact ⟨hsym _ _, hsome _ (Or.inr (Or.inr rfl)), hsome _ (Or.inr (Or.inl rfl))⟩

theorem coherent_built {α : Type} [Zero α] (hav : Point α → Point α → α)
    (hsym : ∀ p q, hav p q = hav q p) (c : Int → Point α)
    (ws : List (Bool × List (NodeRef α)))
    (hobs : ∀ w ∈ ws, ∀ nd ∈ w.2, (⟨nd.lat, nd.lon⟩ : Point α) = c nd.ref)
    (g : Graph α) (hrun : buildFrom hav ws emptyGraph = some g) : Coherent hav c g :=
  buildFrom_induct hav (Coherent hav c) (fun nd => (⟨nd.lat, nd.lon⟩ : Point α) = c nd.ref)
    (fun g n1 n2 h1 h2 hg => coherent_wayStep hav hsym c g n1 n2 h1 h2 hg) ws hobs emptyGraph g
    (by
      constructor
      · intro k p hk
        simp [emptyGraph, UMap.find] at hk
      · intro u e he
        simp [emptyGraph, edgesOf, UMap.find] at he) hrun

/-- A coherent graph has a consistent heuristic when the distance function satisfies the
triangle inequality and vanishes on equal points. -/
theorem consistent_of_coherent {α : Type} [LinearOrderedCommRing α]
    (hav : Point α → Point α → α) (htri : ∀ p q r, hav p r ≤ hav p q + hav q r)
    (hself : ∀ p, hav p p = 0) (c : Int → Point α) (g : Graph α) (hg : Coherent hav c g)
    (goal : Int) : Consistent hav g goal := by
  obtain ⟨hg1, hg2⟩ := hg
  have hco : ∀ k, (UMap.find g.node_coords k).isSome = true → coordOf g.node_coords k = c k := by
    intro k hk
    obtain ⟨p, hp⟩ := Option.isSome_iff_exists.1 hk
    simp only [coordOf, hp, Option.getD_some]
    exact hg1 k p hp
  constructor
  · intro u e he
    obtain ⟨a1, a2, a3⟩ := hg2 u e he
    simp only [heur]
    rw [hco u a2, hco _ a3, a1]
    exact htri _ _ _
  · simp [heur, hself]

/-- A consistent heuristic never exceeds the weight of a walk to the goal. -/
theorem admissible_of_consistent {α : Type} [LinearOrderedCommRing α]
    (hav : Point α → Point α → α) (g : Graph α) (goal : Int) (hc : Consistent hav g goal)
    (v : Int) (p : List (Edge α)) (hp : IsWalk (edgesOf g.adj) v p goal) :
    heur hav g.node_coords goal v ≤ weightOf p := by
  induction p generalizing v with
  | nil =>
    have hv : v = goal := hp
    rw [hv, hc.2]
    simp [weightOf]
  | cons e p ih =>
    obtain ⟨he, hp'⟩ := hp
    have h1 := hc.1 v e he
    have h2 := ih e.to_ hp'
    rw [weightOf_cons]
    linarith

/-! ## The builder succeeds on ways that have a node -/

theorem wayLoop_some {α : Type} [Zero α] (hav : Point α → Point α → α)
    (nodes : List (NodeRef α)) (k i : Nat) (g : Graph α) (hlen : i + k + 1 ≤ nodes.length) :
    ∃ g', wayLoop hav nodes k i g = some g' := by
  induction k generalizing i g with
  | zero => exact ⟨g, rfl⟩
  | succ k ih =>
    have h1 : i < nodes.length := by omega
    have h2 : i + 1 < nodes.length := by omega
    rw [wayLoop_succ, List.getElem?_eq_getElem h1, List.getElem?_eq_getElem h2]
    exact ih (i + 1) _ (by omega)

theorem wayBound_pos (size : Nat) (h1 : 1 ≤ size) (h2 : size < 2 ^ 64) :
    wayBound size = size - 1 := by
  unfold wayBound
  omega

theorem way_some {α : Type} [Zero α] (hav : Point α → Point α → α) (highway : Bool)
    (nodes : List (NodeRef α)) (g : Graph α)
    (hnodes : highway = true → 1 ≤ nodes.length ∧ nodes.length < 2 ^ 64) :
    ∃ g', way hav highway nodes g = some g' := by
  unfold way
  by_cases hh : highway = true
  · rw [if_pos hh, wayBound_pos _ (hnodes hh).1 (hnodes hh).2]
    exact wayLoop_some hav nodes _ 0 g (by have := (hnodes hh).1; omega)
  · rw [if_neg hh]
    exact ⟨g, rfl⟩

/-- Every sequence of ways in which each tagged way has at least one node is ingested without a
read past the end of a node list. -/
theorem buildFrom_some {α : Type} [Zero α] (hav : Point α → Point α → α)
    (ws : List (Bool × List (NodeRef α)))
    (hws : ∀ w ∈ ws, w.1 = true → 1 ≤ w.2.length ∧ w.2.length < 2 ^ 64) (g : Graph α) :
    ∃ g', buildFrom hav ws g = some g' := by
  induction ws generalizing g with
  | nil => exact ⟨g, rfl⟩
  | cons w ws ih =>
    obtain ⟨g1, hg1⟩ := way_some hav w.1 w.2 g (hws w (List.mem_cons_self w ws))
    obtain ⟨g2, hg2⟩ := ih (fun w' hw' => hws w' (List.mem_cons_of_mem w hw')) g1
    exact ⟨g2, by rw [buildFrom, hg1]; exact hg2⟩

theorem sampleWays_built {α : Type} [LinearOrderedCommRing α] (hav : Point α → Point α → α) :
    ∃ g, buildFrom hav (sampleWays α) emptyGraph = some g := by
  refine buildFrom_some hav (sampleWays α) ?_ emptyGraph
  intro w hw _
  simp only [sampleWays, List.mem_cons, List.mem_singleton, List.not_mem_nil, or_false] at hw
  rcases hw with h | h | h <;> rw [h] <;> norm_num

theorem sampleWays_observed (α : Type) [LinearOrderedCommRing α] :
    ∀ w ∈ sampleWays α, ∀ nd ∈ w.2, (⟨nd.lat, nd.lon⟩ : Point α) = sampleCoord α nd.ref := by
  intro w hw nd hnd
  simp only [sampleWays, List.mem_cons, List.mem_singleton, List.not_mem_nil, or_false] at hw
  rcases hw with h | h | h <;> rw [h] at hnd <;>
    simp only [List.mem_cons, List.mem_singleton, List.not_mem_nil, or_false] at hnd
  · rcases hnd with h | h | h <;> rw [h] <;> simp [sampleCoord]
  · rw [hnd]
    simp [sampleCoord]
  · rcases hnd with h | h <;> rw [h] <;> simp [sampleCoord]

theorem movedNodeWays_built :
    buildFrom haversine (movedNodeWays ℝ) emptyGraph = some
      ⟨[(3, [⟨2, haversine ⟨0, 180⟩ ⟨0, 180⟩⟩]),
        (2, [⟨1, haversine ⟨0, 0⟩ ⟨0, 0⟩⟩, ⟨3, haversine ⟨0, 180⟩ ⟨0, 180⟩⟩]),
        (1, [⟨2, haversine ⟨0, 0⟩ ⟨0, 0⟩⟩])],
       [(1, ⟨0, 0⟩), (2, ⟨0, 180⟩), (3, ⟨0, 180⟩)]⟩ := by
  have hb : wayBound 2 = 1 := by norm_num [wayBound]
  simp [buildFrom, movedNodeWays, way, hb, wayLoop, emptyGraph, wayStep, pushBack, UMap.index,
    UMap.assign, UMap.find, Point.zero]

/-! ## Claims about the builder and the distance function -/

/-- C11. Starting from the empty graph, after any sequence of `LucknowHandler::way` calls the
adjacency map is symmetric with equal weights: for all node ids `u`, `v` and every weight `w`,
`adj[u]` holds as many edges `(to = v, weight = w)` as `adj[v]` holds edges
`(to = u, weight = w)`. -/
theorem built_adjacency_symmetric {α : Type} [DecidableEq α] [Zero α]
    (hav : Point α → Point α → α) (ws : List (Bool × List (NodeRef α))) (g : Graph α)
    (hrun : buildFrom hav ws emptyGraph = some g) (u v : Int) (w : α) :
    countEdges (edgesOf g.adj u) v w = countEdges (edgesOf g.adj v) u w :=
  buildFrom_induct hav (fun g => SymmetricAdj g.adj) (fun _ => True)
    (fun g n1 n2 _ _ hg => symmetricAdj_wayStep hav g n1 n2 hg) ws
    (fun _ _ _ _ => trivial) emptyGraph g symmetricAdj_empty hrun u v w

/-- C11 at a concrete input: the ways of `sampleWays` over the integers with a constant
distance; `adj[1]` and `adj[3]` hold one edge to each other. -/
theorem built_adjacency_symmetric_witness :
    ∃ g, buildFrom (fun _ _ => (1 : ℤ)) (sampleWays ℤ) emptyGraph = some g ∧
      countEdges (edgesOf g.adj 1) 3 1 = countEdges (edgesOf g.adj 3) 1 1 ∧
      countEdges (edgesOf g.adj 1) 3 1 = 1 :=
  ⟨_, rfl, built_adjacency_symmetric (fun _ _ => (1 : ℤ)) (sampleWays ℤ) _ rfl 1 3 1, rfl⟩

/-- C12. Starting from the empty graph, after any sequence of `LucknowHandler::way` calls every
key of the adjacency map and every target of a stored edge has an entry in `node_coords`, and
every edge target is a key of the adjacency map with a non-empty edge list. -/
theorem built_nodes_have_coordinates {α : Type} [Zero α]
    (hav : Point α → Point α → α) (ws : List (Bool × List (NodeRef α))) (g : Graph α)
    (hrun : buildFrom hav ws emptyGraph = some g) :
    (∀ k, (UMap.find g.adj k).isSome = true → (UMap.find g.node_coords k).isSome = true) ∧
    (∀ k, ∀ e ∈ edgesOf g.adj k, (UMap.find g.node_coords e.to_).isSome = true) ∧
    (∀ k, ∀ e ∈ edgesOf g.adj k, ∃ es, UMap.find g.adj e.to_ = some es ∧ es ≠ []) :=
  covered_spec g (covered_built hav ws g hrun)

/-- C12 at a concrete input: the ways of `sampleWays` over the integers. -/
theorem built_nodes_have_coordinates_witness :
    ∃ g, buildFrom (fun _ _ => (1 : ℤ)) (sampleWays ℤ) emptyGraph = some g ∧
      (∀ k, (UMap.find g.adj k).isSome = true → (UMap.find g.node_coords k).isSome = true) ∧
      (∀ k, ∀ e ∈ edgesOf g.adj k, (UMap.find g.node_coords e.to_).isSome = true) ∧
      (∀ k, ∀ e ∈ edgesOf g.adj k, ∃ es, UMap.find g.adj e.to_ = some es ∧ es ≠ []) :=
  ⟨_, rfl, built_nodes_have_coordinates (fun _ _ => (1 : ℤ)) (sampleWays ℤ) _ rfl⟩

/-- C13 (as amended). For every graph the builder produces from a sequence of way records in
which each node id is always observed with the same coordinate, and every goal, the heuristic
is consistent with the stored edge weights: for every stored edge `u -> v` of weight `w`,
`haversine(node_coords[u], node_coords[goal]) <= w + haversine(node_coords[v], node_coords[goal])`,
and it is zero at the goal; hence it never exceeds the weight of a walk to the goal. Arithmetic
is over the real numbers. -/
theorem built_heuristic_consistent (ws : List (Bool × List (NodeRef ℝ)))
    (c : Int → Point ℝ)
    (hobs : ∀ w ∈ ws, ∀ nd ∈ w.2, (⟨nd.lat, nd.lon⟩ : Point ℝ) = c nd.ref)
    (g : Graph ℝ) (hrun : buildFrom haversine ws emptyGraph = some g) (goal : Int) :
    Consistent haversine g goal ∧
      ∀ v p, IsWalk (edgesOf g.adj) v p goal →
        haversine (coordOf g.node_coords v) (coordOf g.node_coords goal) ≤ weightOf p := by
  have hcoh := coherent_built haversine haversine_swap c ws hobs g hrun
  have hcons := consistent_of_coherent haversine
    (fun p q r => haversine_add_le p q r) haversine_self c g hcoh goal
  exact ⟨hcons, fun v p hp => admissible_of_consistent haversine g goal hcons v p hp⟩

/-- C13 (as amended) at a concrete input: the ways of `sampleWays` and the goal `3`. -/
theorem built_heuristic_consistent_witness :
    (∀ w ∈ sampleWays ℝ, ∀ nd ∈ w.2, (⟨nd.lat, nd.lon⟩ : Point ℝ) = sampleCoord ℝ nd.ref) ∧
      ∃ g, buildFrom haversine (sampleWays ℝ) emptyGraph = some g ∧
        Consistent haversine g 3 ∧
        ∀ v p, IsWalk (edgesOf g.adj) v p 3 →
          haversine (coordOf g.node_coords v) (coordOf g.node_coords 3) ≤ weightOf p := by
  obtain ⟨g, hg⟩ := sampleWays_built haversine
  exact ⟨sampleWays_observed ℝ, g, hg,
    built_heuristic_consistent (sampleWays ℝ) (sampleCoord ℝ) (sampleWays_observed ℝ) g hg 3⟩

/-- C13, counterexample to the claim as stated: the two tagged ways of `movedNodeWays` observe
node `2` at `(0, 0)` and later at `(0, 180)`. The builder stores the edge `2 -> 1` with weight
`haversine((0,0),(0,0)) = 0` while `node_coords[2]` ends as `(0, 180)`; for the goal `1` the
heuristic of node `2` is `6371 * π`, more than the weight 0 of that edge plus the heuristic 0
of node `1`, and more than the weight of the walk `2 -> 1`. -/
theorem built_heuristic_inconsistent :
    ∃ g, buildFrom haversine (movedNodeWays ℝ) emptyGraph = some g ∧
      (UMap.find g.adj 1).isSome = true ∧
      ¬ Consistent haversine g 1 ∧
      ∃ p, IsWalk (edgesOf g.adj) 2 p 1 ∧
        weightOf p < haversine (coordOf g.node_coords 2) (coordOf g.node_coords 1) := by
  have hpi : (0 : ℝ) < 6371 * Real.pi := by positivity
  have h21 : haversine (coordOf ([(1, ⟨0, 0⟩), (2, ⟨0, 180⟩), (3, ⟨0, 180⟩)] : UMap (Point ℝ)) 2)
      (coordOf ([(1, ⟨0, 0⟩), (2, ⟨0, 180⟩), (3, ⟨0, 180⟩)] : UMap (Point ℝ)) 1)
      = 6371 * Real.pi := by
    simp [coordOf, UMap.find, haversine_antipode]
  have h11 : haversine (coordOf ([(1, ⟨0, 0⟩), (2, ⟨0, 180⟩), (3, ⟨0, 180⟩)] : UMap (Point ℝ)) 1)
      (coordOf ([(1, ⟨0, 0⟩), (2, ⟨0, 180⟩), (3, ⟨0, 180⟩)] : UMap (Point ℝ)) 1) = 0 :=
    haversine_self _
  refine ⟨_, movedNodeWays_built, by simp [UMap.find], ?_, ?_⟩
  · intro hc
    have h := hc.1 2 ⟨1, haversine ⟨0, 0⟩ ⟨0, 0⟩⟩ (by simp [edgesOf, UMap.find])
    simp only [heur] at h
    rw [h21, h11, haversine_self] at h
    linarith
  · refine ⟨[⟨1, haversine ⟨0, 0⟩ ⟨0, 0⟩⟩], by simp [IsWalk, edgesOf, UMap.find], ?_⟩
    rw [h21]
    simp only [weightOf, List.map_cons, List.map_nil, List.sum_cons, List.sum_nil, add_zero,
      haversine_self]
    exact hpi

/-- C14. The distance function is symmetric: `haversine(p1, p2) = haversine(p2, p1)` for all
points, over the real numbers. -/
theorem haversine_symmetric (p1 p2 : Point ℝ) : haversine p1 p2 = haversine p2 p1 :=
  haversine_swap p1 p2

/-- C15. The distance function satisfies the triangle inequality:
`haversine(a, c) <= haversine(a, b) + haversine(b, c)` for any three points, over the real
numbers. -/
theorem haversine_triangle_inequality (a b c : Point ℝ) :
    haversine a c ≤ haversine a b + haversine b c := by
  rw [haversine_eq_centralAngle, haversine_eq_centralAngle, haversine_eq_centralAngle]
  have h := centralAngle_triangle a b c
  linarith

/-- C16. For every point `p`, `haversine(p, p) = 0`. -/
theorem haversine_same_point (p : Point ℝ) : haversine p p = 0 := by
  simp [haversine]

/-- C19. For all real latitudes and longitudes the intermediate value `a` of `haversine` lies in
`[0, 1]`, so that `sqrt` and `asin` are applied inside their domains, the result satisfies
`0 <= haversine(p1, p2) <= π * 6371`, and every edge weight the builder stores is
non-negative. -/
theorem haversine_range (p1 p2 : Point ℝ) :
    haversine p1 p2 = 2 * 6371 * Real.arcsin (Real.sqrt (haversineA p1 p2)) ∧
      0 ≤ haversineA p1 p2 ∧ haversineA p1 p2 ≤ 1 ∧
      0 ≤ Real.sqrt (haversineA p1 p2) ∧ Real.sqrt (haversineA p1 p2) ≤ 1 ∧
      0 ≤ haversine p1 p2 ∧ haversine p1 p2 ≤ Real.pi * 6371 ∧
      ∀ (ws : List (Bool × List (NodeRef ℝ))) (g : Graph ℝ),
        buildFrom haversine ws emptyGraph = some g → ∀ u, ∀ e ∈ edgesOf g.adj u, 0 ≤ e.weight := by
  refine ⟨rfl, haversineA_nonneg p1 p2, haversineA_le_one p1 p2, Real.sqrt_nonneg _, ?_,
    haversine_nonneg p1 p2, haversine_le_bound p1 p2, ?_⟩
  · rw [Real.sqrt_le_one]
    exact haversineA_le_one p1 p2
  · intro ws g hrun
    exact nonnegWeights_built haversine haversine_nonneg ws g hrun

/-! ## `runExperiment` leaves the global maps of a built graph as they are -/

/-- Every node the relaxation queues is the target of a relaxed edge. -/
theorem relaxC_pq_keys {α : Type} [LinearOrderedCommRing α] (h : Int → α) (u : Int)
    (K : Int → Prop) (es : List (Edge α)) (hes : ∀ e ∈ es, K e.to_) (pq : PQ α)
    (dist : UMap α) (hpq : ∀ x ∈ pq, K x.2) :
    ∀ x ∈ (relaxC h u es (pq, dist)).1, K x.2 := by
  obtain ⟨_, _, hP⟩ := relaxC_induct2 h u (fun _ q _ => ∀ x ∈ q, K x.2) es
    (by
      intro done e q d he hP _ x hx
      rcases List.mem_cons.1 hx with hx1 | hx1
      · rw [hx1]
        exact hes e he
      · exact hP x hx1)
    (by
      intro done e q d dv _ hP _ _
      exact hP)
    es (fun _ he => he) [] pq dist hpq
  exact hP

theorem relaxA_node_coords {α : Type} [LinearOrderedCommRing α] (hav : Point α → Point α → α)
    (goal u : Int) (es : List (Edge α)) (s : AInner α)
    (hes : ∀ e ∈ es, (UMap.find s.node_coords e.to_).isSome = true)
    (hgoal : (UMap.find s.node_coords goal).isSome = true) :
    (relaxA hav goal u es s).node_coords = s.node_coords := by
  induction es generalizing s with
  | nil => rfl
  | cons e es ih =>
    obtain ⟨p1, hp1⟩ := Option.isSome_iff_exists.1 (hes e (List.mem_cons_self e es))
    obtain ⟨p2, hp2⟩ := Option.isSome_iff_exists.1 hgoal
    have hes' : ∀ e' ∈ es, (UMap.find s.node_coords e'.to_).isSome = true :=
      fun e' he' => hes e' (List.mem_cons_of_mem e he')
    rw [relaxA]
    simp only [UMap.index_of_find Point.zero _ _ hp1, UMap.index_of_find Point.zero _ _ hp2]
    split_ifs
    · exact ih _ hes' hgoal
    · exact ih _ hes' hgoal

/-- Dijkstra's loop inserts no key into `adj` when every queued node and every edge target is a
key already. -/
theorem dijkstraLoop_frame {α : Type} [LinearOrderedCommRing α] (goal : Int) (n : Nat)
    (s d : DState α) (hd : PQDom s.pq s.dist)
    (hK : ∀ x ∈ s.pq, (UMap.find s.adj x.2).isSome = true)
    (hE : ∀ u, ∀ e ∈ edgesOf s.adj u, (UMap.find s.adj e.to_).isSome = true)
    (hrun : dijkstraLoop goal n s = some d) : d.adj = s.adj := by
  induction n generalizing s with
  | zero => simp [dijkstraLoop] at hrun
  | succ n ih =>
    cases ht : pqTop s.pq with
    | none =>
      simp only [dijkstraLoop, ht, Option.some.injEq] at hrun
      rw [← hrun]
    | some t =>
      by_cases hg : t.2 = goal
      · simp only [dijkstraLoop, ht, hg, if_true, Option.some.injEq] at hrun
        rw [← hrun]
      · have htd : (UMap.find s.dist t.2).isSome = true := hd t (pqTop_mem s.pq ht)
        obtain ⟨es, hes⟩ := Option.isSome_iff_exists.1 (hK t (pqTop_mem s.pq ht))
        have hidx : UMap.index [] s.adj t.2 = (edgesOf s.adj t.2, s.adj) := by
          rw [UMap.index_of_find [] _ _ hes]
          simp [edgesOf, hes]
        have h1 : dijkstraLoop goal (n + 1) s
            = dijkstraLoop goal n ⟨s.adj,
                (relaxC (fun _ => 0) t.2 (edgesOf s.adj t.2) (pqPop s.pq, s.dist)).1,
                (relaxC (fun _ => 0) t.2 (edgesOf s.adj t.2) (pqPop s.pq, s.dist)).2,
                s.visited + 1⟩ := by
          simp [dijkstraLoop, ht, hg, hidx, relaxD_core _ _ _ _ htd]
        rw [h1] at hrun
        have hd' := relaxC_pqDom (fun _ => (0 : α)) t.2 (edgesOf s.adj t.2) (pqPop s.pq) s.dist
          (pqDom_pop s.pq s.dist hd)
        have hK' := relaxC_pq_keys (fun _ => (0 : α)) t.2
          (fun k => (UMap.find s.adj k).isSome = true) (edgesOf s.adj t.2) (hE t.2)
          (pqPop s.pq) s.dist (fun x hx => hK x (mem_of_mem_pqPop s.pq hx))
        exact ih ⟨s.adj,
          (relaxC (fun _ => 0) t.2 (edgesOf s.adj t.2) (pqPop s.pq, s.dist)).1,
          (relaxC (fun _ => 0) t.2 (edgesOf s.adj t.2) (pqPop s.pq, s.dist)).2,
          s.visited + 1⟩ hd' hK' hE hrun

/-- The A* loop inserts no key into `adj` or `node_coords` when every queued node and every edge
target is a key of `adj` already and every edge target and the goal have a coordinate. -/
theorem astarLoop_frame {α : Type} [LinearOrderedCommRing α] (hav : Point α → Point α → α)
    (goal : Int) (n : Nat) (s a : AState α) (hd : PQDom s.pq s.dist)
    (hK : ∀ x ∈ s.pq, (UMap.find s.adj x.2).isSome = true)
    (hE : ∀ u, ∀ e ∈ edgesOf s.adj u, (UMap.find s.adj e.to_).isSome = true)
    (hC : ∀ u, ∀ e ∈ edgesOf s.adj u, (UMap.find s.node_coords e.to_).isSome = true)
    (hG : (UMap.find s.node_coords goal).isSome = true)
    (hrun : astarLoop hav goal n s = some a) :
    a.adj = s.adj ∧ a.node_coords = s.node_coords := by
  induction n generalizing s with
  | zero => simp [astarLoop] at hrun
  | succ n ih =>
    cases ht : pqTop s.pq with
    | none =>
      simp only [astarLoop, ht, Option.some.injEq] at hrun
      rw [← hrun]
      exact ⟨rfl, rfl⟩
    | some t =>
      by_cases hg : t.2 = goal
      · simp only [astarLoop, ht, hg, if_true, Option.some.injEq] at hrun
        rw [← hrun]
        exact ⟨rfl, rfl⟩
      · have htd : (UMap.find s.dist t.2).isSome = true := hd t (pqTop_mem s.pq ht)
        obtain ⟨es, hes⟩ := Option.isSome_iff_exists.1 (hK t (pqTop_mem s.pq ht))
        have hidx : UMap.index [] s.adj t.2 = (edgesOf s.adj t.2, s.adj) := by
          rw [UMap.index_of_find [] _ _ hes]
          simp [edgesOf, hes]
        obtain ⟨r1, _⟩ := relaxA_core hav goal t.2 (edgesOf s.adj t.2) (pqPop s.pq) s.dist
          s.node_coords htd
        have r3 := relaxA_node_coords hav goal t.2 (edgesOf s.adj t.2)
          ⟨pqPop s.pq, s.dist, s.node_coords⟩ (hC t.2) hG
        simp only at r3
        have h1 : astarLoop hav goal (n + 1) s
            = astarLoop hav goal n ⟨s.adj, s.node_coords,
                (relaxA hav goal t.2 (edgesOf s.adj t.2) ⟨pqPop s.pq, s.dist, s.node_coords⟩).pq,
                (relaxA hav goal t.2 (edgesOf s.adj t.2) ⟨pqPop s.pq, s.dist, s.node_coords⟩).dist,
                s.visited + 1⟩ := by
          simp [astarLoop, ht, hg, hidx, r3]
        rw [h1] at hrun
        have hd' := relaxC_pqDom (heur hav s.node_coords goal) t.2 (edgesOf s.adj t.2)
          (pqPop s.pq) s.dist (pqDom_pop s.pq s.dist hd)
        have hK' := relaxC_pq_keys (heur hav s.node_coords goal) t.2
          (fun k => (UMap.find s.adj k).isSome = true) (edgesOf s.adj t.2) (hE t.2)
          (pqPop s.pq) s.dist (fun x hx => hK x (mem_of_mem_pqPop s.pq hx))
        rw [← r1] at hd' hK'
        exact ih ⟨s.adj, s.node_coords,
          (relaxA hav goal t.2 (edgesOf s.adj t.2) ⟨pqPop s.pq, s.dist, s.node_coords⟩).pq,
          (relaxA hav goal t.2 (edgesOf s.adj t.2) ⟨pqPop s.pq, s.dist, s.node_coords⟩).dist,
          s.visited + 1⟩ hd' hK' hE hC hG hrun

theorem buildFrom_cons_some {α : Type} [Zero α] (hav : Point α → Point α → α)
    (w : Bool × List (NodeRef α)) (ws : List (Bool × List (NodeRef α))) (g g1 : Graph α)
    (h : way hav w.1 w.2 g = some g1) : buildFrom hav (w :: ws) g = buildFrom hav ws g1 := by
  rw [buildFrom, h]

theorem sampleGraph_built {α : Type} [LinearOrderedCommRing α] (hav : Point α → Point α → α) :
    buildFrom hav (sampleWays α) emptyGraph = some (sampleGraph hav) := by
  have hb3 : wayBound 3 = 2 := by norm_num [wayBound]
  have hb2 : wayBound 2 = 1 := by norm_num [wayBound]
  have s1 : wayStep hav emptyGraph ⟨1, 26, 80⟩ ⟨2, 26, 81⟩ =
      ⟨[(2, [⟨1, hav ⟨26, 80⟩ ⟨26, 81⟩⟩]), (1, [⟨2, hav ⟨26, 80⟩ ⟨26, 81⟩⟩])],
       [(1, ⟨26, 80⟩), (2, ⟨26, 81⟩)]⟩ := by
    simp [emptyGraph, wayStep, pushBack, UMap.index, UMap.assign, UMap.find, Point.zero]
  have s2 : wayStep hav
      ⟨[(2, [⟨1, hav ⟨26, 80⟩ ⟨26, 81⟩⟩]), (1, [⟨2, hav ⟨26, 80⟩ ⟨26, 81⟩⟩])],
       [(1, ⟨26, 80⟩), (2, ⟨26, 81⟩)]⟩ ⟨2, 26, 81⟩ ⟨3, 27, 81⟩ =
      ⟨[(3, [⟨2, hav ⟨26, 81⟩ ⟨27, 81⟩⟩]),
        (2, [⟨1, hav ⟨26, 80⟩ ⟨26, 81⟩⟩, ⟨3, hav ⟨26, 81⟩ ⟨27, 81⟩⟩]),
        (1, [⟨2, hav ⟨26, 80⟩ ⟨26, 81⟩⟩])],
       [(1, ⟨26, 80⟩), (2, ⟨26, 81⟩), (3, ⟨27, 81⟩)]⟩ := by
    simp [wayStep, pushBack, UMap.index, UMap.assign, UMap.find, Point.zero]
  have s3 : wayStep hav
      ⟨[(3, [⟨2, hav ⟨26, 81⟩ ⟨27, 81⟩⟩]),
        (2, [⟨1, hav ⟨26, 80⟩ ⟨26, 81⟩⟩, ⟨3, hav ⟨26, 81⟩ ⟨27, 81⟩⟩]),
        (1, [⟨2, hav ⟨26, 80⟩ ⟨26, 81⟩⟩])],
       [(1, ⟨26, 80⟩), (2, ⟨26, 81⟩), (3, ⟨27, 81⟩)]⟩ ⟨3, 27, 81⟩ ⟨1, 26, 80⟩ =
      sampleGraph hav := by
    simp [sampleGraph, wayStep, pushBack, UMap.index, UMap.assign, UMap.find, Point.zero]
  have w1 : way hav true [⟨1, 26, 80⟩, ⟨2, 26, 81⟩, ⟨3, 27, 81⟩] emptyGraph = some
      ⟨[(3, [⟨2, hav ⟨26, 81⟩ ⟨27, 81⟩⟩]),
        (2, [⟨1, hav ⟨26, 80⟩ ⟨26, 81⟩⟩, ⟨3, hav ⟨26, 81⟩ ⟨27, 81⟩⟩]),
        (1, [⟨2, hav ⟨26, 80⟩ ⟨26, 81⟩⟩])],
       [(1, ⟨26, 80⟩), (2, ⟨26, 81⟩), (3, ⟨27, 81⟩)]⟩ := by
    rw [way, if_pos rfl]
    show wayLoop hav _ (wayBound 3) 0 _ = _
    rw [hb3, wayLoop_succ]
    show wayLoop hav _ 1 1 (wayStep hav emptyGraph ⟨1, 26, 80⟩ ⟨2, 26, 81⟩) = _
    rw [s1, wayLoop_succ]
    show wayLoop hav _ 0 2 (wayStep hav _ ⟨2, 26, 81⟩ ⟨3, 27, 81⟩) = _
    rw [s2]
    rfl
  have w3 : way hav true [⟨3, 27, 81⟩, ⟨1, 26, 80⟩]
      ⟨[(3, [⟨2, hav ⟨26, 81⟩ ⟨27, 81⟩⟩]),
        (2, [⟨1, hav ⟨26, 80⟩ ⟨26, 81⟩⟩, ⟨3, hav ⟨26, 81⟩ ⟨27, 81⟩⟩]),
        (1, [⟨2, hav ⟨26, 80⟩ ⟨26, 81⟩⟩])],
       [(1, ⟨26, 80⟩), (2, ⟨26, 81⟩), (3, ⟨27, 81⟩)]⟩ = some (sampleGraph hav) := by
    rw [way, if_pos rfl]
    show wayLoop hav _ (wayBound 2) 0 _ = _
    rw [hb2, wayLoop_succ]
    show wayLoop hav _ 0 1 (wayStep hav _ ⟨3, 27, 81⟩ ⟨1, 26, 80⟩) = _
    rw [s3]
    rfl
  exact (buildFrom_cons_some hav (true, _) _ _ _ w1).trans
    ((buildFrom_cons_some hav (false, [⟨7, 0, 0⟩]) _ _ _ rfl).trans
      ((buildFrom_cons_some hav (true, _) _ _ _ w3).trans rfl))

/-! ## Claims about the frame, the harness and the visited counts -/

/-- C17. For every graph the builder produces from the empty graph (with the source's
`haversine`) and every start and goal among the keys of the adjacency map, `runExperiment`
terminates (for every fuel of at least `fuelBound`) and leaves the adjacency map and the
coordinate map exactly as they were. -/
theorem runExperiment_frame (ws : List (Bool × List (NodeRef ℝ))) (g : Graph ℝ)
    (hbuilt : buildFrom haversine ws emptyGraph = some g) (start goal : Int)
    (hs : (UMap.find g.adj start).isSome = true) (hg : (UMap.find g.adj goal).isSome = true)
    (n : Nat) (hn : fuelBound g.adj start ≤ n) :
    ∃ r, runExperiment haversine g start goal n = some (r, g) := by
  have hcov := covered_built haversine ws g hbuilt
  obtain ⟨c1, c2, _⟩ := covered_spec g hcov
  have hnn := nonnegWeights_built haversine haversine_nonneg ws g hbuilt
  obtain ⟨d, a, hd, ha, hrun, _, _, _, _⟩ :=
    runExperiment_terminates haversine g start goal hnn n hn
  have hK : ∀ x ∈ [((0 : ℝ), start)], (UMap.find g.adj x.2).isSome = true := by
    intro x hx
    simp only [List.mem_singleton] at hx
    rw [hx]
    exact hs
  have hdadj : d.adj = g.adj :=
    dijkstraLoop_frame goal n (dijkstraInit g start) d (pqDom_init start) hK hcov.2 hd
  rw [hdadj] at ha
  obtain ⟨ha1, ha2⟩ := astarLoop_frame haversine goal n (astarInit g.adj g.node_coords start) a
    (pqDom_init start) hK hcov.2 c2 (c1 goal hg) ha
  have hga : (⟨a.adj, a.node_coords⟩ : Graph ℝ) = g := by
    rw [ha1, ha2]
    rfl
  exact ⟨⟨(UMap.find a.dist goal).getD 0, d.visited, a.visited⟩, by rw [hrun, hga]⟩

/-- C17 at a concrete input: the graph built from `sampleWays`, start `1`, goal `3`. -/
theorem runExperiment_frame_witness :
    buildFrom haversine (sampleWays ℝ) emptyGraph = some (sampleGraph haversine) ∧
      ∃ r, runExperiment haversine (sampleGraph haversine) 1 3
          (fuelBound (sampleGraph haversine).adj 1) = some (r, sampleGraph haversine) :=
  ⟨sampleGraph_built haversine,
    runExperiment_frame (sampleWays ℝ) (sampleGraph haversine) (sampleGraph_built haversine) 1 3
      (by simp [sampleGraph, UMap.find]) (by simp [sampleGraph, UMap.find]) _ (le_refl _)⟩


/-! ## The harness loop -/

/-- What a finished run of the harness loop has written: the records present at entry followed
by one accepted record per remaining trial index, in increasing order of the index. -/
theorem harnessLoop_finished {α : Type} [LinearOrderedCommRing α] (hav : Point α → Point α → α)
    (rng : Nat → Nat) (ids : List Int) (fuelR : Nat) :
    ∀ (n i k : Nat) (g : Graph α) (records out : List (Nat × TrialResult α)), i ≤ 1000 →
      harnessLoop hav rng ids fuelR n i k g records = Outcome.finished out →
      ∃ more, out = records ++ more ∧ more.map Prod.fst = List.range' i (1000 - i) ∧
        ∀ r ∈ more, accept r.2 = true ∧ ∃ (j : Nat) (start goal : Int) (g0 g1 : Graph α),
          ids[rng j % ids.length]? = some start ∧ ids[rng (j + 1) % ids.length]? = some goal ∧
          runExperiment hav g0 start goal fuelR = some (r.2, g1) := by
  intro n
  induction n with
  | zero =>
    intro i k g records out _ h
    simp [harnessLoop] at h
  | succ n ih =>
    intro i k g records out hi h
    rw [harnessLoop] at h
    by_cases hlt : i < 1000
    · rw [if_pos hlt] at h
      by_cases hz : ids.length = 0
      · rw [if_pos hz] at h
        cases h
      · rw [if_neg hz] at h
        cases hs : ids[rng k % ids.length]? with
        | none => simp [hs] at h
        | some start =>
          cases hg : ids[rng (k + 1) % ids.length]? with
          | none => simp [hs, hg] at h
          | some goal =>
            cases hrun : runExperiment hav g start goal fuelR with
            | none => simp [hs, hg, hrun] at h
            | some rg =>
              obtain ⟨res, g1⟩ := rg
              simp only [hs, hg, hrun] at h
              by_cases hacc : accept res = true
              · rw [if_pos hacc] at h
                obtain ⟨more, hout, hidx, hall⟩ := ih (i + 1) (k + 2) g1 _ out (by omega) h
                refine ⟨(i, res) :: more, ?_, ?_, ?_⟩
                · rw [hout, List.append_assoc]
                  rfl
                · have hsub : 1000 - i = (1000 - (i + 1)) + 1 := by omega
                  rw [hsub, List.range'_succ, List.map_cons, hidx]
                · intro r hr
                  rcases List.mem_cons.1 hr with hr | hr
                  · rw [hr]
                    exact ⟨hacc, k, start, goal, g, g1, hs, hg, hrun⟩
                  · exact hall r hr
              · rw [if_neg hacc] at h
                exact ih i (k + 2) g1 records out hi h
    · rw [if_neg hlt] at h
      have hi0 : 1000 - i = 0 := by omega
      refine ⟨[], ?_, ?_, ?_⟩
      · cases h
        simp
      · rw [hi0]
        rfl
      · intro r hr
        cases hr

/-- A run of the harness loop in which every draw is the same accepted pair and the maps stay as
they are finishes with one record per remaining trial index. -/
theorem harnessLoop_all_accepted {α : Type} [LinearOrderedCommRing α]
    (hav : Point α → Point α → α) (rng : Nat → Nat) (ids : List Int) (fuelR : Nat)
    (g : Graph α) (start goal : Int) (res : TrialResult α) (hne : ids.length ≠ 0)
    (hdraw : ∀ j, ids[rng (2 * j) % ids.length]? = some start ∧
      ids[rng (2 * j + 1) % ids.length]? = some goal)
    (hrun : runExperiment hav g start goal fuelR = some (res, g)) (hacc : accept res = true) :
    ∀ (n i j : Nat) (records : List (Nat × TrialResult α)), i ≤ 1000 → 1000 - i < n →
      harnessLoop hav rng ids fuelR n i (2 * j) g records =
        Outcome.finished (records ++ (List.range' i (1000 - i)).map (fun t => (t, res))) := by
  intro n
  induction n with
  | zero =>
    intro i j records _ h
    omega
  | succ n ih =>
    intro i j records hi hn
    rw [harnessLoop]
    by_cases hlt : i < 1000
    · rw [if_pos hlt, if_neg hne]
      simp only [(hdraw j).1, (hdraw j).2, hrun]
      rw [if_pos hacc]
      have hk : 2 * j + 2 = 2 * (j + 1) := by ring
      rw [hk, ih (i + 1) (j + 1) _ (by omega) (by omega)]
      have hsub : 1000 - i = (1000 - (i + 1)) + 1 := by omega
      rw [hsub, List.range'_succ, List.map_cons, List.append_assoc]
      rfl
    · rw [if_neg hlt]
      have hi0 : 1000 - i = 0 := by omega
      rw [hi0]
      simp

/-- C18. Whenever the harness loop finishes, it has written exactly 1000 records, their trial
indices are `0, 1, ..., 999` in this order (each once), and every record is the result of
`runExperiment` on a drawn pair with `distance > 0` and `dijkstra_visited > 1`. A draw whose
result fails this test appends no record and keeps the trial index: the loop goes on from the
same index with the same records. -/
theorem harness_writes_thousand_accepted {α : Type} [LinearOrderedCommRing α]
    (hav : Point α → Point α → α) (rng : Nat → Nat) (g : Graph α) (fuelR fuel : Nat)
    (out : List (Nat × TrialResult α))
    (h : harness hav rng g fuelR fuel = Outcome.finished out) :
    out.length = 1000 ∧ out.map Prod.fst = List.range 1000 ∧ (out.map Prod.fst).Nodup ∧
      (∀ r ∈ out, (0 < r.2.distance ∧ 1 < r.2.dijkstra_visited) ∧
        ∃ (j : Nat) (start goal : Int) (g0 g1 : Graph α),
          (allNodeIds g)[rng j % (allNodeIds g).length]? = some start ∧
          (allNodeIds g)[rng (j + 1) % (allNodeIds g).length]? = some goal ∧
          runExperiment hav g0 start goal fuelR = some (r.2, g1)) ∧
      ∀ (m i k : Nat) (g0 g1 : Graph α) (records : List (Nat × TrialResult α))
        (start goal : Int) (res : TrialResult α), i < 1000 →
        (allNodeIds g)[rng k % (allNodeIds g).length]? = some start →
        (allNodeIds g)[rng (k + 1) % (allNodeIds g).length]? = some goal →
        runExperiment hav g0 start goal fuelR = some (res, g1) →
        ¬ (0 < res.distance ∧ 1 < res.dijkstra_visited) →
        harnessLoop hav rng (allNodeIds g) fuelR (m + 1) i k g0 records =
          harnessLoop hav rng (allNodeIds g) fuelR m i (k + 2) g1 records := by
  obtain ⟨more, hout, hidx, hall⟩ :=
    harnessLoop_finished hav rng (allNodeIds g) fuelR fuel 0 0 g [] out (Nat.zero_le _) h
  rw [List.nil_append] at hout
  rw [hout]
  have hr : more.map Prod.fst = List.range 1000 := by
    rw [hidx, List.range_eq_range']
  refine ⟨?_, hr, ?_, ?_, ?_⟩
  · have hl := congrArg List.length hr
    rw [List.length_map, List.length_range] at hl
    exact hl
  · rw [hr]
    exact List.nodup_range 1000
  · intro r hrm
    obtain ⟨hacc, hdraw⟩ := hall r hrm
    refine ⟨?_, hdraw⟩
    simpa [accept] using hacc
  · intro m i k g0 g1 records start goal res hi hs hg hrun hrej
    refine harnessLoop_reject hav rng (allNodeIds g) fuelR m i k g0 g1 records start goal res hi
      hs hg hrun ?_
    rw [Bool.eq_false_iff]
    intro hacc
    apply hrej
    simpa [accept] using hacc

/-- C18 at a concrete input: on `twoIslands` with a generator that alternates between `0` and
`1`, every draw is the pair `(1, 2)`, whose record is accepted, and the loop finishes. -/
theorem harness_writes_thousand_accepted_witness :
    harness (fun _ _ => 0) (fun k => k % 2) (twoIslands ℤ) 10 1001 =
        Outcome.finished ((List.range' 0 1000).map (fun t => (t, ⟨1, 2, 2⟩))) ∧
      ((List.range' 0 1000).map
        (fun t => ((t, ⟨1, 2, 2⟩) : Nat × TrialResult ℤ))).length = 1000 ∧
      ((List.range' 0 1000).map
        (fun t => ((t, ⟨1, 2, 2⟩) : Nat × TrialResult ℤ))).map Prod.fst = List.range 1000 := by
  have h : harness (fun _ _ => 0) (fun k => k % 2) (twoIslands ℤ) 10 1001 =
      Outcome.finished ((List.range' 0 1000).map (fun t => (t, ⟨1, 2, 2⟩))) :=
    harnessLoop_all_accepted (fun _ _ => 0) (fun k => k % 2) (allNodeIds (twoIslands ℤ)) 10
      (twoIslands ℤ) 1 2 ⟨1, 2, 2⟩ (by decide)
      (fun j => by
        have h0 : 2 * j % 2 = 0 := by omega
        have h1 : (2 * j + 1) % 2 = 1 := by omega
        simp only [h0, h1]
        exact ⟨rfl, rfl⟩)
      (by rfl) (by decide) 1001 0 0 [] (by omega) (by omega)
  have hc := harness_writes_thousand_accepted _ _ _ _ _ _ h
  exact ⟨h, hc.1, hc.2.1⟩

/-! ## The visited counts -/

/-- The pop counter of Dijkstra's loop grows by one for every dequeued node. -/
theorem dijkstraLoop_visited_pops {α : Type} [LinearOrderedCommRing α] (goal : Int) :
    ∀ (n : Nat) (s d : DState α), dijkstraLoop goal n s = some d →
      d.visited = s.visited + (dijkstraPops goal n s).length := by
  intro n
  induction n with
  | zero =>
    intro s d h
    simp [dijkstraLoop] at h
  | succ n ih =>
    intro s d h
    rw [dijkstraLoop] at h
    rw [dijkstraPops]
    cases ht : pqTop s.pq with
    | none =>
      simp only [ht] at h
      cases h
      simp
    | some t =>
      simp only [ht] at h ⊢
      by_cases hu : t.2 = goal
      · rw [if_pos hu] at h
        rw [if_pos hu]
        cases h
        simp
      · rw [if_neg hu] at h
        rw [if_neg hu, ih _ d h]
        simp only [List.length_cons]
        omega

theorem shortcutGraph_nonneg : NonnegWeights (shortcutGraph ℝ).adj := by
  apply nonneg_of_allEdges
  simp [allEdges, shortcutGraph]

theorem shortcutGraph_reach : Reachable (shortcutGraph ℝ).adj 1 4 :=
  ⟨[⟨2, 5⟩, ⟨4, 10⟩], by simp [IsWalk, edgesOf, shortcutGraph, UMap.find]⟩

theorem shortcutGraph_heur :
    heur haversine (shortcutGraph ℝ).node_coords 4 = fun _ => 0 := by
  funext v
  have hc : ∀ w, coordOf (shortcutGraph ℝ).node_coords w = ⟨0, 0⟩ := by
    intro w
    simp only [coordOf, shortcutGraph, UMap.find]
    split_ifs <;> rfl
  rw [heur, hc v, hc 4, haversine_self]

theorem shortcutGraph_core :
    ∃ r, coreLoop (edgesOf (shortcutGraph ℝ).adj) (fun _ => 0) 4 5 (coreInit 1) = some r ∧
      r.visited = 5 ∧ UMap.find r.dist 4 = some 12 := by
  norm_num [coreLoop, coreInit, relaxC, pqTop, pqPop, pairLt, edgesOf, shortcutGraph, UMap.find,
    UMap.assign]

theorem shortcutGraph_pops :
    dijkstraPops 4 5 (dijkstraInit (shortcutGraph ℝ) 1) = [1, 3, 2, 2, 4] := by
  norm_num [dijkstraPops, dijkstraInit, relaxD, pqTop, pqPop, pairLt, shortcutGraph, UMap.find,
    UMap.index, UMap.assign]

/-- C20. The visited counts are pop counts, not counts of distinct nodes. On the graph with nodes
`A = 1`, `B = 2`, `C = 3`, `G = 4` and undirected edges `A-B` 5, `A-C` 1, `C-B` 1, `B-G` 10 (all
weights non-negative, `G` reachable from `A`), Dijkstra's loop for start `A` and goal `G`
dequeues the nodes `A, C, B, B, G`: node `B` is dequeued twice. `runExperiment(A, G)` returns
`dijkstra_visited = 5`, the number of dequeued entries, which exceeds the four nodes of the
graph. -/
theorem visited_counts_are_pop_counts :
    NonnegWeights (shortcutGraph ℝ).adj ∧ Reachable (shortcutGraph ℝ).adj 1 4 ∧
      allNodeIds (shortcutGraph ℝ) = [1, 2, 3, 4] ∧
      dijkstraPops 4 5 (dijkstraInit (shortcutGraph ℝ) 1) = [1, 3, 2, 2, 4] ∧
      List.count 2 (dijkstraPops 4 5 (dijkstraInit (shortcutGraph ℝ) 1)) = 2 ∧
      ∃ r g', runExperiment haversine (shortcutGraph ℝ) 1 4 5 = some (r, g') ∧
        r.distance = 12 ∧ r.dijkstra_visited = 5 ∧
        r.dijkstra_visited = (dijkstraPops 4 5 (dijkstraInit (shortcutGraph ℝ) 1)).length ∧
        (allNodeIds (shortcutGraph ℝ)).length < r.dijkstra_visited := by
  obtain ⟨rd, hrd, hv, hdist⟩ := shortcutGraph_core
  have hra : coreLoop (edgesOf (shortcutGraph ℝ).adj)
      (heur haversine (shortcutGraph ℝ).node_coords 4) 4 5 (coreInit 1) = some rd := by
    rw [shortcutGraph_heur]
    exact hrd
  obtain ⟨d, a, hd, _, hdc, _, _, _, hrun⟩ :=
    runExperiment_of_core haversine (shortcutGraph ℝ) 1 4 5 rd rd hrd hra
  have hpops := dijkstraLoop_visited_pops 4 5 _ d hd
  have hdv : d.visited = rd.visited := by
    rw [← hdc]
    rfl
  refine ⟨shortcutGraph_nonneg, shortcutGraph_reach, rfl, shortcutGraph_pops, ?_, _, _, hrun,
    ?_, hv, ?_, ?_⟩
  · rw [shortcutGraph_pops]
    rfl
  · show (UMap.find rd.dist 4).getD 0 = 12
    rw [hdist]
    rfl
  · show rd.visited = _
    rw [← hdv, hpops]
    simp [dijkstraInit]
  · show (allNodeIds (shortcutGraph ℝ)).length < rd.visited
    rw [hv]
    simp [allNodeIds, shortcutGraph]

/-! ## The nodes the two loops dequeue -/

/-- The pop counter of the A* loop grows by one for every dequeued node. -/
theorem astarLoop_visited_pops {α : Type} [LinearOrderedCommRing α]
    (hav : Point α → Point α → α) (goal : Int) :
    ∀ (n : Nat) (s a : AState α), astarLoop hav goal n s = some a →
      a.visited = s.visited + (astarPops hav goal n s).length := by
  intro n
  induction n with
  | zero =>
    intro s a h
    simp [astarLoop] at h
  | succ n ih =>
    intro s a h
    rw [astarLoop] at h
    rw [astarPops]
    cases ht : pqTop s.pq with
    | none =>
      simp only [ht] at h
      cases h
      simp
    | some t =>
      simp only [ht] at h ⊢
      by_cases hu : t.2 = goal
      · rw [if_pos hu] at h
        rw [if_pos hu]
        cases h
        simp
      · rw [if_neg hu] at h
        rw [if_neg hu, ih _ a h]
        simp only [List.length_cons]
        omega

/-- Dijkstra's loop dequeues the nodes its common form dequeues. -/
theorem dijkstraPops_core {α : Type} [LinearOrderedCommRing α] (goal : Int) (n : Nat)
    (s : DState α) (hd : PQDom s.pq s.dist) :
    dijkstraPops goal n s = corePops (edgesOf s.adj) (fun _ => 0) goal n s.core := by
  induction n generalizing s with
  | zero => rfl
  | succ n ih =>
    cases ht : pqTop s.pq with
    | none => simp [dijkstraPops, corePops, DState.core, ht]
    | some t =>
      by_cases hg : t.2 = goal
      · simp [dijkstraPops, corePops, DState.core, ht, hg]
      · have htd : (UMap.find s.dist t.2).isSome = true := hd t (pqTop_mem s.pq ht)
        have h1 : dijkstraPops goal (n + 1) s
            = t.2 :: dijkstraPops goal n ⟨(UMap.index [] s.adj t.2).2,
                (relaxC (fun _ => 0) t.2 (edgesOf s.adj t.2) (pqPop s.pq, s.dist)).1,
                (relaxC (fun _ => 0) t.2 (edgesOf s.adj t.2) (pqPop s.pq, s.dist)).2,
                s.visited + 1⟩ := by
          simp [dijkstraPops, ht, hg, relaxD_core _ _ _ _ htd, index_adj_fst]
        have h2 : corePops (edgesOf s.adj) (fun _ => (0 : α)) goal (n + 1) s.core
            = t.2 :: corePops (edgesOf s.adj) (fun _ => 0) goal n
                ⟨(relaxC (fun _ => 0) t.2 (edgesOf s.adj t.2) (pqPop s.pq, s.dist)).1,
                 (relaxC (fun _ => 0) t.2 (edgesOf s.adj t.2) (pqPop s.pq, s.dist)).2,
                 s.visited + 1⟩ := by
          simp [corePops, DState.core, ht, hg]
        rw [h1, h2]
        have hd' := relaxC_pqDom (fun _ => (0 : α)) t.2 (edgesOf s.adj t.2) (pqPop s.pq) s.dist
          (pqDom_pop s.pq s.dist hd)
        have i1 := ih ⟨(UMap.index [] s.adj t.2).2,
                (relaxC (fun _ => 0) t.2 (edgesOf s.adj t.2) (pqPop s.pq, s.dist)).1,
                (relaxC (fun _ => 0) t.2 (edgesOf s.adj t.2) (pqPop s.pq, s.dist)).2,
                s.visited + 1⟩ hd'
        have hE : edgesOf (UMap.index [] s.adj t.2).2 = edgesOf s.adj := by
          funext v
          exact edgesOf_index s.adj t.2 v
        simp only [hE] at i1
        rw [i1]
        rfl

/-- The A* loop dequeues the nodes its common form dequeues. -/
theorem astarPops_core {α : Type} [LinearOrderedCommRing α] (hav : Point α → Point α → α)
    (goal : Int) (n : Nat) (s : AState α) (hd : PQDom s.pq s.dist) :
    astarPops hav goal n s
      = corePops (edgesOf s.adj) (heur hav s.node_coords goal) goal n s.core := by
  induction n generalizing s with
  | zero => rfl
  | succ n ih =>
    cases ht : pqTop s.pq with
    | none => simp [astarPops, corePops, AState.core, ht]
    | some t =>
      by_cases hg : t.2 = goal
      · simp [astarPops, corePops, AState.core, ht, hg]
      · have htd : (UMap.find s.dist t.2).isSome = true := hd t (pqTop_mem s.pq ht)
        obtain ⟨r1, r2⟩ := relaxA_core hav goal t.2 (edgesOf s.adj t.2) (pqPop s.pq) s.dist
          s.node_coords htd
        have h1 : astarPops hav goal (n + 1) s
            = t.2 :: astarPops hav goal n ⟨(UMap.index [] s.adj t.2).2,
                (relaxA hav goal t.2 (edgesOf s.adj t.2) ⟨pqPop s.pq, s.dist, s.node_coords⟩).node_coords,
                (relaxA hav goal t.2 (edgesOf s.adj t.2) ⟨pqPop s.pq, s.dist, s.node_coords⟩).pq,
                (relaxA hav goal t.2 (edgesOf s.adj t.2) ⟨pqPop s.pq, s.dist, s.node_coords⟩).dist,
                s.visited + 1⟩ := by
          simp [astarPops, ht, hg, index_adj_fst]
        have h2 : corePops (edgesOf s.adj) (heur hav s.node_coords goal) goal (n + 1) s.core
            = t.2 :: corePops (edgesOf s.adj) (heur hav s.node_coords goal) goal n
                ⟨(relaxC (heur hav s.node_coords goal) t.2 (edgesOf s.adj t.2)
                    (pqPop s.pq, s.dist)).1,
                 (relaxC (heur hav s.node_coords goal) t.2 (edgesOf s.adj t.2)
                    (pqPop s.pq, s.dist)).2,
                 s.visited + 1⟩ := by
          simp [corePops, AState.core, ht, hg]
        rw [h1, h2]
        have hd' := relaxC_pqDom (heur hav s.node_coords goal) t.2 (edgesOf s.adj t.2)
          (pqPop s.pq) s.dist (pqDom_pop s.pq s.dist hd)
        rw [← r1] at hd'
        have i1 := ih ⟨(UMap.index [] s.adj t.2).2,
                (relaxA hav goal t.2 (edgesOf s.adj t.2) ⟨pqPop s.pq, s.dist, s.node_coords⟩).node_coords,
                (relaxA hav goal t.2 (edgesOf s.adj t.2) ⟨pqPop s.pq, s.dist, s.node_coords⟩).pq,
                (relaxA hav goal t.2 (edgesOf s.adj t.2) ⟨pqPop s.pq, s.dist, s.node_coords⟩).dist,
                s.visited + 1⟩ hd'
        have hE : edgesOf (UMap.index [] s.adj t.2).2 = edgesOf s.adj := by
          funext v
          exact edgesOf_index s.adj t.2 v
        simp only [hE, heur_congr hav s.node_coords _ goal r2] at i1
        rw [i1, ← r1]
        rfl

/-! ## What the A* loop dequeues lies within the distance of the goal -/

theorem goalOpen_init {α : Type} [LinearOrderedCommRing α] (h : Int → α) (start goal : Int) :
    GoalOpen h goal [((0 : α), start)] (UMap.assign [] start 0) := by
  intro d hd
  rw [UMap.find_assign] at hd
  by_cases hsg : start = goal
  · exact ⟨0, by simp [hsg], Or.inr rfl⟩
  · simp [hsg, UMap.find] at hd

theorem goalOpen_pop {α : Type} [LinearOrderedCommRing α] {h : Int → α} {goal : Int}
    {pq : PQ α} {dist : UMap α} (hG : GoalOpen h goal pq dist) {t : α × Int}
    (ht : pqTop pq = some t) (hg : t.2 ≠ goal) : GoalOpen h goal (pqPop pq) dist := by
  intro d hd
  obtain ⟨f, hf, hb⟩ := hG d hd
  refine ⟨f, ?_, hb⟩
  rw [pqPop_of_top pq ht]
  refine (List.mem_erase_of_ne ?_).2 hf
  intro heq
  exact hg (by rw [← heq])

theorem goalOpen_relaxC {α : Type} [LinearOrderedCommRing α] (h : Int → α) (goal u : Int)
    (es : List (Edge α)) (pq : PQ α) (dist : UMap α) (hG : GoalOpen h goal pq dist) :
    GoalOpen h goal (relaxC h u es (pq, dist)).1 (relaxC h u es (pq, dist)).2 := by
  refine relaxC_induct h u (fun q d => GoalOpen h goal q d) (fun r => GoalOpen h goal r.1 r.2)
    ?_ ?_ es pq dist hG
  · intro pq dist hP
    exact hP
  · intro e pq dist hP _ d hd
    rw [UMap.find_assign] at hd
    by_cases heg : e.to_ = goal
    · rw [if_pos heg] at hd
      simp only [Option.some.injEq] at hd
      refine ⟨(UMap.find dist u).getD 0 + e.weight + h e.to_, ?_, Or.inl ?_⟩
      · rw [heg]
        exact List.mem_cons_self _ _
      · rw [heg, hd]
    · rw [if_neg heg] at hd
      exact isOpen_cons _ (hP d hd)

/-- The priority at the top of the queue is at most the weight of every walk from the start to
the goal, for an admissible heuristic. -/
theorem top_le_walk {α : Type} [LinearOrderedCommRing α] {E : Int → List (Edge α)}
    {h : Int → α} {start goal : Int} {pq : PQ α} {dist : UMap α}
    (hnn : ∀ u, ∀ e ∈ E u, 0 ≤ e.weight)
    (hadm : ∀ v p, IsWalk E v p goal → h v ≤ weightOf p)
    (hI : Inv E h start pq dist) (hG : GoalOpen h goal pq dist) {t : α × Int}
    (ht : pqTop pq = some t) (p : List (Edge α)) (hp : IsWalk E start p goal) :
    t.1 ≤ weightOf p := by
  have hW : 0 ≤ weightOf p := weightOf_nonneg hnn hp
  have hg0 : h goal ≤ 0 := by
    have := hadm goal [] rfl
    simpa [weightOf] using this
  have key : ∀ f x, (f, x) ∈ pq → f ≤ weightOf p → t.1 ≤ weightOf p := by
    intro f x hf hle
    exact le_trans (pqTop_le pq ht (f, x) hf).fst_le hle
  rcases chase hI.oc p start 0 goal hI.start_zero hp with
    ⟨d', h1, h2⟩ | ⟨x, dx, wq, r, h3, h4, h5, h6, f, hf, hb⟩
  · obtain ⟨f, hf, hb⟩ := hG d' h1
    refine key f goal hf ?_
    rcases hb with hb | hb
    · linarith
    · rw [hb]
      exact hW
  · refine key f x hf ?_
    rcases hb with hb | hb
    · have := hadm x r h5
      linarith
    · rw [hb]
      exact hW

/-- Every node the search loop dequeues is reached by a walk from the start whose weight plus
the heuristic of the node is at most the weight of every walk from the start to the goal. -/
theorem corePops_bound {α : Type} [LinearOrderedCommRing α] {E : Int → List (Edge α)}
    {h : Int → α} {start : Int} (nodes : List Int) (vals : List α) (goal : Int)
    (hnn : ∀ u, ∀ e ∈ E u, 0 ≤ e.weight) (hnodes : ∀ u, ∀ e ∈ E u, e.to_ ∈ nodes)
    (hvals : ∀ p v, IsWalk E start p v → (nodesOf start p).Nodup → weightOf p ∈ vals)
    (hadm : ∀ v p, IsWalk E v p goal → h v ≤ weightOf p)
    (n : Nat) (s : CState α) (hI : Inv E h start s.pq s.dist)
    (hG : GoalOpen h goal s.pq s.dist) :
    ∀ u ∈ corePops E h goal n s, ∃ q, IsWalk E start q u ∧
      ∀ p, IsWalk E start p goal → weightOf q + h u ≤ weightOf p := by
  induction n generalizing s with
  | zero =>
    intro u hu
    simp [corePops] at hu
  | succ n ih =>
    cases ht : pqTop s.pq with
    | none =>
      intro u hu
      simp [corePops, ht] at hu
    | some t =>
      have htop : ∃ q, IsWalk E start q t.2 ∧
          ∀ p, IsWalk E start p goal → weightOf q + h t.2 ≤ weightOf p := by
        obtain ⟨d, hd1, hd2⟩ := hI.ent t (pqTop_mem s.pq ht)
        obtain ⟨q, hq, _, hw, _⟩ := hI.wit t.2 d hd1
        rcases hd2 with hd2 | ⟨hd2, _⟩
        · refine ⟨q, hq, ?_⟩
          intro p hp
          have := top_le_walk hnn hadm hI hG ht p hp
          rw [hw]
          linarith
        · refine ⟨[], hd2.symm, ?_⟩
          intro p hp
          have := hadm start p hp
          rw [hd2]
          simpa [weightOf] using this
      by_cases hg : t.2 = goal
      · intro u hu
        have hu' : u = t.2 := by simpa [corePops, ht, hg] using hu
        rw [hu']
        exact htop
      · have hstep : corePops E h goal (n + 1) s = t.2 :: corePops E h goal n
            ⟨(relaxC h t.2 (E t.2) (pqPop s.pq, s.dist)).1,
             (relaxC h t.2 (E t.2) (pqPop s.pq, s.dist)).2, s.visited + 1⟩ := by
          simp [corePops, ht, hg]
        obtain ⟨du, hJ⟩ := rinv_of_inv nodes vals hI ht
        obtain ⟨hI', _⟩ := relaxC_inv hnn hnodes hvals hJ
        have hG' := goalOpen_relaxC h goal t.2 (E t.2) (pqPop s.pq) s.dist
          (goalOpen_pop hG ht hg)
        intro u hu
        rw [hstep] at hu
        rcases List.mem_cons.1 hu with hu | hu
        · rw [hu]
          exact htop
        · exact ih ⟨(relaxC h t.2 (E t.2) (pqPop s.pq, s.dist)).1,
             (relaxC h t.2 (E t.2) (pqPop s.pq, s.dist)).2, s.visited + 1⟩ hI' hG' u hu

/-! ## Dijkstra's loop dequeues every node that is closer than the goal -/

theorem queued_init {α : Type} [LinearOrderedCommRing α] (start : Int) :
    Queued [((0 : α), start)] (UMap.assign [] start 0) [] := by
  intro v d hd
  rw [UMap.find_assign] at hd
  by_cases hsv : start = v
  · rw [if_pos hsv] at hd
    simp only [Option.some.injEq] at hd
    left
    rw [← hd, ← hsv]
    exact List.mem_singleton_self _
  · simp [hsv, UMap.find] at hd

theorem queued_pop {α : Type} [LinearOrderedCommRing α] {pq : PQ α} {dist : UMap α}
    {popped : List Int} (hQ : Queued pq dist popped) {t : α × Int} (ht : pqTop pq = some t) :
    Queued (pqPop pq) dist (popped ++ [t.2]) := by
  intro v d hd
  rcases hQ v d hd with hq | hq
  · by_cases heq : (d, v) = t
    · right
      rw [← heq]
      simp
    · left
      rw [pqPop_of_top pq ht]
      exact (List.mem_erase_of_ne heq).2 hq
  · right
    exact List.mem_append_left _ hq

theorem queued_relaxC {α : Type} [LinearOrderedCommRing α] (u : Int) (es : List (Edge α))
    (pq : PQ α) (dist : UMap α) (popped : List Int) (hQ : Queued pq dist popped) :
    Queued (relaxC (fun _ => 0) u es (pq, dist)).1 (relaxC (fun _ => 0) u es (pq, dist)).2
      popped := by
  refine relaxC_induct (fun _ => (0 : α)) u (fun q d => Queued q d popped)
    (fun r => Queued r.1 r.2 popped) ?_ ?_ es pq dist hQ
  · intro pq dist hP
    exact hP
  · intro e pq dist hP _ v d hd
    rw [UMap.find_assign] at hd
    by_cases hev : e.to_ = v
    · rw [if_pos hev] at hd
      simp only [Option.some.injEq] at hd
      left
      rw [← hd, ← hev]
      simp
    · rw [if_neg hev] at hd
      exact (hP v d hd).imp (List.mem_cons_of_mem _) id

/-- At either exit of Dijkstra's loop, a node reached by a walk lighter than every walk to the
goal has been dequeued. -/
theorem popped_of_light {α : Type} [LinearOrderedCommRing α] {E : Int → List (Edge α)}
    {start goal : Int} {pq : PQ α} {dist : UMap α} {popped : List Int}
    (hnn : ∀ u, ∀ e ∈ E u, 0 ≤ e.weight)
    (hI : Inv E (fun _ => 0) start pq dist) (hQ : Queued pq dist popped)
    (hexit : pq = [] ∨ ∃ t, pqTop pq = some t ∧ t.2 = goal)
    (u : Int) (q : List (Edge α)) (hq : IsWalk E start q u)
    (hlight : ∀ p, IsWalk E start p goal → weightOf q < weightOf p) : u ∈ popped := by
  have hWq : 0 ≤ weightOf q := weightOf_nonneg hnn hq
  have noLight : ∀ f x, (f, x) ∈ pq → f ≤ weightOf q → False := by
    intro f x hf hle
    rcases hexit with hnil | ⟨t, ht, htg⟩
    · rw [hnil] at hf
      exact absurd hf (List.not_mem_nil _)
    · have htf : t.1 ≤ f := (pqTop_le pq ht (f, x) hf).fst_le
      obtain ⟨d, hd1, hd2⟩ := hI.ent t (pqTop_mem pq ht)
      rw [htg] at hd1 hd2
      rcases hd2 with hd2 | ⟨hd2, _⟩
      · have hd3 : d + 0 ≤ t.1 := hd2
        obtain ⟨p0, hp0, _, hw0, _⟩ := hI.wit goal d hd1
        have := hlight p0 hp0
        linarith
      · have := hlight [] hd2.symm
        simp only [weightOf, List.map_nil, List.sum_nil] at this
        simp only [weightOf] at hWq
        linarith
  rcases chase hI.oc q start 0 u hI.start_zero hq with
    ⟨d', h1, h2⟩ | ⟨x, dx, wq, r, h3, h4, h5, h6, f, hf, hb⟩
  · rcases hQ u d' h1 with hin | hin
    · exact absurd (by linarith) (noLight d' u hin)
    · exact hin
  · exfalso
    have hWr : 0 ≤ weightOf r := weightOf_nonneg hnn h5
    refine noLight f x hf ?_
    rcases hb with hb | hb
    · have hb' : f ≤ dx + 0 := hb
      linarith
    · rw [hb]
      exact hWq

/-- When Dijkstra's loop ends with an empty queue, a goal that can be reached has been
dequeued. -/
theorem popped_goal {α : Type} [LinearOrderedCommRing α] {E : Int → List (Edge α)}
    {start goal : Int} {dist : UMap α} {popped : List Int}
    (hI : Inv E (fun _ => 0) start [] dist) (hQ : Queued [] dist popped)
    (p : List (Edge α)) (hp : IsWalk E start p goal) : goal ∈ popped := by
  rcases chase hI.oc p start 0 goal hI.start_zero hp with
    ⟨d', h1, _⟩ | ⟨x, dx, wq, r, _, _, _, _, f, hf, _⟩
  · rcases hQ goal d' h1 with hin | hin
    · exact absurd hin (List.not_mem_nil _)
    · exact hin
  · exact absurd hf (List.not_mem_nil _)

/-- Dijkstra's loop dequeues every node reached by a walk lighter than every walk to the goal,
and the goal itself when it can be reached. -/
theorem corePops_complete {α : Type} [LinearOrderedCommRing α] {E : Int → List (Edge α)}
    {start : Int} (nodes : List Int) (vals : List α) (goal : Int)
    (hnn : ∀ u, ∀ e ∈ E u, 0 ≤ e.weight) (hnodes : ∀ u, ∀ e ∈ E u, e.to_ ∈ nodes)
    (hvals : ∀ p v, IsWalk E start p v → (nodesOf start p).Nodup → weightOf p ∈ vals)
    (n : Nat) (s : CState α) (popped : List Int) (r : CState α)
    (hI : Inv E (fun _ => 0) start s.pq s.dist) (hQ : Queued s.pq s.dist popped)
    (hrun : coreLoop E (fun _ => 0) goal n s = some r) :
    (∀ u q, IsWalk E start q u → (∀ p, IsWalk E start p goal → weightOf q < weightOf p) →
      u ∈ popped ++ corePops E (fun _ => 0) goal n s) ∧
    (∀ p, IsWalk E start p goal → goal ∈ popped ++ corePops E (fun _ => 0) goal n s) := by
  induction n generalizing s popped with
  | zero => simp [coreLoop] at hrun
  | succ n ih =>
    cases ht : pqTop s.pq with
    | none =>
      have hnil : s.pq = [] := (pqTop_eq_none s.pq).1 ht
      refine ⟨?_, ?_⟩
      · intro u q hq hlight
        exact List.mem_append_left _ (popped_of_light hnn hI hQ (Or.inl hnil) u q hq hlight)
      · intro p hp
        rw [hnil] at hI hQ
        exact List.mem_append_left _ (popped_goal hI hQ p hp)
    | some t =>
      by_cases hg : t.2 = goal
      · refine ⟨?_, ?_⟩
        · intro u q hq hlight
          exact List.mem_append_left _
            (popped_of_light hnn hI hQ (Or.inr ⟨t, ht, hg⟩) u q hq hlight)
        · intro p _
          refine List.mem_append_right _ ?_
          simp [corePops, ht, hg]
      · have hstepL : coreLoop E (fun _ => (0 : α)) goal (n + 1) s
            = coreLoop E (fun _ => 0) goal n
            ⟨(relaxC (fun _ => 0) t.2 (E t.2) (pqPop s.pq, s.dist)).1,
             (relaxC (fun _ => 0) t.2 (E t.2) (pqPop s.pq, s.dist)).2, s.visited + 1⟩ := by
          simp [coreLoop, ht, hg]
        have hstepP : corePops E (fun _ => (0 : α)) goal (n + 1) s
            = t.2 :: corePops E (fun _ => 0) goal n
            ⟨(relaxC (fun _ => 0) t.2 (E t.2) (pqPop s.pq, s.dist)).1,
             (relaxC (fun _ => 0) t.2 (E t.2) (pqPop s.pq, s.dist)).2, s.visited + 1⟩ := by
          simp [corePops, ht, hg]
        obtain ⟨du, hJ⟩ := rinv_of_inv nodes vals hI ht
        obtain ⟨hI', _⟩ := relaxC_inv hnn hnodes hvals hJ
        have hQ' := queued_relaxC t.2 (E t.2) (pqPop s.pq) s.dist (popped ++ [t.2])
          (queued_pop hQ ht)
        rw [hstepL] at hrun
        have key := ih ⟨(relaxC (fun _ => 0) t.2 (E t.2) (pqPop s.pq, s.dist)).1,
             (relaxC (fun _ => 0) t.2 (E t.2) (pqPop s.pq, s.dist)).2, s.visited + 1⟩
             (popped ++ [t.2]) hI' hQ' hrun
        rw [hstepP]
        simpa [List.append_assoc] using key

/-! ## A* against Dijkstra: the dequeued nodes -/

/-- The nodes the two loops of `runExperiment` dequeue are those their common form dequeues on
the stored graph. -/
theorem runExperiment_pops {α : Type} [LinearOrderedCommRing α]
    (hav : Point α → Point α → α) (g : Graph α) (start goal : Int) (n : Nat) (d : DState α)
    (hd : dijkstraLoop goal n (dijkstraInit g start) = some d) :
    dijkstraPops goal n (dijkstraInit g start)
        = corePops (edgesOf g.adj) (fun _ => 0) goal n (coreInit start) ∧
      astarPops hav goal n (astarInit d.adj g.node_coords start)
        = corePops (edgesOf g.adj) (heur hav g.node_coords goal) goal n (coreInit start) := by
  have hEd : edgesOf d.adj = edgesOf g.adj := by
    funext v
    exact (dijkstraLoop_core goal n (dijkstraInit g start) (pqDom_init start)).2 d hd v
  refine ⟨dijkstraPops_core goal n (dijkstraInit g start) (pqDom_init start), ?_⟩
  rw [astarPops_core hav goal n (astarInit d.adj g.node_coords start) (pqDom_init start)]
  show corePops (edgesOf d.adj) _ goal n _ = _
  rw [hEd]
  rfl

/-- C3 (as amended). For every graph with non-negative edge weights whose heuristic is
consistent for the goal, and every start, `runExperiment` terminates (for every fuel of at
least `fuelBound`) and its two counts are the numbers of entries the loops dequeue. Every
node `u` the A* loop dequeues is reached by a walk whose weight plus the heuristic of `u` is at
most the weight of every walk to the goal; Dijkstra's loop dequeues every node reached by a
walk lighter than every walk to the goal. Hence every node the A* loop dequeues that is the
goal or has a positive heuristic is also dequeued by Dijkstra's loop, the number of distinct
such nodes is at most the number of distinct nodes Dijkstra's loop dequeues, which is at most
`dijkstra_visited`; and when the A* loop dequeues no node twice and every node it dequeues is
the goal or has a positive heuristic, `astar_visited <= dijkstra_visited`. -/
theorem astar_nodes_within_dijkstra {α : Type} [LinearOrderedCommRing α]
    (hav : Point α → Point α → α) (g : Graph α) (start goal : Int)
    (hnn : NonnegWeights g.adj) (hcons : Consistent hav g goal)
    (n : Nat) (hn : fuelBound g.adj start ≤ n) :
    ∃ d a, dijkstraLoop goal n (dijkstraInit g start) = some d ∧
      astarLoop hav goal n (astarInit d.adj g.node_coords start) = some a ∧
      runExperiment hav g start goal n
        = some (⟨(UMap.find a.dist goal).getD 0, d.visited, a.visited⟩,
            ⟨a.adj, a.node_coords⟩) ∧
      d.visited = (dijkstraPops goal n (dijkstraInit g start)).length ∧
      a.visited = (astarPops hav goal n (astarInit d.adj g.node_coords start)).length ∧
      (∀ u ∈ astarPops hav goal n (astarInit d.adj g.node_coords start),
        ∃ q, IsWalk (edgesOf g.adj) start q u ∧
          ∀ p, IsWalk (edgesOf g.adj) start p goal →
            weightOf q + heur hav g.node_coords goal u ≤ weightOf p) ∧
      (∀ u q, IsWalk (edgesOf g.adj) start q u →
        (∀ p, IsWalk (edgesOf g.adj) start p goal → weightOf q < weightOf p) →
        u ∈ dijkstraPops goal n (dijkstraInit g start)) ∧
      (∀ u ∈ astarPops hav goal n (astarInit d.adj g.node_coords start),
        u = goal ∨ 0 < heur hav g.node_coords goal u →
        u ∈ dijkstraPops goal n (dijkstraInit g start)) ∧
      ((astarPops hav goal n (astarInit d.adj g.node_coords start)).filter
          (fun u => decide (u = goal ∨ 0 < heur hav g.node_coords goal u))).dedup.length
        ≤ (dijkstraPops goal n (dijkstraInit g start)).dedup.length ∧
      (dijkstraPops goal n (dijkstraInit g start)).dedup.length ≤ d.visited ∧
      ((astarPops hav goal n (astarInit d.adj g.node_coords start)).Nodup →
        (∀ u ∈ astarPops hav goal n (astarInit d.adj g.node_coords start),
          u = goal ∨ 0 < heur hav g.node_coords goal u) →
        a.visited ≤ d.visited) := by
  obtain ⟨d, a, hd, ha, hrun, _, _, _, _⟩ :=
    runExperiment_terminates hav g start goal hnn n hn
  obtain ⟨rd, hrd, _⟩ := search_terminates g.adj (fun _ => (0 : α)) start goal hnn n hn
  obtain ⟨hpd, hpa⟩ := runExperiment_pops hav g start goal n d hd
  have hvd : d.visited = (dijkstraPops goal n (dijkstraInit g start)).length := by
    rw [dijkstraLoop_visited_pops goal n _ d hd]
    simp [dijkstraInit]
  have hva : a.visited
      = (astarPops hav goal n (astarInit d.adj g.node_coords start)).length := by
    rw [astarLoop_visited_pops hav goal n _ a ha]
    simp [astarInit]
  have hA : ∀ u ∈ astarPops hav goal n (astarInit d.adj g.node_coords start),
      ∃ q, IsWalk (edgesOf g.adj) start q u ∧
        ∀ p, IsWalk (edgesOf g.adj) start p goal →
          weightOf q + heur hav g.node_coords goal u ≤ weightOf p := by
    rw [hpa]
    exact corePops_bound (allNodes g.adj start) (allVals g.adj start) goal hnn
      (mem_allNodes_of_edgesOf g.adj start) (weightOf_mem_allVals g.adj start)
      (admissible_of_consistent hav g goal hcons) n (coreInit start)
      (inv_init (edgesOf g.adj) _ start) (goalOpen_init _ start goal)
  obtain ⟨hB1, hB2⟩ := corePops_complete (allNodes g.adj start) (allVals g.adj start) goal hnn
    (mem_allNodes_of_edgesOf g.adj start) (weightOf_mem_allVals g.adj start) n (coreInit start)
    [] rd (inv_init (edgesOf g.adj) _ start) (queued_init start) hrd
  rw [List.nil_append, ← hpd] at hB1 hB2
  have hsub : ∀ u ∈ astarPops hav goal n (astarInit d.adj g.node_coords start),
      u = goal ∨ 0 < heur hav g.node_coords goal u →
      u ∈ dijkstraPops goal n (dijkstraInit g start) := by
    intro u hu hc
    obtain ⟨q, hq, hle⟩ := hA u hu
    rcases hc with hc | hc
    · rw [hc] at hq ⊢
      exact hB2 q hq
    · refine hB1 u q hq ?_
      intro p hp
      have := hle p hp
      linarith
  refine ⟨d, a, hd, ha, hrun, hvd, hva, hA, hB1, hsub, ?_, ?_, ?_⟩
  · refine (List.Nodup.subperm (List.nodup_dedup _) ?_).length_le
    intro u hu
    rw [List.mem_dedup, List.mem_filter] at hu
    rw [List.mem_dedup]
    exact hsub u hu.1 (by simpa using hu.2)
  · rw [hvd]
    exact (List.dedup_sublist _).length_le
  · intro hnd hall
    rw [hva, hvd]
    refine (List.Nodup.subperm hnd ?_).length_le
    intro u hu
    exact hsub u hu (hall u hu)

/-- C3 (as amended) at a concrete input: `staleGraph` with start `1` and goal `5`, where the A*
loop dequeues node `4` twice. -/
theorem astar_nodes_within_dijkstra_witness :
    NonnegWeights (staleGraph ℝ).adj ∧ Consistent haversine (staleGraph ℝ) 5 ∧
      ∃ d a, dijkstraLoop 5 (fuelBound (staleGraph ℝ).adj 1) (dijkstraInit (staleGraph ℝ) 1)
          = some d ∧
        astarLoop haversine 5 (fuelBound (staleGraph ℝ).adj 1)
          (astarInit d.adj (staleGraph ℝ).node_coords 1) = some a ∧
        (∀ u ∈ astarPops haversine 5 (fuelBound (staleGraph ℝ).adj 1)
            (astarInit d.adj (staleGraph ℝ).node_coords 1),
          u = 5 ∨ 0 < heur haversine (staleGraph ℝ).node_coords 5 u →
          u ∈ dijkstraPops 5 (fuelBound (staleGraph ℝ).adj 1) (dijkstraInit (staleGraph ℝ) 1)) ∧
        ((astarPops haversine 5 (fuelBound (staleGraph ℝ).adj 1)
            (astarInit d.adj (staleGraph ℝ).node_coords 1)).filter
            (fun u => decide (u = 5 ∨ 0 < heur haversine (staleGraph ℝ).node_coords 5 u))
          ).dedup.length ≤ d.visited := by
  obtain ⟨d, a, hd, ha, _, _, _, _, _, hsub, hle1, hle2, _⟩ :=
    astar_nodes_within_dijkstra haversine (staleGraph ℝ) 1 5 staleGraph_nonneg
      staleGraph_consistent _ (le_refl _)
  exact ⟨staleGraph_nonneg, staleGraph_consistent, d, a, hd, ha, hsub, le_trans hle1 hle2⟩

/-! ## Nodes tied with the goal -/

theorem tieGraph_nonneg : NonnegWeights tieGraph.adj := by
  have hpi := Real.pi_pos
  apply nonneg_of_allEdges
  simp [allEdges, tieGraph]
  refine ⟨?_, ?_, ?_⟩ <;> linarith

theorem tieGraph_heur :
    heur haversine tieGraph.node_coords 1
      = fun v => if v = 4 ∨ v = 5 then 6371 * Real.pi else 0 := by
  funext v
  have hg : coordOf tieGraph.node_coords 1 = ⟨0, 0⟩ := by
    simp [coordOf, tieGraph, UMap.find]
  simp only [heur, hg]
  by_cases h4 : v = 4
  · subst h4
    simp [coordOf, tieGraph, UMap.find, haversine_antipode]
  · by_cases h5 : v = 5
    · subst h5
      simp [coordOf, tieGraph, UMap.find, haversine_antipode]
    · have h4' : ¬ (4 : Int) = v := fun h => h4 h.symm
      have h5' : ¬ (5 : Int) = v := fun h => h5 h.symm
      have hv : coordOf tieGraph.node_coords v = ⟨0, 0⟩ := by
        simp only [coordOf, tieGraph, UMap.find, h4', h5', if_false]
        split_ifs <;> rfl
      simp [hv, h4, h5, haversine_self]

theorem tieGraph_consistent : Consistent haversine tieGraph 1 := by
  have hK : (0:ℝ) ≤ 6371 * Real.pi := by positivity
  constructor
  · intro u e he
    rw [tieGraph_heur]
    obtain ⟨es, h1, h2⟩ := mem_edgesOf _ u e he
    simp [tieGraph] at h1
    rcases h1 with ⟨rfl, rfl⟩ | ⟨rfl, rfl⟩ | ⟨rfl, rfl⟩ | ⟨rfl, rfl⟩ | ⟨rfl, rfl⟩ <;>
      simp at h2 <;> (try rcases h2 with rfl | rfl | rfl) <;> norm_num <;> linarith
  · rw [tieGraph_heur]
    simp

theorem tieGraph_dijkstra_core :
    ∃ r, coreLoop (edgesOf tieGraph.adj) (fun _ => 0) 1 5 (coreInit 5) = some r ∧
      r.visited = 3 ∧
      corePops (edgesOf tieGraph.adj) (fun _ => 0) 1 5 (coreInit 5) = [5, 4, 1] := by
  have hpi := Real.pi_pos
  have e1 : (1 : ℝ) < 1 + 6371 * Real.pi := by linarith
  norm_num [coreLoop, corePops, coreInit, relaxC, pqTop, pqPop, pairLt, edgesOf, tieGraph,
    UMap.find, UMap.assign, e1]

set_option maxHeartbeats 4000000 in
theorem tieGraph_astar_core :
    ∃ r, coreLoop (edgesOf tieGraph.adj) (heur haversine tieGraph.node_coords 1) 1 5
        (coreInit 5) = some r ∧
      r.visited = 5 ∧
      corePops (edgesOf tieGraph.adj) (heur haversine tieGraph.node_coords 1) 1 5 (coreInit 5)
        = [5, 2, 3, 4, 1] := by
  rw [tieGraph_heur]
  have hpi := Real.pi_pos
  have e1 : (1 : ℝ) < 1 + 6371 * Real.pi := by linarith
  have e2 : ¬ ((1 : ℝ) + 6371 * Real.pi < 0) := by linarith
  norm_num [coreLoop, corePops, coreInit, relaxC, pqTop, pqPop, pairLt, edgesOf, tieGraph,
    UMap.find, UMap.assign, e1, e2]

/-- A consistent heuristic does not order the counts even when no entry is stale: on
`tieGraph` the weights are non-negative and the haversine heuristic is consistent for the goal
`1`, the A* loop dequeues `5, 2, 3, 4, 1` (no node twice) and Dijkstra's loop dequeues `5, 4, 1`.
The nodes `2` and `3` share the coordinate of the goal, so their priority `1 + 6371 * π` ties
with the priority of node `4`, the only way to the goal, and the smaller ids are dequeued
first. -/
theorem astar_pops_tied_nodes :
    NonnegWeights tieGraph.adj ∧ Consistent haversine tieGraph 1 ∧
      ∃ d a, dijkstraLoop 1 5 (dijkstraInit tieGraph 5) = some d ∧
        astarLoop haversine 1 5 (astarInit d.adj tieGraph.node_coords 5) = some a ∧
        runExperiment haversine tieGraph 5 1 5
          = some (⟨(UMap.find a.dist 1).getD 0, d.visited, a.visited⟩,
              ⟨a.adj, a.node_coords⟩) ∧
        dijkstraPops 1 5 (dijkstraInit tieGraph 5) = [5, 4, 1] ∧
        astarPops haversine 1 5 (astarInit d.adj tieGraph.node_coords 5) = [5, 2, 3, 4, 1] ∧
        d.visited = 3 ∧ a.visited = 5 ∧ ¬ a.visited ≤ d.visited := by
  obtain ⟨rd, hrd, hvd, hpd⟩ := tieGraph_dijkstra_core
  obtain ⟨ra, hra, hva, hpa⟩ := tieGraph_astar_core
  obtain ⟨d, a, hd, ha, hdc, hac, _, _, hrun⟩ :=
    runExperiment_of_core haversine tieGraph 5 1 5 rd ra hrd hra
  obtain ⟨h1, h2⟩ := runExperiment_pops haversine tieGraph 5 1 5 d hd
  have e1 : d.visited = 3 := by
    rw [← hvd, ← hdc]
    rfl
  have e2 : a.visited = 5 := by
    rw [← hva, ← hac]
    rfl
  have e3 : a.dist = ra.dist := by
    rw [← hac]
    rfl
  refine ⟨tieGraph_nonneg, tieGraph_consistent, d, a, hd, ha, ?_, h1.trans hpd, h2.trans hpa,
    e1, e2, ?_⟩
  · rw [hrun, e3, e1, e2, hvd, hva]
  · rw [e1, e2]
    decide

end Lucknow
